import Mathlib

/-!
# Reactor reboot (2021 day 22): the signed-box ledger

A shallow embedding of `src/2021/day22.cpp`: the `box` class (`size`, `is_in`, `is_add`,
`overlap`), `parse_step` with its regular expression, `step_covers_part1_region`,
`count_cells` and `follow_steps`, followed by the properties of the inclusion-exclusion
ledger, of the line parser, and the totals of the examples of the puzzle statement.

C++ `int` is a 32-bit and `int64_t` a 64-bit two's complement integer.  Coordinates are kept
as `Int`; comparisons, `std::min` and `std::max` never overflow, the arithmetic of `size()`
and of the summation does, and is therefore routed through an `int_model`.

The definitions of three further programs follow those of day 22, each in its own
namespace: the scratchcards of `src/2023/day4.cpp`, the falling rocks of
`src/2022/day17.cpp` and the crab cups of `src/2020/day23.cpp`.  The properties come after
all the definitions, in the same order.
-/

namespace Day22

/-! ## Machine integers -/

/-- Two's complement reduction of an integer to the 32-bit signed range. -/
def wrap32 (v : Int) : Int := (v + 2 ^ 31) % 2 ^ 32 - 2 ^ 31

/-- Two's complement reduction of an integer to the 64-bit signed range. -/
def wrap64 (v : Int) : Int := (v + 2 ^ 63) % 2 ^ 64 - 2 ^ 63

/-- The value is representable as a C++ `int`. -/
def in_int32 (v : Int) : Prop := -(2 ^ 31) ≤ v ∧ v < 2 ^ 31

/-- The value is representable as a C++ `int64_t`. -/
def in_int64 (v : Int) : Prop := -(2 ^ 63) ≤ v ∧ v < 2 ^ 63

instance (v : Int) : Decidable (in_int32 v) :=
  inferInstanceAs (Decidable (-(2 ^ 31) ≤ v ∧ v < 2 ^ 31))

instance (v : Int) : Decidable (in_int64 v) :=
  inferInstanceAs (Decidable (-(2 ^ 63) ≤ v ∧ v < 2 ^ 63))

/-- How the result of an `int` operation and of an `int64_t` operation is stored. -/
structure int_model where
  i32 : Int → Int
  i64 : Int → Int

/-- The arithmetic the compiled program performs: results wrap to their width. -/
def machine : int_model := ⟨wrap32, wrap64⟩

/-- Arithmetic over unbounded integers: no result is ever reduced. -/
def unbounded : int_model := ⟨id, id⟩

/-! ## Data model -/

/-- The `enum class toggle : bool`. -/
inductive toggle where
  | off
  | on
deriving DecidableEq, Repr

/-- The cast chain `static_cast<toggle>(!static_cast<bool>(s))`. -/
def toggle.flip : toggle → toggle
  | toggle.off => toggle.on
  | toggle.on => toggle.off

/-- The type `point<3>`: three `int` coordinates, indices 0, 1, 2. -/
structure point_3d where
  x : Int
  y : Int
  z : Int
deriving DecidableEq, Repr

/-- Indexing `p[i]` for `i` in 0..2. -/
def point_3d.get (p : point_3d) (i : Fin 3) : Int :=
  match i with
  | 0 => p.x
  | 1 => p.y
  | 2 => p.z

/-- The class `box`: two corners and a toggle. -/
structure box where
  m_min : point_3d
  m_max : point_3d
  m_state : toggle
deriving DecidableEq, Repr

/-- The two-argument constructor: `m_state` keeps its default `toggle::on`. -/
def box.mk2 (mn mx : point_3d) : box := ⟨mn, mx, toggle.on⟩

/-- The factor `(m_state == toggle::on ? 1 : -1)`. -/
def box.sign (b : box) : Int := if b.m_state = toggle.on then 1 else -1

/-- The expression `m_max[i] - m_min[i] + 1`, computed in `int`. -/
def box.extent (m : int_model) (b : box) (i : Fin 3) : Int :=
  m.i32 (m.i32 (b.m_max.get i - b.m_min.get i) + 1)

/-- The method `box::size` under a given integer model: the three extents are computed in
`int`, widened, and multiplied left to right in `int64_t` with the sign factor last. -/
def box.size_in (m : int_model) (b : box) : Int :=
  m.i64 (m.i64 (m.i64 (b.extent m 0 * b.extent m 1) * b.extent m 2) * b.sign)

/-- The method `box::size` as the program computes it. -/
def box.size (b : box) : Int := b.size_in machine

/-- The method `box::is_in`: the loop over the three axes returns false at the first axis
on which this box sticks out of `bigger`. -/
def box.is_in (b bigger : box) : Bool :=
  if b.m_min.x < bigger.m_min.x ∨ b.m_max.x > bigger.m_max.x then false
  else if b.m_min.y < bigger.m_min.y ∨ b.m_max.y > bigger.m_max.y then false
  else if b.m_min.z < bigger.m_min.z ∨ b.m_max.z > bigger.m_max.z then false
  else true

/-- The method `box::is_add`. -/
def box.is_add (b : box) : Bool := decide (b.m_state = toggle.on)

/-- The local `non_intercepting` of `box::overlap`. -/
def box.non_intercepting (a b : box) : Bool :=
  decide (b.m_max.x < a.m_min.x) || decide (b.m_min.x > a.m_max.x) ||
  decide (b.m_max.y < a.m_min.y) || decide (b.m_min.y > a.m_max.y) ||
  decide (b.m_max.z < a.m_min.z) || decide (b.m_min.z > a.m_max.z)

/-- The method `box::overlap`, called on `a` with argument `b`. -/
def box.overlap (a b : box) : Option box :=
  if a.non_intercepting b then none
  else some
    ⟨⟨max a.m_min.x b.m_min.x, max a.m_min.y b.m_min.y, max a.m_min.z b.m_min.z⟩,
     ⟨min a.m_max.x b.m_max.x, min a.m_max.y b.m_max.y, min a.m_max.z b.m_max.z⟩,
     a.m_state.flip⟩

/-- The function `step_covers_part1_region`. -/
def step_covers_part1_region (s : box) : Bool :=
  s.is_in (box.mk2 ⟨-50, -50, -50⟩ ⟨50, 50, 50⟩)

/-- Modelled from the spec: `aoc::sum` of `sum.h` is not among the sources; `count_cells`
is "the signed sum of `volume()` over the entire ledger", accumulated here from 0 in
`int64_t`, one entry after the other. -/
def count_cells_in (m : int_model) (states : List box) : Int :=
  states.foldl (fun acc b => m.i64 (acc + b.size_in m)) 0

/-- The function `count_cells` as the program computes it. -/
def count_cells (states : List box) : Int := count_cells_in machine states

/-- The inner loop of `follow_steps`: every existing entry `ps` whose overlap with `s`
exists pushes it to the back of `to_add`. -/
def push_overlaps (s : box) (to_add states : List box) : List box :=
  states.foldl
    (fun acc ps =>
      match ps.overlap s with
      | some o => acc ++ [o]
      | none => acc)
    to_add

/-- The body of the guarded block of `follow_steps` for one processed operation. -/
def process_step (states : List box) (s : box) : List box :=
  let to_add : List box := if s.is_add then [s] else []
  let to_add := push_overlaps s to_add states
  states ++ to_add

/-- One iteration of the outer loop of `follow_steps`. -/
def follow_step (all_space : Bool) (states : List box) (s : box) : List box :=
  if all_space || step_covers_part1_region s then process_step states s else states

/-- The function `follow_steps` (the step logger observes, it does not change the
ledger).  The ledger as it stands after the k-th iteration is the result on the first k
operations. -/
def follow_steps (input : List box) (all_space : Bool) : List box :=
  input.foldl (follow_step all_space) []

/-! ## Reference semantics: the grid of cubes -/

/-- An integer cell of the grid. -/
abbrev cell := Int × Int × Int

/-- The cell lies within the inclusive bounds of the box on every axis. -/
def box.contains (b : box) (c : cell) : Bool :=
  decide (b.m_min.x ≤ c.1 ∧ c.1 ≤ b.m_max.x ∧
          b.m_min.y ≤ c.2.1 ∧ c.2.1 ≤ b.m_max.y ∧
          b.m_min.z ≤ c.2.2 ∧ c.2.2 ≤ b.m_max.z)

/-- The finite set of integer cells of a box. -/
def box.cells (b : box) : Finset cell :=
  Finset.Icc b.m_min.x b.m_max.x ×ˢ Finset.Icc b.m_min.y b.m_max.y ×ˢ
    Finset.Icc b.m_min.z b.m_max.z

/-- The box has `min ≤ max` on every axis. -/
def box.valid (b : box) : Prop :=
  b.m_min.x ≤ b.m_max.x ∧ b.m_min.y ≤ b.m_max.y ∧ b.m_min.z ≤ b.m_max.z

instance (b : box) : Decidable b.valid :=
  inferInstanceAs
    (Decidable (b.m_min.x ≤ b.m_max.x ∧ b.m_min.y ≤ b.m_max.y ∧ b.m_min.z ≤ b.m_max.z))

/-- The state of one cell after the operations are applied in order to an all-off grid:
an operation whose box holds the cell sets it to the operation's toggle. -/
def is_on (ops : List box) (c : cell) : Bool :=
  ops.foldl (fun st s => if s.contains c then s.is_add else st) false

/-- The set of cells that are on after the operations are applied in order to an all-off
grid: "on" adds every cell of the box, "off" removes every cell of the box. -/
def on_cells (ops : List box) : Finset cell :=
  ops.foldl (fun S s => if s.is_add then S ∪ s.cells else S \ s.cells) ∅

/-- The signed number of ledger entries that contain the cell. -/
def signed_count (ledger : List box) (c : cell) : Int :=
  (ledger.map (fun b => if b.contains c then b.sign else 0)).sum

/-- The spec's `volume()`: the product of `(max - min + 1)` over the three axes times the
sign, over the integers. -/
def box.volume (b : box) : Int :=
  (b.m_max.x - b.m_min.x + 1) * (b.m_max.y - b.m_min.y + 1) * (b.m_max.z - b.m_min.z + 1) *
    b.sign

/-- No step of `box::size` leaves the range of its type: on every axis `max - min` and
`max - min + 1` fit in `int`, and the three successive products fit in `int64_t`. -/
def box.no_overflow (b : box) : Prop :=
  (∀ i : Fin 3, in_int32 (b.m_max.get i - b.m_min.get i) ∧
      in_int32 (b.m_max.get i - b.m_min.get i + 1)) ∧
  in_int64 ((b.m_max.x - b.m_min.x + 1) * (b.m_max.y - b.m_min.y + 1)) ∧
  in_int64 ((b.m_max.x - b.m_min.x + 1) * (b.m_max.y - b.m_min.y + 1) *
      (b.m_max.z - b.m_min.z + 1)) ∧
  in_int64 ((b.m_max.x - b.m_min.x + 1) * (b.m_max.y - b.m_min.y + 1) *
      (b.m_max.z - b.m_min.z + 1) * b.sign)

/-- A box whose x axis spans the whole `int` range. -/
def wide_box : box := ⟨⟨-2147483648, 0, 0⟩, ⟨2147483647, 0, 0⟩, toggle.on⟩

/-- The function `part_1` on parsed input, before the total is formatted. -/
def part_1 (input : List box) : Int := count_cells (follow_steps input false)

/-- The answer the puzzle statement of part 1 asks for: the number of cubes with x, y and z
all in [-50, 50] that are on after all the steps, cubes outside that region being ignored. -/
def region_on_count (ops : List box) : Nat :=
  ((on_cells ops).filter
    (fun c => (box.mk2 ⟨-50, -50, -50⟩ ⟨50, 50, 50⟩).contains c = true)).card

/-- The single step `on x=50..51,y=0..0,z=0..0`, which straddles the border of the region. -/
def straddling_step : box := ⟨⟨50, 0, 0⟩, ⟨51, 0, 0⟩, toggle.on⟩

/-- All six coordinates of the box lie in `[-B, B]`. -/
def box.coords_within (B : Int) (b : box) : Prop :=
  (-B ≤ b.m_min.x ∧ b.m_min.x ≤ B) ∧ (-B ≤ b.m_min.y ∧ b.m_min.y ≤ B) ∧
  (-B ≤ b.m_min.z ∧ b.m_min.z ≤ B) ∧ (-B ≤ b.m_max.x ∧ b.m_max.x ≤ B) ∧
  (-B ≤ b.m_max.y ∧ b.m_max.y ≤ B) ∧ (-B ≤ b.m_max.z ∧ b.m_max.z ≤ B)

instance (B : Int) (b : box) : Decidable (b.coords_within B) :=
  inferInstanceAs (Decidable (
    (-B ≤ b.m_min.x ∧ b.m_min.x ≤ B) ∧ (-B ≤ b.m_min.y ∧ b.m_min.y ≤ B) ∧
    (-B ≤ b.m_min.z ∧ b.m_min.z ≤ B) ∧ (-B ≤ b.m_max.x ∧ b.m_max.x ≤ B) ∧
    (-B ≤ b.m_max.y ∧ b.m_max.y ≤ B) ∧ (-B ≤ b.m_max.z ∧ b.m_max.z ≤ B)))

/-- The function `part_2` on parsed input, before the total is formatted. -/
def part_2 (input : List box) : Int := count_cells (follow_steps input true)

/-- The signed product of extents contributed to the ledger by the entry `b` and by every
entry derived from it through overlaps with the later operations `rest`, in order: the entry
itself, and for each later operation that overlaps it, the contribution of the overlap under
the operations after that one. -/
def chain_volume (b : box) : List box → Int
  | [] => b.volume
  | s :: rest =>
    (match b.overlap s with
     | some o => chain_volume o rest
     | none => 0) + chain_volume b rest

/-- The total of `chain_volume` over the seed entries: every "on" operation under the
operations that follow it. -/
def ledger_total : List box → Int
  | [] => 0
  | s :: rest => (if s.is_add then chain_volume s rest else 0) + ledger_total rest

/-- The calls `step_logger(states, step)` made by `follow_steps`, in order: one per processed
operation, with the ledger after that operation and the running step counter. -/
def follow_steps_log (input : List box) (all_space : Bool) : List (List box × Nat) :=
  (input.foldl
    (fun (acc : List box × Nat × List (List box × Nat)) s =>
      if all_space || step_covers_part1_region s then
        (process_step acc.1 s, acc.2.1 + 1, acc.2.2 ++ [(process_step acc.1 s, acc.2.1)])
      else acc)
    ([], 0, [])).2.2

/-- The four operations of the worked example (the test case `2021_day22:example`). -/
def example_steps : List box := [
  ⟨⟨10, 10, 10⟩, ⟨12, 12, 12⟩, toggle.on⟩,
  ⟨⟨11, 11, 11⟩, ⟨13, 13, 13⟩, toggle.on⟩,
  ⟨⟨9, 9, 9⟩, ⟨11, 11, 11⟩, toggle.off⟩,
  ⟨⟨10, 10, 10⟩, ⟨10, 10, 10⟩, toggle.on⟩]

/-- The 22 operations of the larger example in the comment of `part_1`. -/
def larger_example : List box := [
  ⟨⟨-20, -36, -47⟩, ⟨26, 17, 7⟩, toggle.on⟩,
  ⟨⟨-20, -21, -26⟩, ⟨33, 23, 28⟩, toggle.on⟩,
  ⟨⟨-22, -29, -38⟩, ⟨28, 23, 16⟩, toggle.on⟩,
  ⟨⟨-46, -6, -50⟩, ⟨7, 46, -1⟩, toggle.on⟩,
  ⟨⟨-49, -3, -24⟩, ⟨1, 46, 28⟩, toggle.on⟩,
  ⟨⟨2, -22, -23⟩, ⟨47, 22, 27⟩, toggle.on⟩,
  ⟨⟨-27, -28, -21⟩, ⟨23, 26, 29⟩, toggle.on⟩,
  ⟨⟨-39, -6, -3⟩, ⟨5, 47, 44⟩, toggle.on⟩,
  ⟨⟨-30, -8, -13⟩, ⟨21, 43, 34⟩, toggle.on⟩,
  ⟨⟨-22, -27, -29⟩, ⟨26, 20, 19⟩, toggle.on⟩,
  ⟨⟨-48, 26, -47⟩, ⟨-32, 41, -37⟩, toggle.off⟩,
  ⟨⟨-12, 6, -50⟩, ⟨35, 50, -2⟩, toggle.on⟩,
  ⟨⟨-48, -32, -15⟩, ⟨-32, -16, -5⟩, toggle.off⟩,
  ⟨⟨-18, -33, -7⟩, ⟨26, 15, 46⟩, toggle.on⟩,
  ⟨⟨-40, -38, 23⟩, ⟨-22, -28, 41⟩, toggle.off⟩,
  ⟨⟨-16, -41, -47⟩, ⟨35, 10, 6⟩, toggle.on⟩,
  ⟨⟨-32, 11, -14⟩, ⟨-23, 30, 3⟩, toggle.off⟩,
  ⟨⟨-49, -3, -29⟩, ⟨-5, 45, 18⟩, toggle.on⟩,
  ⟨⟨18, -20, -3⟩, ⟨30, -8, 13⟩, toggle.off⟩,
  ⟨⟨-41, -7, -33⟩, ⟨9, 43, 15⟩, toggle.on⟩,
  ⟨⟨-54112, -85059, -27449⟩, ⟨-39298, -49293, 7877⟩, toggle.on⟩,
  ⟨⟨967, 45373, 27513⟩, ⟨23432, 81175, 53682⟩, toggle.on⟩]

/-- The 60 operations of the example in the comment of `part_2`. -/
def part2_example : List box := [
  ⟨⟨-5, -31, -19⟩, ⟨47, 22, 33⟩, toggle.on⟩,
  ⟨⟨-44, -27, -14⟩, ⟨5, 21, 35⟩, toggle.on⟩,
  ⟨⟨-49, -11, -10⟩, ⟨-1, 42, 38⟩, toggle.on⟩,
  ⟨⟨-20, -40, -44⟩, ⟨34, 6, 1⟩, toggle.on⟩,
  ⟨⟨26, 40, -2⟩, ⟨39, 50, 11⟩, toggle.off⟩,
  ⟨⟨-41, -41, -36⟩, ⟨5, 6, 8⟩, toggle.on⟩,
  ⟨⟨-43, -45, 7⟩, ⟨-33, -28, 25⟩, toggle.off⟩,
  ⟨⟨-33, -32, -34⟩, ⟨15, 19, 11⟩, toggle.on⟩,
  ⟨⟨35, -46, -11⟩, ⟨47, -34, 5⟩, toggle.off⟩,
  ⟨⟨-14, -6, -16⟩, ⟨36, 44, 29⟩, toggle.on⟩,
  ⟨⟨-57795, 29564, 20435⟩, ⟨-6158, 72030, 90618⟩, toggle.on⟩,
  ⟨⟨36731, -21140, 16094⟩, ⟨105352, 28532, 90401⟩, toggle.on⟩,
  ⟨⟨30999, -53464, 8553⟩, ⟨107136, 15513, 71215⟩, toggle.on⟩,
  ⟨⟨13528, -99403, -24141⟩, ⟨83982, -27377, 23996⟩, toggle.on⟩,
  ⟨⟨-72682, 18159, 7391⟩, ⟨-12347, 111354, 80950⟩, toggle.on⟩,
  ⟨⟨-1060, -65301, -103788⟩, ⟨80757, -20884, -16709⟩, toggle.on⟩,
  ⟨⟨-83015, -72160, -81239⟩, ⟨-9461, -8347, -26856⟩, toggle.on⟩,
  ⟨⟨-52752, -49450, 54442⟩, ⟨22273, 9096, 119054⟩, toggle.on⟩,
  ⟨⟨-29982, -108474, -24328⟩, ⟨40483, -28371, 38471⟩, toggle.on⟩,
  ⟨⟨-4958, 40422, -7672⟩, ⟨62750, 118853, 65583⟩, toggle.on⟩,
  ⟨⟨55694, -43367, -26781⟩, ⟨108686, 46958, 48729⟩, toggle.on⟩,
  ⟨⟨-98497, -63569, 1232⟩, ⟨-18186, 3412, 88485⟩, toggle.on⟩,
  ⟨⟨-726, -62629, 18033⟩, ⟨56291, 13224, 85226⟩, toggle.on⟩,
  ⟨⟨-110886, -81338, 8914⟩, ⟨-34664, -8658, 63723⟩, toggle.on⟩,
  ⟨⟨-55829, -16897, -121762⟩, ⟨24974, 54165, -28058⟩, toggle.on⟩,
  ⟨⟨-65152, 22489, -58782⟩, ⟨-11147, 91432, 1780⟩, toggle.on⟩,
  ⟨⟨-120100, -46592, -11695⟩, ⟨-32970, 27473, 61039⟩, toggle.on⟩,
  ⟨⟨-18631, -124565, -35667⟩, ⟨37533, -50804, 28308⟩, toggle.on⟩,
  ⟨⟨-57817, 49321, 5745⟩, ⟨18248, 117703, 55881⟩, toggle.on⟩,
  ⟨⟨14781, -1341, 15753⟩, ⟨98692, 70827, 70151⟩, toggle.on⟩,
  ⟨⟨-34419, -19626, 39015⟩, ⟨55919, 40991, 114138⟩, toggle.on⟩,
  ⟨⟨-60785, -56135, -95368⟩, ⟨11593, 2999, -26915⟩, toggle.on⟩,
  ⟨⟨-32178, 17647, -91405⟩, ⟨58085, 101866, -8878⟩, toggle.on⟩,
  ⟨⟨-53655, 50097, -75335⟩, ⟨12091, 105568, -4862⟩, toggle.on⟩,
  ⟨⟨-111166, -71714, 5609⟩, ⟨-40997, 2688, 50954⟩, toggle.on⟩,
  ⟨⟨-16602, -98693, 5197⟩, ⟨70118, -44401, 76897⟩, toggle.on⟩,
  ⟨⟨16383, 4615, -44907⟩, ⟨101554, 83635, 18747⟩, toggle.on⟩,
  ⟨⟨-95822, -19987, 10804⟩, ⟨-15171, 48940, 104439⟩, toggle.off⟩,
  ⟨⟨-89813, 16069, -3297⟩, ⟨-14614, 88491, 45228⟩, toggle.on⟩,
  ⟨⟨41075, -20427, -52012⟩, ⟨99376, 49978, 13762⟩, toggle.on⟩,
  ⟨⟨-21330, -17944, -112280⟩, ⟨50085, 62733, -30197⟩, toggle.on⟩,
  ⟨⟨-16478, 36008, -7885⟩, ⟨35915, 118594, 47086⟩, toggle.on⟩,
  ⟨⟨-98156, -49952, -99005⟩, ⟨-27851, 43171, -8456⟩, toggle.off⟩,
  ⟨⟨2032, -71013, 7471⟩, ⟨69770, 4824, 94418⟩, toggle.off⟩,
  ⟨⟨43670, -42068, -24787⟩, ⟨120875, 12382, 38892⟩, toggle.on⟩,
  ⟨⟨37514, -45862, -16714⟩, ⟨111226, 25743, 54663⟩, toggle.off⟩,
  ⟨⟨25699, -30668, -15349⟩, ⟨97951, 59918, 69697⟩, toggle.off⟩,
  ⟨⟨-44271, -9516, 49131⟩, ⟨17935, 60759, 112598⟩, toggle.off⟩,
  ⟨⟨-61695, 40978, 8655⟩, ⟨-5813, 94975, 80240⟩, toggle.on⟩,
  ⟨⟨-101086, -7088, 33935⟩, ⟨-9439, 67543, 83858⟩, toggle.off⟩,
  ⟨⟨18020, -48931, 21474⟩, ⟨114017, 32606, 89843⟩, toggle.off⟩,
  ⟨⟨-77139, -89994, -80⟩, ⟨10506, -18797, 59318⟩, toggle.off⟩,
  ⟨⟨8476, -75520, -96624⟩, ⟨79288, 11602, -24783⟩, toggle.off⟩,
  ⟨⟨-47488, 24338, 16292⟩, ⟨-1262, 100707, 72967⟩, toggle.on⟩,
  ⟨⟨-84341, 2429, -90671⟩, ⟨13987, 92914, -1318⟩, toggle.off⟩,
  ⟨⟨-37810, -71013, -105357⟩, ⟨49457, -7894, -13188⟩, toggle.off⟩,
  ⟨⟨-27365, 31009, 15428⟩, ⟨46395, 98017, 76570⟩, toggle.off⟩,
  ⟨⟨-70369, 22648, -1892⟩, ⟨-16548, 78696, 86821⟩, toggle.off⟩,
  ⟨⟨-53470, -120233, -44150⟩, ⟨21291, -33476, 38147⟩, toggle.on⟩,
  ⟨⟨-93533, -16170, -104985⟩, ⟨-4276, 68771, -24507⟩, toggle.off⟩]

/-! ## The line parser -/

/-- A regular expression, restricted to the constructs the pattern of `parse_step` uses: a
character of a class, a greedy optional part, a greedy repetition `+` of a character class,
concatenation, alternation and a capturing group. -/
inductive regex where
  | eps
  | cls (p : Char → Bool)
  | opt (r : regex)
  | plus (p : Char → Bool)
  | seq (a b : regex)
  | alt (a b : regex)
  | group (r : regex)

/-- A literal character of the pattern. -/
def regex.chr (c : Char) : regex := regex.cls (fun d => d == c)

/-- The atom `.` of the ECMAScript grammar: any character but a line terminator. -/
def regex.any : regex := regex.cls (fun d => !(d == '\n' || d == '\r'))

/-- The atom `\d`. -/
def regex.digit_plus : regex := regex.plus Char.isDigit

/-- A run of literal characters of the pattern. -/
def regex.lit : List Char → regex
  | [] => regex.eps
  | c :: t => regex.seq (regex.chr c) (regex.lit t)

/-- Greedy repetition `*` of a character class by backtracking: the longest run first, then
shorter ones, down to the empty run. -/
def star_class {α : Type} (p : Char → Bool) (k : List Char → Option α) : List Char → Option α
  | [] => k []
  | c :: t => if p c then (star_class p k t).orElse (fun _ => k (c :: t)) else k (c :: t)

/-- Backtracking matcher in the order of the ECMAScript semantics: `run r s caps k` matches
`r` at the front of `s` and hands the rest of the input and the sub-matches recorded so far
to the continuation `k`; the first alternative for which the continuation succeeds wins. -/
def regex.run : regex → List Char → List (List Char) →
    (List Char → List (List Char) → Option (List (List Char))) → Option (List (List Char))
  | regex.eps, s, caps, k => k s caps
  | regex.cls p, s, caps, k =>
    match s with
    | c :: t => if p c then k t caps else none
    | [] => none
  | regex.opt r, s, caps, k => (r.run s caps k).orElse (fun _ => k s caps)
  | regex.plus p, s, caps, k =>
    match s with
    | c :: t => if p c then star_class p (fun rest => k rest caps) t else none
    | [] => none
  | regex.seq a b, s, caps, k => a.run s caps (fun rest caps1 => b.run rest caps1 k)
  | regex.alt a b, s, caps, k => (a.run s caps k).orElse (fun _ => b.run s caps k)
  | regex.group r, s, caps, k =>
    r.run s caps (fun rest caps1 => k rest (caps1 ++ [s.take (s.length - rest.length)]))

/-- The final continuation of a whole-input match: the input must be used up. -/
def at_end (rest : List Char) (caps : List (List Char)) : Option (List (List Char)) :=
  if rest = [] then some caps else none

/-- The call `std::regex_match`: the whole input must match; the result lists the
sub-matches 1, 2, ... in order. -/
def regex_match (r : regex) (s : List Char) : Option (List (List Char)) :=
  r.run s [] at_end

/-- The sub-pattern `(-?\d+)`. -/
def num_re : regex := regex.group (regex.seq (regex.opt (regex.chr '-')) regex.digit_plus)

/-- The sub-pattern `(-?\d+)..(-?\d+)`: the two dots are unescaped in the source, so each
stands for an arbitrary character. -/
def pair_re (next : regex) : regex :=
  regex.seq num_re (regex.seq regex.any (regex.seq regex.any (regex.seq num_re next)))

/-- The pattern of `parse_step`:
`(on|off) x=(-?\d+)..(-?\d+),y=(-?\d+)..(-?\d+),z=(-?\d+)..(-?\d+)`. -/
def step_re : regex :=
  regex.seq (regex.group (regex.alt (regex.lit "on".toList) (regex.lit "off".toList)))
    (regex.seq (regex.lit " x=".toList)
      (pair_re (regex.seq (regex.lit ",y=".toList)
        (pair_re (regex.seq (regex.lit ",z=".toList) (pair_re regex.eps))))))

/-- The value of a run of decimal digits. -/
def digits_value (ds : List Char) : Nat :=
  ds.foldl (fun acc c => 10 * acc + (c.toNat - '0'.toNat)) 0

/-- The value of a numeral `-?\d+`. -/
def numeral_value (s : List Char) : Int :=
  match s with
  | '-' :: ds => -(digits_value ds : Int)
  | ds => (digits_value ds : Int)

/-- Modelled from the spec: `parse<int>` of `parse.h` is not among the sources; it reads a
"signed decimal integer" into an `int`, and is taken to fail when the value does not fit. -/
def parse_int (s : List Char) : Except String Int :=
  if in_int32 (numeral_value s) then Except.ok (numeral_value s)
  else Except.error "value out of range"

deriving instance DecidableEq for Except

/-- The function `parse_step`: the line must match the pattern as a whole, the first
sub-match gives the toggle, the other six the coordinates, sorted per axis. -/
def parse_step (s : List Char) : Except String box :=
  match regex_match step_re s with
  | some [g1, g2, g3, g4, g5, g6, g7] => do
    let state := if g1 = "on".toList then toggle.on else toggle.off
    let x1 ← parse_int g2
    let x2 ← parse_int g3
    let y1 ← parse_int g4
    let y2 ← parse_int g5
    let z1 ← parse_int g6
    let z2 ← parse_int g7
    pure ⟨⟨min x1 x2, min y1 y2, min z1 z2⟩, ⟨max x1 x2, max y1 y2, max z1 z2⟩, state⟩
  | _ => Except.error "Line did not match expected format"

/-- The text matches `-?\d+`: an optional minus sign and at least one decimal digit. -/
def is_numeral (s : List Char) : Bool :=
  match s with
  | '-' :: ds => !ds.isEmpty && ds.all Char.isDigit
  | ds => !ds.isEmpty && ds.all Char.isDigit

/-- The line `<on|off> x=<a>..<b>,y=<c>..<d>,z=<e>..<f>` of the input grammar, with two
literal dots between the numerals of an axis. -/
def grammar_line (kw_on : Bool) (a b c d e f : List Char) : List Char :=
  (if kw_on then "on".toList else "off".toList) ++ " x=".toList ++ a ++ "..".toList ++ b ++
    ",y=".toList ++ c ++ "..".toList ++ d ++ ",z=".toList ++ e ++ "..".toList ++ f

/-- The line is a line of the input grammar. -/
def is_grammar_line (s : List Char) : Prop :=
  ∃ (kw_on : Bool) (a b c d e f : List Char),
    is_numeral a = true ∧ is_numeral b = true ∧ is_numeral c = true ∧
    is_numeral d = true ∧ is_numeral e = true ∧ is_numeral f = true ∧
    s = grammar_line kw_on a b c d e f

/-- The lines of the test case `2021_day22:example`. -/
def example_lines : List String := [
  "on x=10..12,y=10..12,z=10..12",
  "on x=11..13,y=11..13,z=11..13",
  "off x=9..11,y=9..11,z=9..11",
  "on x=10..10,y=10..10,z=10..10"]

/-- A line that is not of the input grammar: two letters stand where the dots belong. -/
def stray_line : String := "on x=1ab2,y=3..4,z=5..6"

/-- The line `off x=9..11,y=9..11,z=9..11`, third line of the worked example. -/
def off_line : String := "off x=9..11,y=9..11,z=9..11"

/-- A line of the grammar whose x values are the two ends of the `int` range. -/
def wide_line : String := "on x=-2147483648..2147483647,y=0..0,z=0..0"

/-! ## Evaluation on shifted natural-number coordinates -/

/-- Six natural-number coordinates: a box with every coordinate shifted by 2^17, the form in
which the totals of the examples are evaluated. -/
structure nbox where
  x0 : Nat
  y0 : Nat
  z0 : Nat
  x1 : Nat
  y1 : Nat
  z1 : Nat
deriving DecidableEq, Repr

/-- Hands the value of `n` to `k`; `n` is evaluated first. -/
def force_nat {α : Type} (n : Nat) (k : Nat → α) : α :=
  match n with
  | 0 => k 0
  | m + 1 => k (m + 1)

/-- The coordinate shifted by 2^17. -/
def shift (v : Int) : Nat := (v + 131072).toNat

/-- The corners of a box, shifted by 2^17 on every axis. -/
def to_nbox (b : box) : nbox :=
  ⟨shift b.m_min.x, shift b.m_min.y, shift b.m_min.z,
   shift b.m_max.x, shift b.m_max.y, shift b.m_max.z⟩

/-- The number of cells between the corners. -/
def nbox.volume (b : nbox) : Nat := (b.x1 - b.x0 + 1) * (b.y1 - b.y0 + 1) * (b.z1 - b.z0 + 1)

/-- The test `non_intercepting` of `box::overlap` on shifted corners. -/
def nbox.apart (b s : nbox) : Bool :=
  Nat.blt s.x1 b.x0 || Nat.blt b.x1 s.x0 || Nat.blt s.y1 b.y0 || Nat.blt b.y1 s.y0 ||
    Nat.blt s.z1 b.z0 || Nat.blt b.z1 s.z0

/-- The sum `chain_volume` of an entry with sign +1, split into the total of its positive
terms and the total of its negative terms. -/
def nchain (b : nbox) : List nbox → Nat × Nat
  | [] => (b.volume, 0)
  | s :: rest =>
    if b.apart s then nchain b rest
    else
      force_nat (Nat.max b.x0 s.x0) fun a0 => force_nat (Nat.max b.y0 s.y0) fun b0 =>
      force_nat (Nat.max b.z0 s.z0) fun c0 => force_nat (Nat.min b.x1 s.x1) fun a1 =>
      force_nat (Nat.min b.y1 s.y1) fun b1 => force_nat (Nat.min b.z1 s.z1) fun c1 =>
        ((nchain b rest).1 + (nchain ⟨a0, b0, c0, a1, b1, c1⟩ rest).2,
         (nchain b rest).2 + (nchain ⟨a0, b0, c0, a1, b1, c1⟩ rest).1)

/-- The contribution of one operation to `ntotal`: its `nchain` under the operations that
follow it when it is "on", nothing otherwise. -/
def nseed (p : Bool × nbox) (rest : List (Bool × nbox)) : Nat × Nat :=
  if p.1 then nchain p.2 (rest.map Prod.snd) else (0, 0)

/-- The sum `ledger_total`, split into the total of its positive terms and the total of its
negative terms. -/
def ntotal : List (Bool × nbox) → Nat × Nat
  | [] => (0, 0)
  | p :: rest => nseed p rest + ntotal rest

/-- The part of `ntotal` contributed by the first `k` operations of the list. -/
def ntotal_upto : Nat → List (Bool × nbox) → Nat × Nat
  | 0, _ => (0, 0)
  | _ + 1, [] => (0, 0)
  | k + 1, p :: rest => nseed p rest + ntotal_upto k rest

/-- The operations with their corners shifted and their toggle as a boolean. -/
def to_nops (ops : List box) : List (Bool × nbox) := ops.map (fun b => (b.is_add, to_nbox b))

/-- The function `follow_steps` together with its step logger: after each processed operation
the logger is handed the ledger and the step counter and may act on a state `σ` of its own,
which stands for everything outside the function (the logger receives the ledger read-only).
The result is the returned ledger and the final outside state. -/
def follow_steps_with {σ : Type} (step_logger : List box → Int → σ → σ) (input : List box)
    (all_space : Bool) (w : σ) : List box × σ :=
  let r := input.foldl
    (fun (acc : List box × Int × σ) s =>
      if all_space || step_covers_part1_region s then
        (process_step acc.1 s, acc.2.1 + 1, step_logger (process_step acc.1 s) acc.2.1 acc.2.2)
      else acc)
    ([], 0, w)
  (r.1, r.2.2)

end Day22

/-! # Scratchcards (2023 day 4)

A shallow embedding of `src/2023/day4.cpp`: `get_num_winning`, `score`, and the loops of
`part_1` and `part_2` on parsed cards.  The vector `count` of `part_2` is a function on
indices together with its size; an access outside the size has no defined result and makes
the run return `none`.
-/

namespace Day04

open Day22 (int_model machine unbounded wrap32 wrap64)

/-- The struct `card`. -/
structure card where
  id : Int
  winning : List Int
  drawn : List Int
deriving DecidableEq, Repr

/-- The function `get_num_winning` under a given integer model: the counter is an `int`,
incremented once for every drawn number that `std::any_of` finds among the winning ones. -/
def get_num_winning_in (m : int_model) (c : card) : Int :=
  c.drawn.foldl
    (fun winning v => if c.winning.any (fun w => w == v) then m.i32 (winning + 1) else winning)
    0

/-- The function `get_num_winning` as the program computes it. -/
def get_num_winning (c : card) : Int := get_num_winning_in machine c

/-- The expression `1u << k` on `uint32_t`; C++ defines it for `0 ≤ k < 32` only. -/
def shl_one (k : Int) : Option Nat :=
  if 0 ≤ k ∧ k < 32 then some (2 ^ k.toNat % 2 ^ 32) else none

/-- The function `score`. -/
def score (c : card) : Option Nat :=
  if get_num_winning c = 0 then some 0 else shl_one (wrap32 (get_num_winning c - 1))

/-- The loop of `part_1` on parsed cards: the scores are added up in an `int64_t`. -/
def part_1 (input : List card) : Option Int :=
  input.foldlM (fun sum c => (score c).map (fun v => wrap64 (sum + (v : Int)))) 0

/-- The statement `count[j] += count[i]` on a vector of size `n`. -/
def add_count (m : int_model) (n : Nat) (count : Nat → Int) (i j : Nat) : Option (Nat → Int) :=
  if i < n ∧ j < n then some (Function.update count j (m.i32 (count j + count i))) else none

/-- The inner loop of `part_2`: `j` runs from `i + 1` up to, but not including,
`i + 1 + num_wins[i]`. -/
def inner_loop (m : int_model) (n : Nat) (count : Nat → Int) (i : Nat) (wins : Int) :
    Option (Nat → Int) :=
  (List.range' (i + 1) wins.toNat).foldlM (fun c j => add_count m n c i j) count

/-- The body of the outer loop of `part_2`: the inner loop, then `sum += count[i]`. -/
def outer_step (m : int_model) (num_wins : List Int) (st : (Nat → Int) × Int) (i : Nat) :
    Option ((Nat → Int) × Int) :=
  (inner_loop m num_wins.length st.1 i (num_wins.getD i 0)).map
    (fun count => (count, m.i64 (st.2 + count i)))

/-- The loops of `part_2` on the vector of match counts: `count` starts as `n` ones, `sum`
as 0; the result is `sum`. -/
def part_2_on_wins (m : int_model) (num_wins : List Int) : Option Int :=
  ((List.range num_wins.length).foldlM (outer_step m num_wins) (fun _ => 1, 0)).map Prod.snd

/-- The function `part_2` on parsed cards, before the total is formatted. -/
def part_2 (input : List card) : Option Int :=
  part_2_on_wins machine (input.map get_num_winning)

/-- The number of instances of card `i`, the original and every copy won, when each instance
of card `j` wins one copy of each of the next `w j` cards:
`c(i) = 1 + Σ c(j)` over the `j < i` with `i ≤ j + w j`. -/
def instances (w : Nat → Nat) : Nat → Nat
  | i => 1 + ∑ j : Fin i, if i ≤ j.1 + w j.1 then instances w j.1 else 0
termination_by i => i
decreasing_by exact j.2

/-- The value of `count[k]` once the first `i` cards have been processed: one for the
original, plus the instances of every card `j < i` that reaches card `k`. -/
def pending (w : Nat → Nat) (i k : Nat) : Nat :=
  1 + ∑ j in Finset.range i, if j < k ∧ k ≤ j + w j then instances w j else 0

/-- The six cards of the example of the puzzle statement. -/
def example_cards : List card := [
  ⟨1, [41, 48, 83, 86, 17], [83, 86, 6, 31, 17, 9, 48, 53]⟩,
  ⟨2, [13, 32, 20, 16, 61], [61, 30, 68, 82, 17, 32, 24, 19]⟩,
  ⟨3, [1, 21, 53, 59, 44], [69, 82, 63, 72, 16, 21, 14, 1]⟩,
  ⟨4, [41, 92, 73, 84, 69], [59, 84, 76, 51, 58, 5, 54, 83]⟩,
  ⟨5, [87, 83, 26, 28, 32], [88, 30, 70, 12, 93, 22, 82, 36]⟩,
  ⟨6, [31, 18, 13, 56, 72], [74, 77, 10, 23, 35, 67, 36, 11]⟩]

end Day04

/-! # Falling rocks (2022 day 17)

A shallow embedding of `src/2022/day17.cpp`: `shapes`, `is_in_floor` with the binary search
of `std::lower_bound`, `shift`, `fall` with `std::inplace_merge`, `cleanup_floor`,
`drop_shape`, the loop of `part_1`, and `find_repeated`.  Coordinates are kept as `Int`:
a rock raises the tower by at most 4, as proved with the sortedness of the floor, so the
heights of a run of `n` rocks stay below `4 * n + 7`, inside `int` for the runs of the
program.
-/

namespace Day17

open Day22 (wrap32)

/-- Modelled from the spec: `position` and `velocity` of `point.h` are not among the
sources; a position is a pair of `int` coordinates `x`, `y` as `day17.cpp` reads them, `==`
compares both, and adding a velocity adds `dx` to `x` and `dy` to `y`. -/
structure position where
  x : Int
  y : Int
deriving DecidableEq, Repr

/-- The array returned by `shapes()`. -/
def shapes : List (List position) := [
  [⟨2, 3⟩, ⟨3, 3⟩, ⟨4, 3⟩, ⟨5, 3⟩],
  [⟨3, 5⟩, ⟨2, 4⟩, ⟨3, 4⟩, ⟨4, 4⟩, ⟨3, 3⟩],
  [⟨4, 5⟩, ⟨4, 4⟩, ⟨2, 3⟩, ⟨3, 3⟩, ⟨4, 3⟩],
  [⟨2, 6⟩, ⟨2, 5⟩, ⟨2, 4⟩, ⟨2, 3⟩],
  [⟨2, 4⟩, ⟨3, 4⟩, ⟨2, 3⟩, ⟨3, 3⟩]]

/-- The comparison lambda of `is_in_floor` and of `fall`: greater `y` first, then smaller
`x` first. -/
def before (a b : position) : Bool :=
  if a.y > b.y then true
  else if a.y = b.y then decide (a.x < b.x)
  else false

/-- The loop of `std::lower_bound` on the range `[first, first + len)`: a binary search for
the first element that is not before `p`.  Every round at least halves `len`; `fuel` bounds
the number of rounds. -/
def lower_bound_loop (floor : List position) (p : position) : Nat → Nat → Nat → Nat
  | 0, first, _ => first
  | fuel + 1, first, len =>
    if len = 0 then first
    else if before (floor.getD (first + len / 2) ⟨0, 0⟩) p then
      lower_bound_loop floor p fuel (first + len / 2 + 1) (len - len / 2 - 1)
    else lower_bound_loop floor p fuel first (len / 2)

/-- The call `std::lower_bound(floor.begin(), floor.end(), p, comp)`, as an index. -/
def lower_bound (floor : List position) (p : position) : Nat :=
  lower_bound_loop floor p floor.length 0 floor.length

/-- The function `is_in_floor`. -/
def is_in_floor (floor : List position) (p : position) : Bool :=
  decide (lower_bound floor p ≠ floor.length) &&
    (floor.getD (lower_bound floor p) ⟨0, 0⟩ == p)

/-- The commented-out original implementation of `is_in_floor`. -/
def is_in_floor_linear (floor : List position) (p : position) : Bool :=
  floor.any (fun fp => p == fp)

/-- The function `shift`: a shape at the wall, or whose moved copy meets the floor, stays;
every character other than `<` pushes to the right. -/
def shift (shape floor : List position) (s : Char) : List position :=
  if s = '<' then
    if shape.any (fun p => p.x == 0) then shape
    else if (shape.map (fun p => (⟨p.x + -1, p.y⟩ : position))).any (is_in_floor floor)
      then shape
    else shape.map (fun p => ⟨p.x + -1, p.y⟩)
  else if shape.any (fun p => p.x == 6) then shape
  else if (shape.map (fun p => (⟨p.x + 1, p.y⟩ : position))).any (is_in_floor floor) then shape
  else shape.map (fun p => ⟨p.x + 1, p.y⟩)

/-- The merge of `std::inplace_merge`, with the rounds counted down from `fuel`: the front of
the second range is taken when it is before the front of the first. -/
def merge_loop : Nat → List position → List position → List position
  | 0, xs, ys => xs ++ ys
  | _ + 1, [], ys => ys
  | _ + 1, xs, [] => xs
  | fuel + 1, a :: xs, b :: ys =>
    if before b a then b :: merge_loop fuel (a :: xs) ys
    else a :: merge_loop fuel xs (b :: ys)

/-- The call `std::inplace_merge` on the floor followed by the shape. -/
def inplace_merge (floor shape : List position) : List position :=
  merge_loop (floor.length + shape.length) floor shape

/-- The function `fall`: the result of the call, the shape and the floor after it.  The
shape moves down when every moved cell has `y ≥ 0` and is not in the floor; otherwise the
shape, where it is, is merged into the floor. -/
def fall (shape floor : List position) : Bool × List position × List position :=
  if (shape.map (fun p => (⟨p.x, p.y + -1⟩ : position))).all
      (fun q => decide (q.y ≥ 0) && !is_in_floor floor q) then
    (true, shape.map (fun p => ⟨p.x, p.y + -1⟩), floor)
  else (false, shape, inplace_merge floor shape)

/-- The first loop of `cleanup_floor`: the array `max_ys`, seven zeroes at the start.  The
index `p.x` is one of `0..6` for every cell of a floor built by `drop_shape`. -/
def max_ys (floor : List position) : List Int :=
  floor.foldl
    (fun acc p => if acc.getD p.x.toNat 0 < p.y then acc.set p.x.toNat p.y else acc)
    [0, 0, 0, 0, 0, 0, 0]

/-- The value `*max_y_it` of `cleanup_floor`: the greatest entry of the array. -/
def max_element : List Int → Int
  | [] => 0
  | a :: rest => rest.foldl max a

/-- The function `cleanup_floor`: the value returned and the floor after the call. -/
def cleanup_floor (floor : List position) (trunc_floor : Bool) : Int × List position :=
  (max_element (max_ys floor) + 1,
    if trunc_floor && decide (floor.length > 128) then floor.take 128 else floor)

/-- The `while` loop of `drop_shape`, with its rounds counted down from `fuel`; the result
is what is left of `dirs` and the floor.  There is no result when the fuel runs out or when
`raw_dirs` is empty. -/
def drop_loop (raw_dirs : List Char) :
    Nat → List position → List Char → List position → Option (List Char × List position)
  | 0, _, _, _ => none
  | fuel + 1, shape, dirs, floor =>
    match (if dirs.isEmpty then raw_dirs else dirs) with
    | [] => none
    | d :: rest =>
      match fall (shift shape floor d) floor with
      | (true, shape1, floor1) => drop_loop raw_dirs fuel shape1 rest floor1
      | (false, _, floor1) => some (rest, floor1)

/-- The function `drop_shape`: the value returned, what is left of `dirs`, and the floor.
The shape starts `starting_floor_y + 3` above the bottom, so the loop is given
`starting_floor_y + 8` rounds. -/
def drop_shape (shape : List position) (dirs raw_dirs : List Char) (floor : List position)
    (starting_floor_y : Int) (trunc_floor : Bool) :
    Option (Int × List Char × List position) :=
  (drop_loop raw_dirs (starting_floor_y + 8).toNat
    (shape.map (fun p => ⟨p.x, p.y + starting_floor_y⟩)) dirs floor).map
    (fun r => ((cleanup_floor r.2 trunc_floor).1, r.1, (cleanup_floor r.2 trunc_floor).2))

/-- The loop of `part_1` and of `part_2` after `n` rounds: `starting_floor_y`, what is left
of `dirs`, and the floor. -/
def drop_rocks (input : List Char) (trunc_floor : Bool) :
    Nat → Option (Int × List Char × List position)
  | 0 => some (0, input, [])
  | n + 1 =>
    match drop_rocks input trunc_floor n with
    | none => none
    | some (starting_floor_y, dirs, floor) =>
      drop_shape (shapes.getD (n % 5) []) dirs input floor starting_floor_y trunc_floor

/-- The height `floor.front().y + 1` after `n` rounds. -/
def tower_height (input : List Char) (trunc_floor : Bool) (n : Nat) : Option Int :=
  match drop_rocks input trunc_floor n with
  | some (_, _, p :: _) => some (p.y + 1)
  | _ => none

/-- The struct `repitition_info`. -/
structure repitition_info where
  start_pos : Int
  length : Int
  total_delta : Int
deriving DecidableEq, Repr

/-- The `operator<` of `repitition_info`: longer first, then the smaller start. -/
def repitition_info.lt (a rhs : repitition_info) : Bool :=
  if a.length > rhs.length then true
  else if a.length = rhs.length then decide (a.start_pos < rhs.start_pos)
  else false

/-- The call `std::accumulate(first, last, 0)` on `int` values. -/
def accumulate (l : List Int) : Int :=
  l.foldl (fun acc v => wrap32 (acc + v)) 0

/-- The inner loop of `find_repeated` for one `start`: `len` runs from `max_len` down to 2,
and `std::equal` compares the `len` values from `start` with the `len` values after them. -/
def found_from (height_deltas : List Int) (start : Nat) : List repitition_info :=
  ((List.range ((height_deltas.length - start - 1) / 2 - 1)).map
      (fun k => (height_deltas.length - start - 1) / 2 - k)).filterMap
    (fun len =>
      if (height_deltas.drop start).take len = (height_deltas.drop (start + len)).take len
      then some ⟨start, len, accumulate ((height_deltas.drop start).take len)⟩
      else none)

/-- The call `std::min_element`: the first smallest element, none in an empty range. -/
def min_element : List repitition_info → Option repitition_info
  | [] => none
  | a :: rest => some (rest.foldl (fun smallest v => if v.lt smallest then v else smallest) a)

/-- The function `find_repeated`.  There is no result where `found` is empty and the
program dereferences its end; on an empty list `size() - 1` wraps around and the loop does
not stop where the list stops, which is no result either. -/
def find_repeated (height_deltas : List Int) : Option repitition_info :=
  if height_deltas = [] then none
  else min_element ((List.range (height_deltas.length - 1)).flatMap (found_from height_deltas))

/-- Cells listed in strictly descending order: each one is before every later one. -/
def sorted_cells (l : List position) : Prop :=
  l.Pairwise (fun a b => before a b = true)

/-- A cell inside the chamber: one of the seven columns, not below the bottom. -/
def in_chamber (p : position) : Prop :=
  0 ≤ p.x ∧ p.x ≤ 6 ∧ 0 ≤ p.y

/-- A jet string for which the truncated floor changes the height. -/
def uneven_jets : List Char :=
  List.replicate 24 '<' ++ List.replicate 15 '>'

end Day17

/-! # Crab cups (2020 day 23)

A shallow embedding of `src/2020/day23.cpp`: the ring of nine cups kept as a doubly linked
list inside a `std::array<cup, 9>`, with `get_initial_state`, `incr_index`, `forward`,
`remove`, `insert` and `move`.  An access outside the indices 0..8 has no result.
-/

namespace Day23

/-- The array `INIT_CUPS`. -/
def INIT_CUPS : List Int := [5, 8, 3, 9, 7, 6, 2, 4, 1]

/-- The struct `cup`. -/
structure cup where
  next : Int
  prev : Int
deriving DecidableEq, Repr

/-- A `std::array<cup, 9>`, as the cup stored at each index; the indices of the array are
0..8, which `rd`, `set_next` and `set_prev` check at every access. -/
abbrev cup_array := Int → cup

/-- The indices of the array. -/
def cup_indices : List Int := [0, 1, 2, 3, 4, 5, 6, 7, 8]

/-- The assignment `cups[i].next = v`, index unchecked. -/
def put_next (cups : cup_array) (i v : Int) : cup_array :=
  fun j => if j = i then ⟨v, (cups j).prev⟩ else cups j

/-- The assignment `cups[i].prev = v`, index unchecked. -/
def put_prev (cups : cup_array) (i v : Int) : cup_array :=
  fun j => if j = i then ⟨(cups j).next, v⟩ else cups j

/-- The read `cups[i]`. -/
def rd (cups : cup_array) (i : Int) : Option cup :=
  if 0 ≤ i ∧ i < 9 then some (cups i) else none

/-- The assignment `cups[i].next = v`. -/
def set_next (cups : cup_array) (i v : Int) : Option cup_array :=
  if 0 ≤ i ∧ i < 9 then some (put_next cups i v) else none

/-- The assignment `cups[i].prev = v`. -/
def set_prev (cups : cup_array) (i v : Int) : Option cup_array :=
  if 0 ≤ i ∧ i < 9 then some (put_prev cups i v) else none

/-- The function `get_initial_state`; its indices are the constants `INIT_CUPS[i] - 1`. -/
def get_initial_state : cup_array :=
  let last := INIT_CUPS.getD 8 0 - 1
  let first := INIT_CUPS.getD 0 0 - 1
  let retval1 := put_next (put_prev (fun _ => ⟨-1, -1⟩) (INIT_CUPS.getD 0 0 - 1) last)
    (INIT_CUPS.getD 0 0 - 1) (INIT_CUPS.getD 1 0 - 1)
  let retval2 := (List.range' 1 7).foldl
    (fun retval i =>
      put_next (put_prev retval (INIT_CUPS.getD i 0 - 1) (INIT_CUPS.getD (i - 1) 0 - 1))
        (INIT_CUPS.getD i 0 - 1) (INIT_CUPS.getD (i + 1) 0 - 1))
    retval1
  put_next (put_prev retval2 (INIT_CUPS.getD 8 0 - 1) (INIT_CUPS.getD 7 0 - 1))
    (INIT_CUPS.getD 8 0 - 1) first

/-- The `while (next < 0)` loop of `incr_index`, its rounds counted down from `fuel`. -/
def incr_loop : Nat → Int → Option Int
  | 0, _ => none
  | fuel + 1, next => if next < 0 then incr_loop fuel (next + 9) else some next

/-- The function `incr_index`; `%` truncates towards zero, so the remainder is above `-9`
and the loop runs at most once. -/
def incr_index (val incr : Int) : Option Int :=
  incr_loop 2 (Int.tmod (val + incr) 9)

/-- The function `forward`. -/
def forward (cups : cup_array) : Int → Nat → Option Int
  | current, 0 => some current
  | current, dist + 1 => (rd cups current).bind (fun c => forward cups c.next dist)

/-- The function `remove`. -/
def remove (cups : cup_array) (current : Int) : Option cup_array :=
  (rd cups current).bind fun c =>
  (set_next cups c.prev c.next).bind fun cups1 =>
  (rd cups1 current).bind fun c1 =>
  (set_prev cups1 c1.next c1.prev).bind fun cups2 =>
  (set_next cups2 current (-1)).bind fun cups3 =>
  set_prev cups3 current (-1)

/-- The function `insert`. -/
def insert (cups : cup_array) (current after : Int) : Option cup_array :=
  (rd cups after).bind fun a =>
  (set_next cups current a.next).bind fun cups1 =>
  (set_prev cups1 current after).bind fun cups2 =>
  (set_next cups2 after current).bind fun cups3 =>
  (rd cups3 current).bind fun c =>
  set_prev cups3 c.next current

/-- The destination loop of `move`, its rounds counted down from `fuel`: with `fuel = 4`
the body runs at most three times. -/
def dest_loop (removed0 removed1 removed2 : Int) : Nat → Int → Option Int
  | 0, _ => none
  | fuel + 1, dest =>
    if dest = removed0 ∨ dest = removed1 ∨ dest = removed2 then
      (incr_index dest (-1)).bind (dest_loop removed0 removed1 removed2 fuel)
    else some dest

/-- The function `move`: the array after the call and the value returned. -/
def move (cups : cup_array) (current : Int) : Option (cup_array × Int) :=
  (forward cups current 1).bind fun removed0 =>
  (forward cups removed0 1).bind fun removed1 =>
  (forward cups removed1 1).bind fun removed2 =>
  (remove cups removed0).bind fun cups1 =>
  (remove cups1 removed1).bind fun cups2 =>
  (remove cups2 removed2).bind fun cups3 =>
  (incr_index current (-1)).bind fun dest0 =>
  (dest_loop removed0 removed1 removed2 4 dest0).bind fun dest =>
  (insert cups3 removed0 dest).bind fun cups4 =>
  (insert cups4 removed1 removed0).bind fun cups5 =>
  (insert cups5 removed2 removed1).bind fun cups6 =>
  (forward cups6 current 1).bind fun ret =>
  some (cups6, ret)

/-- The loop of `solve_day_23_1` after `n` rounds: the array and `current`. -/
def moves : Nat → Option (cup_array × Int)
  | 0 => some (get_initial_state, INIT_CUPS.getD 0 0 - 1)
  | n + 1 => (moves n).bind (fun s => move s.1 s.2)

/-- The `n` cups met by following `next` from `c`, `c` first. -/
def follow (cups : cup_array) : Nat → Int → List Int
  | 0, _ => []
  | n + 1, c => c :: follow cups n (cups c).next

/-- The ring read clockwise from `c`: nine cups. -/
def ring_from (cups : cup_array) (c : Int) : List Int :=
  follow cups 9 c

/-- The cup reached from `c` by `n` times `next`. -/
def next_iter (cups : cup_array) : Nat → Int → Int
  | 0, c => c
  | n + 1, c => next_iter cups n (cups c).next

/-- A well-formed ring over the 9 cups: every `next` and `prev` is in 0..8, `prev` and
`next` undo each other, and following `next` from any cup visits all 9 cups before
returning to it. -/
@[reducible] def well_formed (cups : cup_array) : Prop :=
  ∀ i ∈ cup_indices,
    (cups i).next ∈ cup_indices ∧ (cups i).prev ∈ cup_indices ∧
    (cups (cups i).next).prev = i ∧ (cups (cups i).prev).next = i ∧
    (ring_from cups i).Nodup ∧ (∀ j ∈ cup_indices, j ∈ ring_from cups i) ∧
    next_iter cups 9 i = i

/-- Following the spec's words: the destination is the first label among `c - 1`,
`c - 2`, ..., wrapping from the lowest label to the highest, that is not a picked-up cup. -/
def destination (c : Int) (picked : List Int) : Option Int :=
  ((List.range 9).map (fun k => (c - 1 - (k : Int)) % 9)).find? (fun d => !picked.contains d)

/-- Following the spec's words: the picked-up cups are put immediately after the
destination cup. -/
def insert_after (dest : Int) (picked : List Int) : List Int → List Int
  | [] => []
  | x :: rest => if x = dest then x :: (picked ++ rest) else x :: insert_after dest picked rest

/-- Following the spec's words: the list-level cup move on a ring read from the current
cup as `[c, a, b, d, r1, ...]`. -/
def list_move : List Int → Option (List Int)
  | c :: a :: b :: d :: rest =>
    (destination c [a, b, d]).map (fun dest => insert_after dest [a, b, d] (c :: rest))
  | _ => none

/-- The ring reads `x0, x1, ..., x8` clockwise: nine different cups, each the `next` of the
one before it and the `prev` of the one after it, the last one joined to the first. -/
structure reads (cups : cup_array) (x0 x1 x2 x3 x4 x5 x6 x7 x8 : Int) : Prop where
  nodup : [x0, x1, x2, x3, x4, x5, x6, x7, x8].Nodup
  range : ∀ x ∈ [x0, x1, x2, x3, x4, x5, x6, x7, x8], x ∈ cup_indices
  n0 : (cups x0).next = x1
  n1 : (cups x1).next = x2
  n2 : (cups x2).next = x3
  n3 : (cups x3).next = x4
  n4 : (cups x4).next = x5
  n5 : (cups x5).next = x6
  n6 : (cups x6).next = x7
  n7 : (cups x7).next = x8
  n8 : (cups x8).next = x0
  p0 : (cups x0).prev = x8
  p1 : (cups x1).prev = x0
  p2 : (cups x2).prev = x1
  p3 : (cups x3).prev = x2
  p4 : (cups x4).prev = x3
  p5 : (cups x5).prev = x4
  p6 : (cups x6).prev = x5
  p7 : (cups x7).prev = x6
  p8 : (cups x8).prev = x7

end Day23

namespace Day22

/-! ## Machine arithmetic -/

theorem wrap32_of_in_int32 {v : Int} (h : in_int32 v) : wrap32 v = v := by
  unfold in_int32 at h
  unfold wrap32
  omega

theorem wrap64_of_in_int64 {v : Int} (h : in_int64 v) : wrap64 v = v := by
  unfold in_int64 at h
  unfold wrap64
  omega

/-! ## Cells of a box -/

theorem mem_cells_iff (b : box) (c : cell) : c ∈ b.cells ↔ b.contains c = true := by
  obtain ⟨cx, cy, cz⟩ := c
  simp [box.cells, box.contains, Finset.mem_product, Finset.mem_Icc, and_assoc]

theorem card_cells (b : box) (hb : b.valid) :
    (b.cells.card : Int) =
      (b.m_max.x - b.m_min.x + 1) * (b.m_max.y - b.m_min.y + 1) *
        (b.m_max.z - b.m_min.z + 1) := by
  obtain ⟨hx, hy, hz⟩ := hb
  simp only [box.cells, Finset.card_product, Int.card_Icc, Nat.cast_mul]
  rw [Int.toNat_of_nonneg (by omega), Int.toNat_of_nonneg (by omega),
    Int.toNat_of_nonneg (by omega)]
  ring

theorem volume_eq_sign_mul_card (b : box) (hb : b.valid) :
    b.volume = b.sign * (b.cells.card : Int) := by
  rw [card_cells b hb]
  unfold box.volume
  ring

theorem sign_flip (a r : box) (h : r.m_state = a.m_state.flip) : r.sign = -a.sign := by
  unfold box.sign
  rw [h]
  cases a.m_state <;> simp [toggle.flip]

theorem size_eq_volume_of_no_overflow (b : box) (h : b.no_overflow) : b.size = b.volume := by
  obtain ⟨hax, h1, h2, h3⟩ := h
  have e : ∀ i : Fin 3, b.extent machine i = b.m_max.get i - b.m_min.get i + 1 := by
    intro i
    obtain ⟨ha, hb⟩ := hax i
    simp only [box.extent, machine]
    rw [wrap32_of_in_int32 ha, wrap32_of_in_int32 hb]
  have e0 := e 0
  have e1 := e 1
  have e2 := e 2
  simp only [point_3d.get] at e0 e1 e2
  simp only [box.size, box.size_in, e0, e1, e2, box.volume]
  simp only [machine]
  rw [wrap64_of_in_int64 h1, wrap64_of_in_int64 h2, wrap64_of_in_int64 h3]

/-! ## The overlap of two boxes -/

theorem overlap_eq_none_iff (a b : box) :
    a.overlap b = none ↔ a.non_intercepting b = true := by
  unfold box.overlap
  split <;> simp_all

theorem non_intercepting_iff (a b : box) :
    a.non_intercepting b = true ↔
      ∃ i : Fin 3, b.m_max.get i < a.m_min.get i ∨ b.m_min.get i > a.m_max.get i := by
  simp only [box.non_intercepting, Bool.or_eq_true, decide_eq_true_eq, Fin.exists_fin_succ,
    point_3d.get]
  simp
  tauto

theorem non_intercepting_comm (a b : box) : a.non_intercepting b = b.non_intercepting a := by
  rw [Bool.eq_iff_iff]
  simp only [box.non_intercepting, Bool.or_eq_true, decide_eq_true_eq]
  omega

theorem overlap_eq_some (a b r : box) (h : a.overlap b = some r) :
    a.non_intercepting b = false ∧
    r = ⟨⟨max a.m_min.x b.m_min.x, max a.m_min.y b.m_min.y, max a.m_min.z b.m_min.z⟩,
         ⟨min a.m_max.x b.m_max.x, min a.m_max.y b.m_max.y, min a.m_max.z b.m_max.z⟩,
         a.m_state.flip⟩ := by
  unfold box.overlap at h
  split at h
  · simp at h
  · simp only [Option.some.injEq] at h
    exact ⟨by simp_all, h.symm⟩

theorem contains_overlap (a b r : box) (h : a.overlap b = some r) (c : cell) :
    r.contains c = (a.contains c && b.contains c) := by
  obtain ⟨_, rfl⟩ := overlap_eq_some a b r h
  rw [Bool.eq_iff_iff]
  simp only [box.contains, Bool.and_eq_true, decide_eq_true_eq, max_le_iff, le_min_iff]
  tauto

theorem overlap_isSome_of_contains (a b : box) (c : cell) (ha : a.contains c = true)
    (hb : b.contains c = true) : ∃ r, a.overlap b = some r := by
  cases h : a.overlap b with
  | some r => exact ⟨r, rfl⟩
  | none =>
    rw [overlap_eq_none_iff] at h
    simp only [box.non_intercepting, Bool.or_eq_true, decide_eq_true_eq] at h
    simp only [box.contains, decide_eq_true_eq] at ha hb
    omega

theorem cells_overlap (a b r : box) (h : a.overlap b = some r) :
    r.cells = a.cells ∩ b.cells := by
  ext c
  rw [Finset.mem_inter, mem_cells_iff, mem_cells_iff, mem_cells_iff,
    contains_overlap a b r h c, Bool.and_eq_true]

theorem overlap_valid (a b r : box) (ha : a.valid) (hb : b.valid)
    (h : a.overlap b = some r) : r.valid := by
  obtain ⟨hn, rfl⟩ := overlap_eq_some a b r h
  simp only [box.non_intercepting, Bool.or_eq_false_iff, decide_eq_false_iff_not] at hn
  simp only [box.valid] at ha hb ⊢
  simp only [max_le_iff, le_min_iff]
  omega

/-! ## Claims on `box::overlap` -/

/-- C4: for boxes with `min ≤ max` on every axis, `a.overlap(b)` has no result exactly when
the two boxes share no integer cell, and exactly when on some axis `b.max < a.min` or
`b.min > a.max`. -/
theorem overlap_none_iff_no_common_cell (a b : box) (ha : a.valid) (hb : b.valid) :
    (a.overlap b = none ↔ ¬ ∃ c : cell, a.contains c = true ∧ b.contains c = true) ∧
    (a.overlap b = none ↔
      ∃ i : Fin 3, b.m_max.get i < a.m_min.get i ∨ b.m_min.get i > a.m_max.get i) := by
  refine ⟨?_, ?_⟩
  · constructor
    · rintro h ⟨c, hca, hcb⟩
      obtain ⟨r, hr⟩ := overlap_isSome_of_contains a b c hca hcb
      rw [h] at hr
      exact Option.noConfusion hr
    · intro h
      by_contra hne
      obtain ⟨r, hr⟩ := Option.ne_none_iff_exists'.mp hne
      have hv := overlap_valid a b r ha hb hr
      apply h
      refine ⟨(r.m_min.x, r.m_min.y, r.m_min.z), ?_⟩
      have hc : r.contains (r.m_min.x, r.m_min.y, r.m_min.z) = true := by
        simp only [box.valid] at hv
        simp only [box.contains, decide_eq_true_eq]
        omega
      rw [contains_overlap a b r hr, Bool.and_eq_true] at hc
      exact hc
  · rw [overlap_eq_none_iff, non_intercepting_iff]

/-- Witness of C4 on the first two boxes of the worked example. -/
theorem overlap_none_iff_no_common_cell_witness :
    (⟨⟨10, 10, 10⟩, ⟨12, 12, 12⟩, toggle.on⟩ : box).valid ∧
    (⟨⟨11, 11, 11⟩, ⟨13, 13, 13⟩, toggle.on⟩ : box).valid ∧
    (((⟨⟨10, 10, 10⟩, ⟨12, 12, 12⟩, toggle.on⟩ : box).overlap
        ⟨⟨11, 11, 11⟩, ⟨13, 13, 13⟩, toggle.on⟩ = none ↔
      ¬ ∃ c : cell, (⟨⟨10, 10, 10⟩, ⟨12, 12, 12⟩, toggle.on⟩ : box).contains c = true ∧
        (⟨⟨11, 11, 11⟩, ⟨13, 13, 13⟩, toggle.on⟩ : box).contains c = true) ∧
     ((⟨⟨10, 10, 10⟩, ⟨12, 12, 12⟩, toggle.on⟩ : box).overlap
        ⟨⟨11, 11, 11⟩, ⟨13, 13, 13⟩, toggle.on⟩ = none ↔
      ∃ i : Fin 3,
        (⟨⟨11, 11, 11⟩, ⟨13, 13, 13⟩, toggle.on⟩ : box).m_max.get i <
            (⟨⟨10, 10, 10⟩, ⟨12, 12, 12⟩, toggle.on⟩ : box).m_min.get i ∨
        (⟨⟨11, 11, 11⟩, ⟨13, 13, 13⟩, toggle.on⟩ : box).m_min.get i >
            (⟨⟨10, 10, 10⟩, ⟨12, 12, 12⟩, toggle.on⟩ : box).m_max.get i)) :=
  ⟨by decide, by decide,
    overlap_none_iff_no_common_cell _ _ (by decide) (by decide)⟩

/-- C5, as amended: when `a.overlap(b)` returns `r` for boxes with `min ≤ max`, the bounds of
`r` are the per-axis maximum of the minima and minimum of the maxima, `r` covers exactly the
common cells, its toggle is the flipped toggle of `a` (the toggle of `b` plays no part), the
signed product of its extents is minus the sign of `a` times the number of common cells, and
`r.size()` returns that value whenever no step of `size()` overflows on `r`. -/
theorem overlap_some_bounds_and_sign (a b r : box) (ha : a.valid) (hb : b.valid)
    (h : a.overlap b = some r) :
    (∀ i : Fin 3, r.m_min.get i = max (a.m_min.get i) (b.m_min.get i) ∧
      r.m_max.get i = min (a.m_max.get i) (b.m_max.get i)) ∧
    r.cells = a.cells ∩ b.cells ∧
    r.m_state = a.m_state.flip ∧
    r.sign = -a.sign ∧
    r.volume = -a.sign * ((a.cells ∩ b.cells).card : Int) ∧
    (r.no_overflow → r.size = -a.sign * ((a.cells ∩ b.cells).card : Int)) := by
  have hv := overlap_valid a b r ha hb h
  have hc := cells_overlap a b r h
  obtain ⟨_, hr⟩ := overlap_eq_some a b r h
  have hs : r.m_state = a.m_state.flip := by rw [hr]
  have hsg := sign_flip a r hs
  have hvol : r.volume = -a.sign * ((a.cells ∩ b.cells).card : Int) := by
    rw [volume_eq_sign_mul_card r hv, hsg, hc]
  refine ⟨?_, hc, hs, hsg, hvol, ?_⟩
  · intro i
    subst hr
    fin_cases i <;> exact ⟨rfl, rfl⟩
  · intro hno
    rw [size_eq_volume_of_no_overflow r hno, hvol]

/-- Witness of C5 on the first two boxes of the worked example. -/
theorem overlap_some_bounds_and_sign_witness :
    (⟨⟨10, 10, 10⟩, ⟨12, 12, 12⟩, toggle.on⟩ : box).valid ∧
    (⟨⟨11, 11, 11⟩, ⟨13, 13, 13⟩, toggle.off⟩ : box).valid ∧
    (⟨⟨10, 10, 10⟩, ⟨12, 12, 12⟩, toggle.on⟩ : box).overlap
        ⟨⟨11, 11, 11⟩, ⟨13, 13, 13⟩, toggle.off⟩ =
      some ⟨⟨11, 11, 11⟩, ⟨12, 12, 12⟩, toggle.off⟩ ∧
    (⟨⟨11, 11, 11⟩, ⟨12, 12, 12⟩, toggle.off⟩ : box).volume =
      -(⟨⟨10, 10, 10⟩, ⟨12, 12, 12⟩, toggle.on⟩ : box).sign *
        (((⟨⟨10, 10, 10⟩, ⟨12, 12, 12⟩, toggle.on⟩ : box).cells ∩
          (⟨⟨11, 11, 11⟩, ⟨13, 13, 13⟩, toggle.off⟩ : box).cells).card : Int) :=
  ⟨by decide, by decide, by decide,
    (overlap_some_bounds_and_sign ⟨⟨10, 10, 10⟩, ⟨12, 12, 12⟩, toggle.on⟩
      ⟨⟨11, 11, 11⟩, ⟨13, 13, 13⟩, toggle.off⟩ ⟨⟨11, 11, 11⟩, ⟨12, 12, 12⟩, toggle.off⟩
      (by decide) (by decide) (by decide)).2.2.2.2.1⟩

/-- C5 as stated fails: the overlap of the box spanning the whole `int` range on x with
itself exists, has 2^32 cells in common with it, and `size()` of the result is 0. -/
theorem overlap_size_wraps :
    wide_box.valid ∧
    wide_box.overlap wide_box =
      some ⟨⟨-2147483648, 0, 0⟩, ⟨2147483647, 0, 0⟩, toggle.off⟩ ∧
    (⟨⟨-2147483648, 0, 0⟩, ⟨2147483647, 0, 0⟩, toggle.off⟩ : box).size = 0 ∧
    -wide_box.sign * ((wide_box.cells ∩ wide_box.cells).card : Int) = -4294967296 ∧
    (⟨⟨-2147483648, 0, 0⟩, ⟨2147483647, 0, 0⟩, toggle.off⟩ : box).size ≠
      -wide_box.sign * ((wide_box.cells ∩ wide_box.cells).card : Int) := by
  have hcard : -wide_box.sign * ((wide_box.cells ∩ wide_box.cells).card : Int) =
      -4294967296 := by
    rw [Finset.inter_self, card_cells wide_box (by decide)]
    decide
  refine ⟨by decide, by decide, by decide, hcard, ?_⟩
  rw [hcard]
  decide

/-- C6: `a.overlap(b)` has a result exactly when `b.overlap(a)` has one, and then the two
results have the same corners, the first with the flipped toggle of `a` and the second with
the flipped toggle of `b`. -/
theorem overlap_symmetric (a b : box) :
    ((a.overlap b).isSome = (b.overlap a).isSome) ∧
    ∀ r1 r2 : box, a.overlap b = some r1 → b.overlap a = some r2 →
      r1.m_min = r2.m_min ∧ r1.m_max = r2.m_max ∧
      r1.m_state = a.m_state.flip ∧ r2.m_state = b.m_state.flip := by
  constructor
  · unfold box.overlap
    rw [non_intercepting_comm a b]
    split <;> rfl
  · intro r1 r2 h1 h2
    obtain ⟨_, rfl⟩ := overlap_eq_some a b r1 h1
    obtain ⟨_, rfl⟩ := overlap_eq_some b a r2 h2
    refine ⟨?_, ?_, rfl, rfl⟩
    · simp only [point_3d.mk.injEq]
      exact ⟨max_comm _ _, max_comm _ _, max_comm _ _⟩
    · simp only [point_3d.mk.injEq]
      exact ⟨min_comm _ _, min_comm _ _, min_comm _ _⟩

/-- Witness of C6 on the first two boxes of the worked example. -/
theorem overlap_symmetric_witness :
    (⟨⟨10, 10, 10⟩, ⟨12, 12, 12⟩, toggle.on⟩ : box).overlap
        ⟨⟨11, 11, 11⟩, ⟨13, 13, 13⟩, toggle.off⟩ =
      some ⟨⟨11, 11, 11⟩, ⟨12, 12, 12⟩, toggle.off⟩ ∧
    (⟨⟨11, 11, 11⟩, ⟨13, 13, 13⟩, toggle.off⟩ : box).overlap
        ⟨⟨10, 10, 10⟩, ⟨12, 12, 12⟩, toggle.on⟩ =
      some ⟨⟨11, 11, 11⟩, ⟨12, 12, 12⟩, toggle.on⟩ ∧
    (⟨⟨11, 11, 11⟩, ⟨12, 12, 12⟩, toggle.off⟩ : box).m_min =
      (⟨⟨11, 11, 11⟩, ⟨12, 12, 12⟩, toggle.on⟩ : box).m_min :=
  ⟨by decide, by decide,
    ((overlap_symmetric ⟨⟨10, 10, 10⟩, ⟨12, 12, 12⟩, toggle.on⟩
      ⟨⟨11, 11, 11⟩, ⟨13, 13, 13⟩, toggle.off⟩).2 _ _ (by decide) (by decide)).1⟩

/-! ## One step of the fold -/

theorem push_overlaps_eq (s : box) (to_add states : List box) :
    push_overlaps s to_add states = to_add ++ states.filterMap (fun ps => ps.overlap s) := by
  unfold push_overlaps
  induction states generalizing to_add with
  | nil => simp
  | cons ps rest ih =>
    rw [List.foldl_cons, ih]
    cases h : ps.overlap s with
    | none => simp [List.filterMap_cons, h]
    | some o => simp [List.filterMap_cons, h]

theorem process_step_eq (states : List box) (s : box) :
    process_step states s =
      states ++ (if s.is_add then [s] else []) ++
        states.filterMap (fun ps => ps.overlap s) := by
  simp only [process_step, push_overlaps_eq, List.append_assoc]

theorem overlap_congr_corners (a s t : box) (hmin : t.m_min = s.m_min)
    (hmax : t.m_max = s.m_max) : a.overlap t = a.overlap s := by
  simp only [box.overlap, box.non_intercepting, hmin, hmax]

theorem follow_steps_append_singleton (ops : List box) (s : box) (all_space : Bool) :
    follow_steps (ops ++ [s]) all_space =
      follow_step all_space (follow_steps ops all_space) s := by
  simp [follow_steps, List.foldl_append]

/-! ## The signed count of a cell -/

theorem signed_count_append (l1 l2 : List box) (c : cell) :
    signed_count (l1 ++ l2) c = signed_count l1 c + signed_count l2 c := by
  simp [signed_count, List.map_append, List.sum_append]

theorem signed_count_cons (b : box) (l : List box) (c : cell) :
    signed_count (b :: l) c = (if b.contains c then b.sign else 0) + signed_count l c := by
  simp [signed_count]

theorem signed_count_corrections (states : List box) (s : box) (c : cell) :
    signed_count (states.filterMap (fun ps => ps.overlap s)) c =
      if s.contains c then -signed_count states c else 0 := by
  induction states with
  | nil => simp [signed_count]
  | cons ps rest ih =>
    cases h : ps.overlap s with
    | none =>
      rw [List.filterMap_cons, h]
      simp only
      rw [ih, signed_count_cons]
      by_cases hs : s.contains c = true
      · have hps : ps.contains c = false := by
          by_contra hne
          have hne' : ps.contains c = true := by simpa using hne
          obtain ⟨r, hr⟩ := overlap_isSome_of_contains ps s c hne' hs
          rw [h] at hr
          exact Option.noConfusion hr
        simp [hs, hps]
      · simp [hs]
    | some r =>
      rw [List.filterMap_cons, h]
      simp only
      rw [signed_count_cons, ih, signed_count_cons, contains_overlap ps s r h c]
      have hsg : r.sign = -ps.sign :=
        sign_flip ps r (by rw [(overlap_eq_some ps s r h).2])
      rw [hsg]
      by_cases hs : s.contains c = true
      · by_cases hp : ps.contains c = true
        · simp only [hs, hp, Bool.and_self, if_true]
          ring
        · simp [hs, hp]
      · simp [hs]

theorem signed_count_process_step (states : List box) (s : box) (c : cell) :
    signed_count (process_step states s) c =
      if s.contains c then (if s.is_add then 1 else 0) else signed_count states c := by
  rw [process_step_eq, signed_count_append, signed_count_append, signed_count_corrections]
  by_cases hs : s.contains c = true
  · by_cases ha : s.is_add = true
    · have hsign : s.sign = 1 := by
        simp only [box.is_add, decide_eq_true_eq] at ha
        simp [box.sign, ha]
      simp [hs, ha, signed_count, hsign]
    · simp [hs, ha, signed_count]
  · by_cases ha : s.is_add = true <;> simp [hs, ha, signed_count]

theorem is_on_append_singleton (ops : List box) (s : box) (c : cell) :
    is_on (ops ++ [s]) c = if s.contains c then s.is_add else is_on ops c := by
  simp [is_on, List.foldl_append]

theorem signed_count_ledger (ops : List box) (c : cell) :
    signed_count (follow_steps ops true) c = if is_on ops c then 1 else 0 := by
  induction ops using List.reverseRecOn with
  | nil => simp [follow_steps, signed_count, is_on]
  | append_singleton ops s ih =>
    rw [follow_steps_append_singleton, is_on_append_singleton]
    simp only [follow_step, Bool.true_or, if_true]
    rw [signed_count_process_step, ih]
    by_cases hs : s.contains c = true <;> simp [hs]

/-! ## From the signed count to the total -/

theorem size_in_unbounded (b : box) : b.size_in unbounded = b.volume := by
  simp [box.size_in, box.extent, unbounded, box.volume, point_3d.get]

theorem foldl_add_eq_sum (f : box → Int) (l : List box) (acc : Int) :
    l.foldl (fun a b => a + f b) acc = acc + (l.map f).sum := by
  induction l generalizing acc with
  | nil => simp
  | cons b rest ih =>
    rw [List.foldl_cons, ih, List.map_cons, List.sum_cons]
    ring

theorem count_cells_in_unbounded (states : List box) :
    count_cells_in unbounded states = (states.map box.volume).sum := by
  have h : (fun (acc : Int) (b : box) => unbounded.i64 (acc + b.size_in unbounded)) =
      fun acc b => acc + b.volume := by
    funext acc b
    rw [size_in_unbounded]
    rfl
  unfold count_cells_in
  rw [h, foldl_add_eq_sum]
  simp

theorem process_step_valid (states : List box) (s : box) (hs : s.valid)
    (hl : ∀ b ∈ states, b.valid) : ∀ b ∈ process_step states s, b.valid := by
  intro b hb
  rw [process_step_eq, List.mem_append, List.mem_append] at hb
  rcases hb with (hb | hb) | hb
  · exact hl b hb
  · by_cases ha : s.is_add = true
    · simp only [ha, if_true, List.mem_singleton] at hb
      rw [hb]
      exact hs
    · simp [ha] at hb
  · rw [List.mem_filterMap] at hb
    obtain ⟨ps, hps, hov⟩ := hb
    exact overlap_valid ps s b (hl ps hps) hs hov

theorem follow_steps_valid (ops : List box) (all_space : Bool) (h : ∀ s ∈ ops, s.valid) :
    ∀ b ∈ follow_steps ops all_space, b.valid := by
  induction ops using List.reverseRecOn with
  | nil => simp [follow_steps]
  | append_singleton ops s ih =>
    have hops : ∀ t ∈ ops, t.valid := fun t ht => h t (List.mem_append_left _ ht)
    have hs : s.valid := h s (by simp)
    rw [follow_steps_append_singleton]
    unfold follow_step
    split
    · exact process_step_valid _ s hs (ih hops)
    · exact ih hops

theorem sum_indicator_box (b : box) (T : Finset cell) :
    Finset.sum T (fun c => if b.contains c then b.sign else 0) =
      b.sign * ((b.cells ∩ T).card : Int) := by
  have hf : T.filter (fun c => b.contains c = true) = b.cells ∩ T := by
    ext c
    rw [Finset.mem_filter, Finset.mem_inter, mem_cells_iff]
    tauto
  rw [← Finset.sum_filter, hf, Finset.sum_const]
  simp [mul_comm]

theorem sum_signed_count (ledger : List box) (T : Finset cell) :
    Finset.sum T (fun c => signed_count ledger c) =
      (ledger.map (fun b => b.sign * ((b.cells ∩ T).card : Int))).sum := by
  induction ledger with
  | nil => simp [signed_count]
  | cons b rest ih =>
    simp only [signed_count_cons, Finset.sum_add_distrib, List.map_cons, List.sum_cons]
    rw [ih, sum_indicator_box]

theorem mem_on_cells (ops : List box) (c : cell) : c ∈ on_cells ops ↔ is_on ops c = true := by
  induction ops using List.reverseRecOn with
  | nil => simp [on_cells, is_on]
  | append_singleton ops s ih =>
    rw [is_on_append_singleton]
    have hstep : on_cells (ops ++ [s]) =
        if s.is_add then on_cells ops ∪ s.cells else on_cells ops \ s.cells := by
      simp [on_cells, List.foldl_append]
    rw [hstep]
    by_cases ha : s.is_add = true <;> by_cases hc : s.contains c = true <;>
      simp [ha, hc, Finset.mem_union, Finset.mem_sdiff, mem_cells_iff, ih]

theorem sum_volume_ledger (ops : List box) (h : ∀ s ∈ ops, s.valid) :
    ((follow_steps ops true).map box.volume).sum = ((on_cells ops).card : Int) := by
  let T : Finset cell := (follow_steps ops true).toFinset.biUnion box.cells ∪ on_cells ops
  have hvalid := follow_steps_valid ops true h
  have hmap : (follow_steps ops true).map box.volume =
      (follow_steps ops true).map (fun b => b.sign * ((b.cells ∩ T).card : Int)) := by
    apply List.map_congr_left
    intro b hb
    have hsub : b.cells ⊆ T := by
      intro c hc
      apply Finset.mem_union_left
      rw [Finset.mem_biUnion]
      exact ⟨b, List.mem_toFinset.mpr hb, hc⟩
    rw [Finset.inter_eq_left.mpr hsub]
    exact volume_eq_sign_mul_card b (hvalid b hb)
  have hon : T.filter (fun c => is_on ops c = true) = on_cells ops := by
    ext c
    rw [Finset.mem_filter, ← mem_on_cells]
    constructor
    · exact fun hc => hc.2
    · exact fun hc => ⟨Finset.mem_union_right _ hc, hc⟩
  rw [hmap, ← sum_signed_count]
  simp only [signed_count_ledger]
  rw [← Finset.sum_filter, hon, Finset.sum_const]
  simp

/-! ## Claims on the ledger -/

/-- C1: for operations whose boxes have `min ≤ max` on every axis, processed in unbounded
mode, and for every `k`, `count_cells` of the ledger after the k-th operation (the ledger of
the first `k` operations; all of them once `k` reaches their number), taken over unbounded
integers, is the number of cells that are on after the first `k` operations are applied in
order to an all-off grid. -/
theorem count_cells_eq_card_on_cells (ops : List box) (h : ∀ s ∈ ops, s.valid) (k : Nat) :
    count_cells_in unbounded (follow_steps (ops.take k) true) =
      ((on_cells (ops.take k)).card : Int) := by
  rw [count_cells_in_unbounded]
  exact sum_volume_ledger (ops.take k) (fun s hs => h s (List.mem_of_mem_take hs))

/-- Witness of C1: the worked example after its third step. -/
theorem count_cells_eq_card_on_cells_witness :
    (∀ s ∈ [(⟨⟨10, 10, 10⟩, ⟨12, 12, 12⟩, toggle.on⟩ : box),
        ⟨⟨11, 11, 11⟩, ⟨13, 13, 13⟩, toggle.on⟩,
        ⟨⟨9, 9, 9⟩, ⟨11, 11, 11⟩, toggle.off⟩,
        ⟨⟨10, 10, 10⟩, ⟨10, 10, 10⟩, toggle.on⟩], s.valid) ∧
    count_cells_in unbounded
        (follow_steps
          ([(⟨⟨10, 10, 10⟩, ⟨12, 12, 12⟩, toggle.on⟩ : box),
            ⟨⟨11, 11, 11⟩, ⟨13, 13, 13⟩, toggle.on⟩,
            ⟨⟨9, 9, 9⟩, ⟨11, 11, 11⟩, toggle.off⟩,
            ⟨⟨10, 10, 10⟩, ⟨10, 10, 10⟩, toggle.on⟩].take 3) true) =
      ((on_cells
          ([(⟨⟨10, 10, 10⟩, ⟨12, 12, 12⟩, toggle.on⟩ : box),
            ⟨⟨11, 11, 11⟩, ⟨13, 13, 13⟩, toggle.on⟩,
            ⟨⟨9, 9, 9⟩, ⟨11, 11, 11⟩, toggle.off⟩,
            ⟨⟨10, 10, 10⟩, ⟨10, 10, 10⟩, toggle.on⟩].take 3)).card : Int) :=
  ⟨by decide, count_cells_eq_card_on_cells _ (by decide) 3⟩

/-- C2: in bounded mode `follow_steps` returns the ledger that unbounded mode returns on
the operations kept by `step_covers_part1_region`, in their order; those are the operations
whose box lies within [-50, 50] on all three axes, and an operation that is not kept leaves
the ledger as it is. -/
theorem follow_steps_bounded_eq_filter (ops : List box) :
    follow_steps ops false = follow_steps (ops.filter step_covers_part1_region) true ∧
    (∀ (ledger : List box) (s : box), step_covers_part1_region s = false →
      follow_step false ledger s = ledger) ∧
    (∀ s : box, step_covers_part1_region s = true ↔
      ∀ i : Fin 3, -50 ≤ s.m_min.get i ∧ s.m_max.get i ≤ 50) := by
  refine ⟨?_, ?_, ?_⟩
  · induction ops using List.reverseRecOn with
    | nil => rfl
    | append_singleton ops s ih =>
      rw [follow_steps_append_singleton, List.filter_append, ih]
      by_cases hs : step_covers_part1_region s = true
      · simp [List.filter_cons, hs, follow_steps_append_singleton, follow_step]
      · simp [List.filter_cons, hs, follow_step]
  · intro ledger s hs
    simp [follow_step, hs]
  · intro s
    simp only [step_covers_part1_region, box.is_in, box.mk2, Fin.forall_fin_succ,
      point_3d.get]
    simp

/-- Witness of C2: a step outside the region followed by one inside it. -/
theorem follow_steps_bounded_eq_filter_witness :
    step_covers_part1_region ⟨⟨967, 45373, 27513⟩, ⟨23432, 81175, 53682⟩, toggle.on⟩ = false ∧
    follow_step false [⟨⟨10, 10, 10⟩, ⟨12, 12, 12⟩, toggle.on⟩]
        ⟨⟨967, 45373, 27513⟩, ⟨23432, 81175, 53682⟩, toggle.on⟩ =
      [⟨⟨10, 10, 10⟩, ⟨12, 12, 12⟩, toggle.on⟩] :=
  ⟨by decide,
    (follow_steps_bounded_eq_filter []).2.1 [⟨⟨10, 10, 10⟩, ⟨12, 12, 12⟩, toggle.on⟩]
      ⟨⟨967, 45373, 27513⟩, ⟨23432, 81175, 53682⟩, toggle.on⟩ (by decide)⟩

/-- C3 fails on the code: for the single step `on x=50..51,y=0..0,z=0..0` the cube
(50, 0, 0) of the region is on, so the puzzle's answer is 1, while `part_1` skips the step
and returns 0. -/
theorem part_1_skips_straddling_step :
    straddling_step.valid ∧
    step_covers_part1_region straddling_step = false ∧
    follow_steps [straddling_step] false = [] ∧
    part_1 [straddling_step] = 0 ∧
    region_on_count [straddling_step] = 1 ∧
    part_1 [straddling_step] ≠ (region_on_count [straddling_step] : Int) := by
  decide

/-- C7: one processed step of `follow_steps` yields the ledger, then the operation itself
when it is "on", then the overlap of each ledger entry with the operation, in ledger order,
where it exists; the number of entries grows by one for an "on" operation plus the number of
entries whose overlap exists, and the overlap entries depend on the corners of the operation
only, not on its toggle. -/
theorem follow_step_appends (all_space : Bool) (ledger : List box) (s : box)
    (hproc : (all_space || step_covers_part1_region s) = true) :
    follow_step all_space ledger s =
      ledger ++ (if s.is_add then [s] else []) ++
        ledger.filterMap (fun ps => ps.overlap s) ∧
    (follow_step all_space ledger s).length =
      ledger.length + ((if s.is_add then 1 else 0) +
        ledger.countP (fun ps => (ps.overlap s).isSome)) ∧
    ∀ t : box, t.m_min = s.m_min → t.m_max = s.m_max →
      ledger.filterMap (fun ps => ps.overlap t) =
        ledger.filterMap (fun ps => ps.overlap s) := by
  have hstep : follow_step all_space ledger s =
      ledger ++ (if s.is_add then [s] else []) ++
        ledger.filterMap (fun ps => ps.overlap s) := by
    unfold follow_step
    rw [if_pos hproc, process_step_eq]
  have hlen : ∀ l : List box, (l.filterMap (fun ps => ps.overlap s)).length =
      l.countP (fun ps => (ps.overlap s).isSome) := by
    intro l
    induction l with
    | nil => rfl
    | cons ps rest ih =>
      cases h : ps.overlap s with
      | none => simp [List.filterMap_cons, List.countP_cons, h, ih]
      | some o => simp [List.filterMap_cons, List.countP_cons, h, ih]
  refine ⟨hstep, ?_, ?_⟩
  · rw [hstep, List.length_append, List.length_append, hlen]
    by_cases ha : s.is_add = true <;> simp [ha, Nat.add_assoc]
  · intro t hmin hmax
    have hfun : (fun ps : box => ps.overlap t) = fun ps => ps.overlap s := by
      funext ps
      exact overlap_congr_corners ps s t hmin hmax
    rw [hfun]

/-- Witness of C7: the third step of the worked example, an "off" operation. -/
theorem follow_step_appends_witness :
    (false || step_covers_part1_region ⟨⟨9, 9, 9⟩, ⟨11, 11, 11⟩, toggle.off⟩) = true ∧
    follow_step false
        [⟨⟨10, 10, 10⟩, ⟨12, 12, 12⟩, toggle.on⟩, ⟨⟨20, 20, 20⟩, ⟨21, 21, 21⟩, toggle.on⟩]
        ⟨⟨9, 9, 9⟩, ⟨11, 11, 11⟩, toggle.off⟩ =
      [⟨⟨10, 10, 10⟩, ⟨12, 12, 12⟩, toggle.on⟩, ⟨⟨20, 20, 20⟩, ⟨21, 21, 21⟩, toggle.on⟩] ++
        (if (⟨⟨9, 9, 9⟩, ⟨11, 11, 11⟩, toggle.off⟩ : box).is_add then
          [⟨⟨9, 9, 9⟩, ⟨11, 11, 11⟩, toggle.off⟩] else []) ++
        [(⟨⟨10, 10, 10⟩, ⟨12, 12, 12⟩, toggle.on⟩ : box),
          ⟨⟨20, 20, 20⟩, ⟨21, 21, 21⟩, toggle.on⟩].filterMap
            (fun ps => ps.overlap ⟨⟨9, 9, 9⟩, ⟨11, 11, 11⟩, toggle.off⟩) :=
  ⟨by decide, (follow_step_appends false _ _ (by decide)).1⟩

/-- C8: for every ledger reached by `follow_steps` in unbounded mode and every cell, the
signed number of ledger entries containing the cell is 1 when the cell is on after those
operations and 0 otherwise; it is never negative and never greater than 1.  (The property
needs no assumption on the boxes.) -/
theorem signed_count_is_on_indicator (ops : List box) (c : cell) :
    signed_count (follow_steps ops true) c = (if is_on ops c then 1 else 0) ∧
    0 ≤ signed_count (follow_steps ops true) c ∧
    signed_count (follow_steps ops true) c ≤ 1 := by
  have h := signed_count_ledger ops c
  refine ⟨h, ?_, ?_⟩ <;> rw [h] <;> split <;> decide

/-! ## Claims on `box::size` -/

/-- C9, as amended: for every box on which no step of `size()` overflows, `size()` equals
`(max_x - min_x + 1) * (max_y - min_y + 1) * (max_z - min_z + 1)` multiplied by +1 when the
state of the box is on and by -1 when it is off. -/
theorem size_eq_signed_product (b : box) (h : b.no_overflow) :
    b.size =
      (b.m_max.x - b.m_min.x + 1) * (b.m_max.y - b.m_min.y + 1) *
        (b.m_max.z - b.m_min.z + 1) * (if b.m_state = toggle.on then 1 else -1) := by
  rw [size_eq_volume_of_no_overflow b h]
  rfl

/-- Witness of C9 on the third box of the worked example. -/
theorem size_eq_signed_product_witness :
    (⟨⟨9, 9, 9⟩, ⟨11, 11, 11⟩, toggle.off⟩ : box).no_overflow ∧
    (⟨⟨9, 9, 9⟩, ⟨11, 11, 11⟩, toggle.off⟩ : box).size =
      (11 - 9 + 1) * (11 - 9 + 1) * (11 - 9 + 1) *
        (if toggle.off = toggle.on then 1 else -1) :=
  ⟨by unfold box.no_overflow; decide,
    size_eq_signed_product ⟨⟨9, 9, 9⟩, ⟨11, 11, 11⟩, toggle.off⟩
      (by unfold box.no_overflow; decide)⟩

/-- C9 as stated fails: on the box spanning the whole `int` range on x the extent
`max - min + 1` is 2^32, which `int` does not hold; `size()` returns 0, the product of the
extents is 4294967296. -/
theorem size_wraps_on_wide_box :
    wide_box.size = 0 ∧
    (wide_box.m_max.x - wide_box.m_min.x + 1) * (wide_box.m_max.y - wide_box.m_min.y + 1) *
        (wide_box.m_max.z - wide_box.m_min.z + 1) *
        (if wide_box.m_state = toggle.on then 1 else -1) = 4294967296 ∧
    wide_box.size ≠
      (wide_box.m_max.x - wide_box.m_min.x + 1) * (wide_box.m_max.y - wide_box.m_min.y + 1) *
        (wide_box.m_max.z - wide_box.m_min.z + 1) *
        (if wide_box.m_state = toggle.on then 1 else -1) := by
  decide

/-- C10: for every box with `min ≤ max` on every axis and all six coordinates in
[-100000, 100000], no step of `size()` overflows (the extents in `int`, the products in
`int64_t`) and `size()` is the exact product of the three extents times the sign. -/
theorem size_exact_within_puzzle_range (b : box) (hv : b.valid)
    (hr : ∀ i : Fin 3, -100000 ≤ b.m_min.get i ∧ b.m_min.get i ≤ 100000 ∧
      -100000 ≤ b.m_max.get i ∧ b.m_max.get i ≤ 100000) :
    b.no_overflow ∧
    b.size =
      (b.m_max.x - b.m_min.x + 1) * (b.m_max.y - b.m_min.y + 1) *
        (b.m_max.z - b.m_min.z + 1) * (if b.m_state = toggle.on then 1 else -1) := by
  have hno : b.no_overflow := by
    obtain ⟨vx, vy, vz⟩ := hv
    have h0 := hr 0
    have h1 := hr 1
    have h2 := hr 2
    simp only [point_3d.get] at h0 h1 h2
    have hX : 1 ≤ b.m_max.x - b.m_min.x + 1 ∧ b.m_max.x - b.m_min.x + 1 ≤ 200001 := by omega
    have hY : 1 ≤ b.m_max.y - b.m_min.y + 1 ∧ b.m_max.y - b.m_min.y + 1 ≤ 200001 := by omega
    have hZ : 1 ≤ b.m_max.z - b.m_min.z + 1 ∧ b.m_max.z - b.m_min.z + 1 ≤ 200001 := by omega
    have hs : b.sign = 1 ∨ b.sign = -1 := by
      unfold box.sign
      split
      · exact Or.inl rfl
      · exact Or.inr rfl
    unfold box.no_overflow
    refine ⟨?_, ?_⟩
    · intro i
      unfold in_int32
      fin_cases i <;> simp only [point_3d.get] <;> omega
    · generalize b.m_max.x - b.m_min.x + 1 = X at hX
      generalize b.m_max.y - b.m_min.y + 1 = Y at hY
      generalize b.m_max.z - b.m_min.z + 1 = Z at hZ
      have hXY1 : 1 ≤ X * Y := by nlinarith
      have hXY2 : X * Y ≤ 200001 * 200001 :=
        Int.mul_le_mul hX.2 hY.2 (by omega) (by omega)
      have hXYZ1 : 1 ≤ X * Y * Z := by nlinarith
      have hXYZ2 : X * Y * Z ≤ 200001 * 200001 * 200001 :=
        Int.mul_le_mul hXY2 hZ.2 (by omega) (by omega)
      unfold in_int64
      rcases hs with hs | hs <;> rw [hs] <;> omega
  exact ⟨hno, by rw [size_eq_volume_of_no_overflow b hno]; rfl⟩

/-- Witness of C10 on a box of the large example of part 2. -/
theorem size_exact_within_puzzle_range_witness :
    (⟨⟨-57795, 29564, 20435⟩, ⟨-6158, 72030, 90618⟩, toggle.on⟩ : box).valid ∧
    (∀ i : Fin 3,
      -100000 ≤ (⟨⟨-57795, 29564, 20435⟩, ⟨-6158, 72030, 90618⟩, toggle.on⟩ : box).m_min.get i ∧
      (⟨⟨-57795, 29564, 20435⟩, ⟨-6158, 72030, 90618⟩, toggle.on⟩ : box).m_min.get i ≤ 100000 ∧
      -100000 ≤ (⟨⟨-57795, 29564, 20435⟩, ⟨-6158, 72030, 90618⟩, toggle.on⟩ : box).m_max.get i ∧
      (⟨⟨-57795, 29564, 20435⟩, ⟨-6158, 72030, 90618⟩, toggle.on⟩ : box).m_max.get i ≤ 100000) ∧
    (⟨⟨-57795, 29564, 20435⟩, ⟨-6158, 72030, 90618⟩, toggle.on⟩ : box).size =
      (-6158 - -57795 + 1) * (72030 - 29564 + 1) * (90618 - 20435 + 1) * 1 :=
  ⟨by decide, by decide,
    (size_exact_within_puzzle_range
      ⟨⟨-57795, 29564, 20435⟩, ⟨-6158, 72030, 90618⟩, toggle.on⟩ (by decide) (by decide)).2⟩

/-! ## Claims on `is_in`, growth and validity of the ledger -/

/-- C11: `a.is_in(b)` is true exactly when on each of the three axes `b.min ≤ a.min` and
`a.max ≤ b.max`; replacing the toggle of either box leaves the result unchanged. -/
theorem is_in_iff_bounds (a b : box) :
    (a.is_in b = true ↔
      ∀ i : Fin 3, b.m_min.get i ≤ a.m_min.get i ∧ a.m_max.get i ≤ b.m_max.get i) ∧
    ∀ ta tb : toggle,
      (⟨a.m_min, a.m_max, ta⟩ : box).is_in ⟨b.m_min, b.m_max, tb⟩ = a.is_in b := by
  refine ⟨?_, fun _ _ => rfl⟩
  simp only [box.is_in, Fin.forall_fin_succ, point_3d.get]
  simp

theorem foldl_follow_step_prefix (all_space : Bool) (ys : List box) (ledger : List box) :
    ledger <+: ys.foldl (follow_step all_space) ledger := by
  induction ys generalizing ledger with
  | nil => exact List.prefix_refl ledger
  | cons s rest ih =>
    rw [List.foldl_cons]
    refine List.IsPrefix.trans ?_ (ih _)
    unfold follow_step
    split
    · rw [process_step_eq, List.append_assoc]
      exact List.prefix_append _ _
    · exact List.prefix_refl ledger

/-- C12: in either mode the ledger of `xs` is a prefix of the ledger of `xs ++ ys`: further
operations never remove, reorder or change an entry already in the ledger. -/
theorem follow_steps_prefix_append (xs ys : List box) (all_space : Bool) :
    follow_steps xs all_space <+: follow_steps (xs ++ ys) all_space := by
  unfold follow_steps
  rw [List.foldl_append]
  exact foldl_follow_step_prefix all_space ys _

/-- C20: for the empty operation list, in either mode, `follow_steps` returns the empty
ledger and `count_cells` of it is 0. -/
theorem follow_steps_nil (all_space : Bool) :
    follow_steps [] all_space = [] ∧ count_cells (follow_steps [] all_space) = 0 := by
  constructor
  · rfl
  · rfl

theorem volume_ne_zero (b : box) (hv : b.valid) : b.volume ≠ 0 := by
  obtain ⟨hx, hy, hz⟩ := hv
  have hs : b.sign ≠ 0 := by
    unfold box.sign
    split <;> decide
  unfold box.volume
  have h1 : b.m_max.x - b.m_min.x + 1 ≠ 0 := by omega
  have h2 : b.m_max.y - b.m_min.y + 1 ≠ 0 := by omega
  have h3 : b.m_max.z - b.m_min.z + 1 ≠ 0 := by omega
  exact mul_ne_zero (mul_ne_zero (mul_ne_zero h1 h2) h3) hs

theorem no_overflow_of_within (b : box) (hv : b.valid) (hr : b.coords_within 131072) :
    b.no_overflow := by
  obtain ⟨vx, vy, vz⟩ := hv
  obtain ⟨h1, h2, h3, h4, h5, h6⟩ := hr
  have hX : 1 ≤ b.m_max.x - b.m_min.x + 1 ∧ b.m_max.x - b.m_min.x + 1 ≤ 262145 := by omega
  have hY : 1 ≤ b.m_max.y - b.m_min.y + 1 ∧ b.m_max.y - b.m_min.y + 1 ≤ 262145 := by omega
  have hZ : 1 ≤ b.m_max.z - b.m_min.z + 1 ∧ b.m_max.z - b.m_min.z + 1 ≤ 262145 := by omega
  have hs : b.sign = 1 ∨ b.sign = -1 := by
    unfold box.sign
    split
    · exact Or.inl rfl
    · exact Or.inr rfl
  unfold box.no_overflow
  refine ⟨?_, ?_⟩
  · intro i
    unfold in_int32
    fin_cases i <;> simp only [point_3d.get] <;> omega
  · generalize b.m_max.x - b.m_min.x + 1 = X at hX
    generalize b.m_max.y - b.m_min.y + 1 = Y at hY
    generalize b.m_max.z - b.m_min.z + 1 = Z at hZ
    have hXY1 : 1 ≤ X * Y := by nlinarith
    have hXY2 : X * Y ≤ 262145 * 262145 :=
      Int.mul_le_mul hX.2 hY.2 (by omega) (by omega)
    have hXYZ1 : 1 ≤ X * Y * Z := by nlinarith
    have hXYZ2 : X * Y * Z ≤ 262145 * 262145 * 262145 :=
      Int.mul_le_mul hXY2 hZ.2 (by omega) (by omega)
    unfold in_int64
    rcases hs with hs | hs <;> rw [hs] <;> omega

theorem coords_within_mono (b : box) (B C : Int) (hBC : B ≤ C) (h : b.coords_within B) :
    b.coords_within C := by
  unfold box.coords_within at h ⊢
  omega

theorem overlap_within (a b r : box) (B : Int) (ha : a.coords_within B)
    (hb : b.coords_within B) (h : a.overlap b = some r) : r.coords_within B := by
  obtain ⟨_, rfl⟩ := overlap_eq_some a b r h
  simp only [box.coords_within] at ha hb ⊢
  simp only [le_max_iff, max_le_iff, le_min_iff, min_le_iff]
  omega

theorem process_step_within (states : List box) (s : box) (B : Int) (hs : s.coords_within B)
    (hl : ∀ b ∈ states, b.coords_within B) : ∀ b ∈ process_step states s, b.coords_within B := by
  intro b hb
  rw [process_step_eq, List.mem_append, List.mem_append] at hb
  rcases hb with (hb | hb) | hb
  · exact hl b hb
  · by_cases ha : s.is_add = true
    · simp only [ha, if_true, List.mem_singleton] at hb
      rw [hb]
      exact hs
    · simp [ha] at hb
  · rw [List.mem_filterMap] at hb
    obtain ⟨ps, hps, hov⟩ := hb
    exact overlap_within ps s b B (hl ps hps) hs hov

theorem follow_steps_within (ops : List box) (all_space : Bool) (B : Int)
    (h : ∀ s ∈ ops, s.coords_within B) :
    ∀ b ∈ follow_steps ops all_space, b.coords_within B := by
  induction ops using List.reverseRecOn with
  | nil => simp [follow_steps]
  | append_singleton ops s ih =>
    have hops : ∀ t ∈ ops, t.coords_within B := fun t ht => h t (List.mem_append_left _ ht)
    have hs : s.coords_within B := h s (by simp)
    rw [follow_steps_append_singleton]
    unfold follow_step
    split
    · exact process_step_within _ s B hs (ih hops)
    · exact ih hops

/-- C13, as amended: if every operation has `min ≤ max` on every axis, every entry of every
ledger produced by `follow_steps`, in either mode, has `min ≤ max` on every axis, so the
signed product of its extents is non-zero; `size()` of the entry is non-zero whenever no step
of `size()` overflows on it, which is the case when all coordinates of the operations lie in
[-100000, 100000]. -/
theorem ledger_entries_valid (ops : List box) (all_space : Bool) (h : ∀ s ∈ ops, s.valid) :
    ∀ b ∈ follow_steps ops all_space,
      b.valid ∧ b.volume ≠ 0 ∧ (b.no_overflow → b.size ≠ 0) ∧
      ((∀ s ∈ ops, s.coords_within 100000) → b.size ≠ 0) := by
  intro b hb
  have hv := follow_steps_valid ops all_space h b hb
  have hvol := volume_ne_zero b hv
  refine ⟨hv, hvol, ?_, ?_⟩
  · intro hno
    rw [size_eq_volume_of_no_overflow b hno]
    exact hvol
  · intro hr
    have hw := follow_steps_within ops all_space 100000 hr b hb
    have hno := no_overflow_of_within b hv (coords_within_mono b _ _ (by decide) hw)
    rw [size_eq_volume_of_no_overflow b hno]
    exact hvol

/-- Witness of C13: the overlap entry of the first two steps of the worked example. -/
theorem ledger_entries_valid_witness :
    (∀ s ∈ [(⟨⟨10, 10, 10⟩, ⟨12, 12, 12⟩, toggle.on⟩ : box),
        ⟨⟨11, 11, 11⟩, ⟨13, 13, 13⟩, toggle.on⟩], s.valid) ∧
    (⟨⟨11, 11, 11⟩, ⟨12, 12, 12⟩, toggle.off⟩ : box) ∈
      follow_steps [(⟨⟨10, 10, 10⟩, ⟨12, 12, 12⟩, toggle.on⟩ : box),
        ⟨⟨11, 11, 11⟩, ⟨13, 13, 13⟩, toggle.on⟩] false ∧
    (⟨⟨11, 11, 11⟩, ⟨12, 12, 12⟩, toggle.off⟩ : box).valid ∧
    (⟨⟨11, 11, 11⟩, ⟨12, 12, 12⟩, toggle.off⟩ : box).volume ≠ 0 :=
  ⟨by decide, by decide,
    (ledger_entries_valid [(⟨⟨10, 10, 10⟩, ⟨12, 12, 12⟩, toggle.on⟩ : box),
        ⟨⟨11, 11, 11⟩, ⟨13, 13, 13⟩, toggle.on⟩] false (by decide)
      ⟨⟨11, 11, 11⟩, ⟨12, 12, 12⟩, toggle.off⟩ (by decide)).1,
    (ledger_entries_valid [(⟨⟨10, 10, 10⟩, ⟨12, 12, 12⟩, toggle.on⟩ : box),
        ⟨⟨11, 11, 11⟩, ⟨13, 13, 13⟩, toggle.on⟩] false (by decide)
      ⟨⟨11, 11, 11⟩, ⟨12, 12, 12⟩, toggle.off⟩ (by decide)).2.1⟩

/-- C13 as stated fails: the single valid operation spanning the whole `int` range on x is
entered in the ledger of unbounded mode, and `size()` of that entry is 0. -/
theorem ledger_entry_size_zero :
    (∀ s ∈ [wide_box], s.valid) ∧
    wide_box ∈ follow_steps [wide_box] true ∧
    wide_box.size = 0 ∧
    ¬ (∀ b ∈ follow_steps [wide_box] true, b.size ≠ 0) := by
  decide

/-! ## Evaluating the total without building the ledger -/

theorem sum_volume_foldl (rest : List box) (ledger : List box) :
    ((rest.foldl (follow_step true) ledger).map box.volume).sum =
      (ledger.map (fun b => chain_volume b rest)).sum + ledger_total rest := by
  induction rest generalizing ledger with
  | nil => simp [chain_volume, ledger_total]
  | cons s rest ih =>
    rw [List.foldl_cons, ih]
    have hstep : follow_step true ledger s =
        ledger ++ ((if s.is_add then [s] else []) ++
          ledger.filterMap (fun ps => ps.overlap s)) := by
      simp [follow_step, process_step_eq]
    have hcorr : ∀ l : List box,
        ((l.filterMap (fun ps => ps.overlap s)).map (fun b => chain_volume b rest)).sum +
            (l.map (fun b => chain_volume b rest)).sum =
          (l.map (fun b => chain_volume b (s :: rest))).sum := by
      intro l
      induction l with
      | nil => simp
      | cons ps l ihl =>
        cases hov : ps.overlap s with
        | none =>
          have hhead : chain_volume ps (s :: rest) = chain_volume ps rest := by
            simp [chain_volume, hov]
          simp only [List.filterMap_cons, hov, List.map_cons, List.sum_cons]
          rw [hhead, ← ihl]
          ring
        | some o =>
          have hhead : chain_volume ps (s :: rest) =
              chain_volume o rest + chain_volume ps rest := by
            simp [chain_volume, hov]
          simp only [List.filterMap_cons, hov, List.map_cons, List.sum_cons]
          rw [hhead, ← ihl]
          ring
    rw [hstep, List.map_append, List.map_append, List.sum_append, List.sum_append, ← hcorr]
    by_cases ha : s.is_add = true
    · simp only [ha, if_true, List.map_cons, List.map_nil, List.sum_cons, List.sum_nil,
        ledger_total]
      ring
    · simp only [ha, Bool.false_eq_true, if_false, List.map_nil, List.sum_nil, ledger_total]
      ring

theorem count_unbounded_eq_ledger_total (ops : List box) :
    count_cells_in unbounded (follow_steps ops true) = ledger_total ops := by
  rw [count_cells_in_unbounded]
  unfold follow_steps
  rw [sum_volume_foldl]
  simp

theorem wrap64_add_wrap64 (a b : Int) : wrap64 (wrap64 a + b) = wrap64 (a + b) := by
  unfold wrap64
  omega

theorem foldl_wrap64 (states : List box) (h : ∀ b ∈ states, b.no_overflow) (a : Int) :
    states.foldl (fun acc b => wrap64 (acc + b.size)) (wrap64 a) =
      wrap64 (a + (states.map box.volume).sum) := by
  induction states generalizing a with
  | nil => simp
  | cons b rest ih =>
    have hb : b.size = b.volume := size_eq_volume_of_no_overflow b (h b (by simp))
    rw [List.foldl_cons, wrap64_add_wrap64, hb, ih (fun c hc => h c (by simp [hc]))]
    simp only [List.map_cons, List.sum_cons]
    rw [add_assoc]

theorem count_cells_eq_wrap64 (states : List box) (h : ∀ b ∈ states, b.no_overflow) :
    count_cells states = wrap64 (count_cells_in unbounded states) := by
  rw [count_cells_in_unbounded]
  have h0 := foldl_wrap64 states h 0
  have hw : wrap64 0 = 0 := by decide
  rw [hw, zero_add] at h0
  exact h0

theorem follow_steps_false_eq_filter (ops : List box) :
    follow_steps ops false = follow_steps (ops.filter step_covers_part1_region) true := by
  induction ops using List.reverseRecOn with
  | nil => rfl
  | append_singleton ops s ih =>
    rw [follow_steps_append_singleton, List.filter_append, ih]
    by_cases hs : step_covers_part1_region s = true
    · simp [List.filter_cons, hs, follow_steps_append_singleton, follow_step]
    · simp [List.filter_cons, hs, follow_step]

theorem count_cells_unbounded_mode (ops : List box) (hv : ∀ s ∈ ops, s.valid)
    (hr : ∀ s ∈ ops, s.coords_within 131072) :
    count_cells (follow_steps ops true) = wrap64 (ledger_total ops) := by
  rw [count_cells_eq_wrap64, count_unbounded_eq_ledger_total]
  intro b hb
  exact no_overflow_of_within b (follow_steps_valid ops true hv b hb)
    (follow_steps_within ops true 131072 hr b hb)

/-! ## The matcher on lines of the grammar -/

theorem run_lit_append (l t : List Char) (caps : List (List Char))
    (k : List Char → List (List Char) → Option (List (List Char))) :
    (regex.lit l).run (l ++ t) caps k = k t caps := by
  induction l with
  | nil => rfl
  | cons c l ih =>
    simp only [regex.lit, regex.run, regex.chr, List.cons_append, beq_self_eq_true, if_true]
    exact ih

theorem star_class_greedy {α : Type} (p : Char → Bool) (k : List Char → Option α)
    (ds t : List Char) (r : α) (hds : ∀ c ∈ ds, p c = true)
    (ht : ∀ c ∈ t.head?, p c = false) (hk : k t = some r) :
    star_class p k (ds ++ t) = some r := by
  induction ds with
  | nil =>
    cases t with
    | nil => simpa [star_class] using hk
    | cons c t' =>
      have hc : p c = false := ht c (by simp)
      simp [star_class, hc, hk]
  | cons d ds ih =>
    have hd : p d = true := hds d (by simp)
    have ih' := ih (fun c hc => hds c (by simp [hc]))
    simp [star_class, hd, ih']

theorem is_numeral_cases (a : List Char) (ha : is_numeral a = true) :
    (∃ d ds, a = '-' :: d :: ds ∧ d.isDigit = true ∧ ∀ c ∈ ds, c.isDigit = true) ∨
    (∃ d ds, a = d :: ds ∧ d ≠ '-' ∧ d.isDigit = true ∧ ∀ c ∈ ds, c.isDigit = true) := by
  unfold is_numeral at ha
  split at ha
  · next ds =>
    cases ds with
    | nil => simp at ha
    | cons d ds =>
      left
      simp only [List.isEmpty_cons, Bool.not_false, List.all_cons, Bool.true_and,
        Bool.and_eq_true, List.all_eq_true] at ha
      exact ⟨d, ds, rfl, ha.1, ha.2⟩
  · next hne =>
    cases a with
    | nil => simp at ha
    | cons d ds =>
      right
      simp only [List.isEmpty_cons, Bool.not_false, List.all_cons, Bool.true_and,
        Bool.and_eq_true, List.all_eq_true] at ha
      refine ⟨d, ds, rfl, ?_, ha.1, ha.2⟩
      intro hd
      exact hne ds (by rw [hd])

theorem take_length_sub (a t : List Char) : (a ++ t).take ((a ++ t).length - t.length) = a := by
  simp

theorem run_num (a t : List Char) (caps : List (List Char))
    (k : List Char → List (List Char) → Option (List (List Char))) (r : List (List Char))
    (ha : is_numeral a = true) (ht : ∀ c ∈ t.head?, c.isDigit = false)
    (hk : k t (caps ++ [a]) = some r) :
    num_re.run (a ++ t) caps k = some r := by
  have hk' : k t (caps ++ [(a ++ t).take ((a ++ t).length - t.length)]) = some r := by
    rw [take_length_sub]
    exact hk
  rcases is_numeral_cases a ha with ⟨d, ds, rfl, hd, hds⟩ | ⟨d, ds, rfl, hne, hd, hds⟩
  · have hstar := star_class_greedy Char.isDigit
      (fun rest => k rest (caps ++
        [(('-' :: d :: ds) ++ t).take ((('-' :: d :: ds) ++ t).length - rest.length)]))
      ds t r hds ht hk'
    simp only [num_re, regex.run, regex.chr, regex.digit_plus, List.cons_append,
      beq_self_eq_true, if_true, hd]
    simp only [List.cons_append] at hstar
    rw [hstar]
    rfl
  · have hstar := star_class_greedy Char.isDigit
      (fun rest => k rest (caps ++
        [((d :: ds) ++ t).take (((d :: ds) ++ t).length - rest.length)]))
      ds t r hds ht hk'
    have hbeq : (d == '-') = false := by simpa using hne
    simp only [num_re, regex.run, regex.chr, regex.digit_plus, List.cons_append, hbeq, hd,
      if_true]
    simp only [List.cons_append] at hstar
    rw [hstar]
    rfl

theorem run_pair (next : regex) (a b t : List Char) (caps : List (List Char))
    (k : List Char → List (List Char) → Option (List (List Char))) (r : List (List Char))
    (ha : is_numeral a = true) (hb : is_numeral b = true)
    (ht : ∀ c ∈ t.head?, c.isDigit = false)
    (hnext : next.run t (caps ++ [a] ++ [b]) k = some r) :
    (pair_re next).run (a ++ ('.' :: '.' :: (b ++ t))) caps k = some r := by
  unfold pair_re
  rw [regex.run]
  apply run_num a _ caps _ r ha
  · intro c hc
    simp only [List.head?_cons, Option.mem_def, Option.some.injEq] at hc
    rw [← hc]
    decide
  · have hdot : (!('.' == '\n' || '.' == '\r')) = true := by decide
    simp only [regex.run, regex.any, hdot, if_true]
    exact run_num b t (caps ++ [a]) (fun rest caps1 => next.run rest caps1 k) r hb ht hnext

theorem head_comma_not_digit (t : List Char) : ∀ x ∈ (',' :: t).head?, x.isDigit = false := by
  intro x hx
  simp only [List.head?_cons, Option.mem_def, Option.some.injEq] at hx
  rw [← hx]
  decide

theorem run_z (e f : List Char) (caps : List (List Char))
    (he : is_numeral e = true) (hf : is_numeral f = true) :
    (pair_re regex.eps).run (e ++ ('.' :: '.' :: (f ++ []))) caps at_end =
      some (caps ++ [e] ++ [f]) := by
  apply run_pair regex.eps e f [] caps _ _ he hf
  · intro x hx
    simp at hx
  · simp [regex.run, at_end]

theorem run_yz (c d tz : List Char) (caps r : List (List Char))
    (hc : is_numeral c = true) (hd : is_numeral d = true)
    (hz : (pair_re regex.eps).run tz (caps ++ [c] ++ [d]) at_end = some r) :
    (pair_re (regex.seq (regex.lit [',', 'z', '=']) (pair_re regex.eps))).run
      (c ++ ('.' :: '.' :: (d ++ (',' :: 'z' :: '=' :: tz)))) caps at_end = some r := by
  apply run_pair _ c d _ caps _ _ hc hd (head_comma_not_digit _)
  rw [regex.run]
  exact (run_lit_append [',', 'z', '='] tz _ _).trans hz

theorem run_xyz (a b ty : List Char) (caps r : List (List Char))
    (ha : is_numeral a = true) (hb : is_numeral b = true)
    (hy : (pair_re (regex.seq (regex.lit [',', 'z', '=']) (pair_re regex.eps))).run ty
      (caps ++ [a] ++ [b]) at_end = some r) :
    (pair_re (regex.seq (regex.lit [',', 'y', '='])
        (pair_re (regex.seq (regex.lit [',', 'z', '=']) (pair_re regex.eps))))).run
      (a ++ ('.' :: '.' :: (b ++ (',' :: 'y' :: '=' :: ty)))) caps at_end = some r := by
  apply run_pair _ a b _ caps _ _ ha hb (head_comma_not_digit _)
  rw [regex.run]
  exact (run_lit_append [',', 'y', '='] ty _ _).trans hy

theorem run_coordinates (a b c d e f : List Char) (caps : List (List Char))
    (ha : is_numeral a = true) (hb : is_numeral b = true) (hc : is_numeral c = true)
    (hd : is_numeral d = true) (he : is_numeral e = true) (hf : is_numeral f = true) :
    (pair_re (regex.seq (regex.lit [',', 'y', '='])
        (pair_re (regex.seq (regex.lit [',', 'z', '=']) (pair_re regex.eps))))).run
      (a ++ ('.' :: '.' :: (b ++ (',' :: 'y' :: '=' :: (c ++ ('.' :: '.' :: (d ++ (',' :: 'z' :: '=' :: (e ++ ('.' :: '.' :: (f ++ [])))))))))))
      caps at_end = some (caps ++ [a] ++ [b] ++ [c] ++ [d] ++ [e] ++ [f]) :=
  run_xyz a b _ caps _ ha hb (run_yz c d _ _ _ hc hd (run_z e f _ he hf))

theorem run_keyword (kw_on : Bool) (t : List Char)
    (k : List Char → List (List Char) → Option (List (List Char))) (r : List (List Char))
    (hk : k t [if kw_on then ['o', 'n'] else ['o', 'f', 'f']] = some r) :
    (regex.group (regex.alt (regex.lit ['o', 'n']) (regex.lit ['o', 'f', 'f']))).run
      ((if kw_on then ['o', 'n'] else ['o', 'f', 'f']) ++ t) [] k = some r := by
  cases kw_on with
  | true =>
    simp only [if_true] at hk ⊢
    rw [regex.run, regex.run, run_lit_append]
    have htake := take_length_sub ['o', 'n'] t
    simp only [List.nil_append]
    rw [htake, hk]
    rfl
  | false =>
    simp only [Bool.false_eq_true, if_false] at hk ⊢
    have hfirst : ∀ k1 : List Char → List (List Char) → Option (List (List Char)),
        (regex.lit ['o', 'n']).run (['o', 'f', 'f'] ++ t) [] k1 = none := by
      intro k1
      simp [regex.lit, regex.run, regex.chr]
    rw [regex.run, regex.run, hfirst, run_lit_append]
    have htake := take_length_sub ['o', 'f', 'f'] t
    simp only [List.nil_append]
    rw [htake, hk]
    rfl

theorem regex_match_grammar_line (kw_on : Bool) (a b c d e f : List Char)
    (ha : is_numeral a = true) (hb : is_numeral b = true) (hc : is_numeral c = true)
    (hd : is_numeral d = true) (he : is_numeral e = true) (hf : is_numeral f = true) :
    regex_match step_re (grammar_line kw_on a b c d e f) =
      some [if kw_on then "on".toList else "off".toList, a, b, c, d, e, f] := by
  have hco := run_coordinates a b c d e f [if kw_on then ['o', 'n'] else ['o', 'f', 'f']]
    ha hb hc hd he hf
  have hline : grammar_line kw_on a b c d e f =
      (if kw_on then ['o', 'n'] else ['o', 'f', 'f']) ++ ([' ', 'x', '='] ++
        (a ++ ('.' :: '.' :: (b ++ (',' :: 'y' :: '=' :: (c ++ ('.' :: '.' :: (d ++ (',' :: 'z' :: '=' :: (e ++ ('.' :: '.' :: (f ++ [])))))))))))) := by
    simp [grammar_line]
  rw [hline]
  unfold regex_match step_re
  rw [regex.run]
  apply run_keyword
  rw [regex.run]
  exact (run_lit_append [' ', 'x', '='] _ _ _).trans hco

/-! ## Claims on `parse_step` -/

theorem parse_int_of_in_int32 (s : List Char) (h : in_int32 (numeral_value s)) :
    parse_int s = Except.ok (numeral_value s) := by
  unfold parse_int
  rw [if_pos h]

theorem parse_step_grammar_line (kw_on : Bool) (a b c d e f : List Char)
    (ha : is_numeral a = true) (hb : is_numeral b = true) (hc : is_numeral c = true)
    (hd : is_numeral d = true) (he : is_numeral e = true) (hf : is_numeral f = true)
    (ra : in_int32 (numeral_value a)) (rb : in_int32 (numeral_value b))
    (rc : in_int32 (numeral_value c)) (rd : in_int32 (numeral_value d))
    (re : in_int32 (numeral_value e)) (rf : in_int32 (numeral_value f)) :
    parse_step (grammar_line kw_on a b c d e f) =
      Except.ok
        ⟨⟨min (numeral_value a) (numeral_value b), min (numeral_value c) (numeral_value d),
          min (numeral_value e) (numeral_value f)⟩,
         ⟨max (numeral_value a) (numeral_value b), max (numeral_value c) (numeral_value d),
          max (numeral_value e) (numeral_value f)⟩,
         if kw_on then toggle.on else toggle.off⟩ := by
  unfold parse_step
  rw [regex_match_grammar_line kw_on a b c d e f ha hb hc hd he hf]
  simp only [parse_int_of_in_int32 _ ra, parse_int_of_in_int32 _ rb,
    parse_int_of_in_int32 _ rc, parse_int_of_in_int32 _ rd, parse_int_of_in_int32 _ re,
    parse_int_of_in_int32 _ rf]
  cases kw_on <;> rfl

theorem grammar_line_starts_with_on (kw_on : Bool) (a b c d e f : List Char) :
    "on".toList <+: grammar_line kw_on a b c d e f ↔ kw_on = true := by
  cases kw_on with
  | true =>
    simp only [grammar_line, if_true, List.append_assoc, iff_true]
    exact List.prefix_append _ _
  | false =>
    simp only [grammar_line, Bool.false_eq_true, if_false, List.append_assoc, iff_false]
    intro h
    obtain ⟨t, ht⟩ := h
    simp at ht

/-- C15: for every line of the grammar `<on|off> x=<a>..<b>,y=<c>..<d>,z=<e>..<f>` whose six
numerals fit in 32 bits, `parse_step` returns the box whose `min` on each axis is the smaller
and whose `max` is the larger of the two values of that axis, in whichever order they are
written, so `min ≤ max` holds; the toggle is on exactly when the line starts with `on`. -/
theorem parse_step_sorts_bounds (kw_on : Bool) (a b c d e f : List Char)
    (ha : is_numeral a = true) (hb : is_numeral b = true) (hc : is_numeral c = true)
    (hd : is_numeral d = true) (he : is_numeral e = true) (hf : is_numeral f = true)
    (ra : in_int32 (numeral_value a)) (rb : in_int32 (numeral_value b))
    (rc : in_int32 (numeral_value c)) (rd : in_int32 (numeral_value d))
    (re : in_int32 (numeral_value e)) (rf : in_int32 (numeral_value f)) :
    ∃ r : box, parse_step (grammar_line kw_on a b c d e f) = Except.ok r ∧
      r.m_min = ⟨min (numeral_value a) (numeral_value b),
        min (numeral_value c) (numeral_value d), min (numeral_value e) (numeral_value f)⟩ ∧
      r.m_max = ⟨max (numeral_value a) (numeral_value b),
        max (numeral_value c) (numeral_value d), max (numeral_value e) (numeral_value f)⟩ ∧
      r.valid ∧
      (r.m_state = toggle.on ↔ "on".toList <+: grammar_line kw_on a b c d e f) := by
  refine ⟨_, parse_step_grammar_line kw_on a b c d e f ha hb hc hd he hf ra rb rc rd re rf,
    rfl, rfl, ?_, ?_⟩
  · simp only [box.valid, min_le_iff, le_max_iff]
    omega
  · rw [grammar_line_starts_with_on]
    cases kw_on <;> simp

/-- Witness of C15: the line `off x=11..9,y=-3..4,z=5..5`, its x values in descending
order. -/
theorem parse_step_sorts_bounds_witness :
    is_numeral "11".toList = true ∧ in_int32 (numeral_value "-3".toList) ∧
    ∃ r : box,
      parse_step (grammar_line false "11".toList "9".toList "-3".toList "4".toList
        "5".toList "5".toList) = Except.ok r ∧
      r.m_min = ⟨min (numeral_value "11".toList) (numeral_value "9".toList),
        min (numeral_value "-3".toList) (numeral_value "4".toList),
        min (numeral_value "5".toList) (numeral_value "5".toList)⟩ ∧
      r.m_max = ⟨max (numeral_value "11".toList) (numeral_value "9".toList),
        max (numeral_value "-3".toList) (numeral_value "4".toList),
        max (numeral_value "5".toList) (numeral_value "5".toList)⟩ ∧
      r.valid ∧
      (r.m_state = toggle.on ↔
        "on".toList <+: grammar_line false "11".toList "9".toList "-3".toList "4".toList
          "5".toList "5".toList) :=
  ⟨by decide, by decide,
    parse_step_sorts_bounds false "11".toList "9".toList "-3".toList "4".toList "5".toList
      "5".toList (by decide) (by decide) (by decide) (by decide) (by decide) (by decide)
      (by decide) (by decide) (by decide) (by decide) (by decide) (by decide)⟩

/-- C14 fails on the code: the line `on x=1ab2,y=3..4,z=5..6` is not of the grammar (letters
stand where the two dots belong), yet the pattern, whose dots are unescaped, matches it and
`parse_step` returns a box instead of failing. -/
theorem parse_step_accepts_stray_line :
    parse_step stray_line.toList = Except.ok ⟨⟨1, 3, 5⟩, ⟨2, 4, 6⟩, toggle.on⟩ ∧
    ¬ is_grammar_line stray_line.toList := by
  refine ⟨by decide, ?_⟩
  rintro ⟨kw_on, a, b, c, d, e, f, ha, hb, hc, hd, he, hf, hline⟩
  have hm := regex_match_grammar_line kw_on a b c d e f ha hb hc hd he hf
  rw [← hline] at hm
  have hstray : regex_match step_re stray_line.toList =
      some ["on".toList, "1".toList, "2".toList, "3".toList, "4".toList, "5".toList,
        "6".toList] := by
    decide
  rw [hstray] at hm
  simp only [Option.some.injEq, List.cons.injEq, and_true] at hm
  obtain ⟨hkw, rfl, rfl, rfl, rfl, rfl, rfl⟩ := hm
  cases kw_on with
  | true => exact absurd hline (by decide)
  | false => exact absurd hline (by decide)

/-- C16, as amended: for every line of the grammar whose numerals fit in 32 bits and on whose
box no step of `size()` overflows, `size()` of the operation returned by `parse_step` is the
product of its three extents, which is positive, when the line says `on`, and minus that
product when the line says `off`. -/
theorem parse_step_size_sign (kw_on : Bool) (a b c d e f : List Char)
    (ha : is_numeral a = true) (hb : is_numeral b = true) (hc : is_numeral c = true)
    (hd : is_numeral d = true) (he : is_numeral e = true) (hf : is_numeral f = true)
    (ra : in_int32 (numeral_value a)) (rb : in_int32 (numeral_value b))
    (rc : in_int32 (numeral_value c)) (rd : in_int32 (numeral_value d))
    (re : in_int32 (numeral_value e)) (rf : in_int32 (numeral_value f)) :
    ∃ r : box, parse_step (grammar_line kw_on a b c d e f) = Except.ok r ∧
      (r.no_overflow →
        0 < (r.m_max.x - r.m_min.x + 1) * (r.m_max.y - r.m_min.y + 1) *
          (r.m_max.z - r.m_min.z + 1) ∧
        (kw_on = true → r.size =
          (r.m_max.x - r.m_min.x + 1) * (r.m_max.y - r.m_min.y + 1) *
            (r.m_max.z - r.m_min.z + 1)) ∧
        (kw_on = false → r.size =
          -((r.m_max.x - r.m_min.x + 1) * (r.m_max.y - r.m_min.y + 1) *
            (r.m_max.z - r.m_min.z + 1)))) := by
  refine ⟨_, parse_step_grammar_line kw_on a b c d e f ha hb hc hd he hf ra rb rc rd re rf, ?_⟩
  intro hno
  rw [size_eq_volume_of_no_overflow _ hno]
  refine ⟨?_, ?_, ?_⟩
  · apply mul_pos (mul_pos _ _)
    all_goals
      simp only [min_def, max_def]
      split_ifs <;> omega
  · intro hk
    subst hk
    simp [box.volume, box.sign]
  · intro hk
    subst hk
    simp [box.volume, box.sign]

/-- Witness of C16 on the line `off x=9..11,y=9..11,z=9..11`. -/
theorem parse_step_size_sign_witness :
    is_numeral "9".toList = true ∧ is_numeral "11".toList = true ∧
    in_int32 (numeral_value "9".toList) ∧ in_int32 (numeral_value "11".toList) ∧
    ∃ r : box,
      parse_step (grammar_line false "9".toList "11".toList "9".toList "11".toList
        "9".toList "11".toList) = Except.ok r ∧
      (r.no_overflow →
        0 < (r.m_max.x - r.m_min.x + 1) * (r.m_max.y - r.m_min.y + 1) *
          (r.m_max.z - r.m_min.z + 1) ∧
        (false = true → r.size =
          (r.m_max.x - r.m_min.x + 1) * (r.m_max.y - r.m_min.y + 1) *
            (r.m_max.z - r.m_min.z + 1)) ∧
        (false = false → r.size =
          -((r.m_max.x - r.m_min.x + 1) * (r.m_max.y - r.m_min.y + 1) *
            (r.m_max.z - r.m_min.z + 1)))) :=
  ⟨by decide, by decide, by decide, by decide,
    parse_step_size_sign false "9".toList "11".toList "9".toList "11".toList "9".toList
      "11".toList (by decide) (by decide) (by decide) (by decide) (by decide) (by decide)
      (by decide) (by decide) (by decide) (by decide) (by decide) (by decide)⟩

/-- C16 as stated fails: the well-formed line `off x=9..11,y=9..11,z=9..11` parses to a box
whose `size()` is -27, and the well-formed line with x from -2147483648 to 2147483647 parses
to a box whose `size()` is 0; neither is the positive product of the extents. -/
theorem parse_step_size_not_positive :
    off_line.toList = grammar_line false "9".toList "11".toList "9".toList "11".toList
      "9".toList "11".toList ∧
    parse_step off_line.toList = Except.ok ⟨⟨9, 9, 9⟩, ⟨11, 11, 11⟩, toggle.off⟩ ∧
    (⟨⟨9, 9, 9⟩, ⟨11, 11, 11⟩, toggle.off⟩ : box).size = -27 ∧
    (⟨⟨9, 9, 9⟩, ⟨11, 11, 11⟩, toggle.off⟩ : box).size ≠
      (11 - 9 + 1) * (11 - 9 + 1) * (11 - 9 + 1) ∧
    wide_line.toList = grammar_line true "-2147483648".toList "2147483647".toList
      "0".toList "0".toList "0".toList "0".toList ∧
    parse_step wide_line.toList = Except.ok wide_box ∧
    wide_box.size = 0 := by
  decide

/-- C17: the four lines of the worked example parse to the four operations, and in bounded
mode the step logger sees, after steps 1, 2, 3 and 4 (counter values 0 to 3), ledgers whose
`count_cells` is 27, 46, 38 and 39; these are the ledgers of the first 1, 2, 3 and 4
operations. -/
theorem example_running_totals :
    example_lines.map (fun l => parse_step l.toList) = example_steps.map Except.ok ∧
    (follow_steps_log example_steps false).map (fun p => (count_cells p.1, p.2)) =
      [(27, 0), (46, 1), (38, 2), (39, 3)] ∧
    [1, 2, 3, 4].map (fun k => count_cells (follow_steps (example_steps.take k) false)) =
      [27, 46, 38, 39] ∧
    (follow_steps_log example_steps false).map (fun p => p.1) =
      [1, 2, 3, 4].map (fun k => follow_steps (example_steps.take k) false) := by
  refine ⟨by decide, by decide!, by decide!, by decide!⟩

/-! ## The totals on shifted coordinates -/

theorem force_nat_eq {α : Type} (n : Nat) (k : Nat → α) : force_nat n k = k n := by
  cases n <;> rfl

theorem ntotal_split (k : Nat) (l : List (Bool × nbox)) :
    ntotal l = ntotal_upto k l + ntotal (l.drop k) := by
  induction k generalizing l with
  | zero => simp [ntotal_upto]
  | succ k ih =>
    cases l with
    | nil => simp [ntotal_upto, ntotal]
    | cons p rest =>
      simp only [ntotal, ntotal_upto, List.drop_succ_cons]
      rw [ih rest, add_assoc]

theorem shift_lt (a b : Int) (ha : -131072 ≤ a) (hb : -131072 ≤ b) :
    Nat.blt (shift a) (shift b) = decide (a < b) := by
  rw [Bool.eq_iff_iff]
  simp only [Nat.blt_eq, decide_eq_true_eq, shift]
  omega

theorem shift_max (a b : Int) (ha : -131072 ≤ a) (hb : -131072 ≤ b) :
    Nat.max (shift a) (shift b) = shift (max a b) := by
  simp only [shift, Nat.max_def, max_def]
  split_ifs <;> omega

theorem shift_min (a b : Int) (ha : -131072 ≤ a) (hb : -131072 ≤ b) :
    Nat.min (shift a) (shift b) = shift (min a b) := by
  simp only [shift, Nat.min_def, min_def]
  split_ifs <;> omega

theorem apart_to_nbox (b s : box) (hb : b.coords_within 131072) (hs : s.coords_within 131072) :
    (to_nbox b).apart (to_nbox s) = b.non_intercepting s := by
  obtain ⟨b1, b2, b3, b4, b5, b6⟩ := hb
  obtain ⟨s1, s2, s3, s4, s5, s6⟩ := hs
  simp only [nbox.apart, to_nbox, box.non_intercepting, gt_iff_lt]
  rw [shift_lt _ _ s4.1 b1.1, shift_lt _ _ b4.1 s1.1, shift_lt _ _ s5.1 b2.1,
    shift_lt _ _ b5.1 s2.1, shift_lt _ _ s6.1 b3.1, shift_lt _ _ b6.1 s3.1]

theorem volume_to_nbox (b : box) (hv : b.valid) (hb : b.coords_within 131072) :
    b.volume = b.sign * ((to_nbox b).volume : Int) := by
  obtain ⟨b1, b2, b3, b4, b5, b6⟩ := hb
  obtain ⟨vx, vy, vz⟩ := hv
  have hx : ((shift b.m_max.x - shift b.m_min.x + 1 : Nat) : Int) =
      b.m_max.x - b.m_min.x + 1 := by
    simp only [shift]
    omega
  have hy : ((shift b.m_max.y - shift b.m_min.y + 1 : Nat) : Int) =
      b.m_max.y - b.m_min.y + 1 := by
    simp only [shift]
    omega
  have hz : ((shift b.m_max.z - shift b.m_min.z + 1 : Nat) : Int) =
      b.m_max.z - b.m_min.z + 1 := by
    simp only [shift]
    omega
  simp only [box.volume, nbox.volume, to_nbox, Nat.cast_mul, hx, hy, hz]
  ring

theorem nchain_cons_none (b s : box) (rest : List nbox) (hb : b.coords_within 131072)
    (hs : s.coords_within 131072) (h : b.overlap s = none) :
    nchain (to_nbox b) (to_nbox s :: rest) = nchain (to_nbox b) rest := by
  rw [nchain, apart_to_nbox b s hb hs, (overlap_eq_none_iff b s).mp h]
  rfl

theorem nchain_cons_some (b s o : box) (rest : List nbox) (hb : b.coords_within 131072)
    (hs : s.coords_within 131072) (h : b.overlap s = some o) :
    nchain (to_nbox b) (to_nbox s :: rest) =
      ((nchain (to_nbox b) rest).1 + (nchain (to_nbox o) rest).2,
       (nchain (to_nbox b) rest).2 + (nchain (to_nbox o) rest).1) := by
  obtain ⟨hn, rfl⟩ := overlap_eq_some b s o h
  obtain ⟨b1, b2, b3, b4, b5, b6⟩ := hb
  obtain ⟨s1, s2, s3, s4, s5, s6⟩ := hs
  have hbox : (⟨Nat.max (to_nbox b).x0 (to_nbox s).x0, Nat.max (to_nbox b).y0 (to_nbox s).y0,
      Nat.max (to_nbox b).z0 (to_nbox s).z0, Nat.min (to_nbox b).x1 (to_nbox s).x1,
      Nat.min (to_nbox b).y1 (to_nbox s).y1, Nat.min (to_nbox b).z1 (to_nbox s).z1⟩ : nbox) =
      to_nbox ⟨⟨max b.m_min.x s.m_min.x, max b.m_min.y s.m_min.y, max b.m_min.z s.m_min.z⟩,
        ⟨min b.m_max.x s.m_max.x, min b.m_max.y s.m_max.y, min b.m_max.z s.m_max.z⟩,
        b.m_state.flip⟩ := by
    simp only [to_nbox]
    rw [shift_max _ _ b1.1 s1.1, shift_max _ _ b2.1 s2.1, shift_max _ _ b3.1 s3.1,
      shift_min _ _ b4.1 s4.1, shift_min _ _ b5.1 s5.1, shift_min _ _ b6.1 s6.1]
  rw [nchain, apart_to_nbox b s ⟨b1, b2, b3, b4, b5, b6⟩ ⟨s1, s2, s3, s4, s5, s6⟩, hn]
  simp only [force_nat_eq, Bool.false_eq_true, if_false]
  rw [hbox]

theorem chain_volume_eq_nchain (b : box) (rest : List box) (hv : b.valid)
    (hw : b.coords_within 131072) (hrest : ∀ s ∈ rest, s.valid ∧ s.coords_within 131072) :
    chain_volume b rest =
      b.sign * (((nchain (to_nbox b) (rest.map to_nbox)).1 : Int) -
        ((nchain (to_nbox b) (rest.map to_nbox)).2 : Int)) := by
  induction rest generalizing b with
  | nil =>
    simp only [chain_volume, List.map_nil, nchain, Nat.cast_zero, sub_zero]
    exact volume_to_nbox b hv hw
  | cons s rest ih =>
    have hs := hrest s (by simp)
    have hrest2 : ∀ t ∈ rest, t.valid ∧ t.coords_within 131072 :=
      fun t ht => hrest t (by simp [ht])
    have ihb := ih b hv hw hrest2
    cases h : b.overlap s with
    | none =>
      have hcv : chain_volume b (s :: rest) = chain_volume b rest := by
        simp [chain_volume, h]
      rw [hcv, List.map_cons, nchain_cons_none b s _ hw hs.2 h]
      exact ihb
    | some o =>
      have hcv : chain_volume b (s :: rest) = chain_volume o rest + chain_volume b rest := by
        simp [chain_volume, h]
      have iho := ih o (overlap_valid b s o hv hs.1 h) (overlap_within b s o _ hw hs.2 h) hrest2
      have hsg : o.sign = -b.sign := sign_flip b o (by rw [(overlap_eq_some b s o h).2])
      rw [hcv, List.map_cons, nchain_cons_some b s o _ hw hs.2 h, iho, ihb, hsg]
      push_cast
      ring

theorem ledger_total_eq_ntotal (ops : List box)
    (h : ∀ s ∈ ops, s.valid ∧ s.coords_within 131072) :
    ledger_total ops = ((ntotal (to_nops ops)).1 : Int) - ((ntotal (to_nops ops)).2 : Int) := by
  induction ops with
  | nil => simp [ledger_total, to_nops, ntotal]
  | cons s rest ih =>
    have hs := h s (by simp)
    have hrest : ∀ t ∈ rest, t.valid ∧ t.coords_within 131072 := fun t ht => h t (by simp [ht])
    have hmap : (to_nops rest).map Prod.snd = rest.map to_nbox := by
      simp [to_nops, List.map_map, Function.comp_def]
    have hcons : to_nops (s :: rest) = (s.is_add, to_nbox s) :: to_nops rest := rfl
    rw [hcons, ledger_total, ntotal, ih hrest, Prod.fst_add, Prod.snd_add]
    by_cases ha : s.is_add = true
    · have hsign : s.sign = 1 := by
        simp only [box.is_add, decide_eq_true_eq] at ha
        simp [box.sign, ha]
      simp only [ha, if_true, nseed, hmap]
      rw [chain_volume_eq_nchain s rest hs.1 hs.2 hrest, hsign]
      push_cast
      ring
    · simp only [ha, Bool.false_eq_true, if_false, nseed]
      push_cast
      ring

/-! ## The examples of the puzzle statement -/

set_option maxRecDepth 1000000 in
theorem larger_example_chunk_1 :
    ntotal_upto 1 (to_nops (larger_example.filter step_covers_part1_region)) =
      (12419805, 12417428) := by
  decide!

set_option maxRecDepth 1000000 in
theorem larger_example_chunk_2 :
    ntotal_upto 1 ((to_nops (larger_example.filter step_covers_part1_region)).drop 1) =
      (8188252, 8187713) := by
  decide!

set_option maxRecDepth 1000000 in
theorem larger_example_chunk_3 :
    ntotal (((to_nops (larger_example.filter step_covers_part1_region)).drop 1).drop 1) =
      (10281782, 9693914) := by
  decide!

set_option maxRecDepth 100000 in
theorem ledger_total_larger_example :
    ledger_total (larger_example.filter step_covers_part1_region) = 590784 := by
  rw [ledger_total_eq_ntotal _ (by decide!),
    ntotal_split 1 (to_nops (larger_example.filter step_covers_part1_region)),
    ntotal_split 1 ((to_nops (larger_example.filter step_covers_part1_region)).drop 1),
    larger_example_chunk_1, larger_example_chunk_2, larger_example_chunk_3]
  decide

set_option maxRecDepth 1000000 in
theorem part2_example_chunk_1 :
    ntotal_upto 11 (to_nops part2_example) = (4879321096968974, 4875921482055484) := by
  decide!

set_option maxRecDepth 1000000 in
theorem part2_example_chunk_2 :
    ntotal_upto 1 ((to_nops part2_example).drop 11) =
      (5125777757851218, 5124608276790966) := by
  decide!

set_option maxRecDepth 1000000 in
theorem part2_example_chunk_3 :
    ntotal_upto 1 (((to_nops part2_example).drop 11).drop 1) =
      (3875910216201454, 3865447626913414) := by
  decide!

set_option maxRecDepth 1000000 in
theorem part2_example_chunk_4 :
    ntotal_upto 7 ((((to_nops part2_example).drop 11).drop 1).drop 1) =
      (8431756086071081, 8053285276968493) := by
  decide!

set_option maxRecDepth 1000000 in
theorem part2_example_chunk_5 :
    ntotal (((((to_nops part2_example).drop 11).drop 1).drop 1).drop 7) =
      (19382290035241748, 17017277593323883) := by
  decide!

set_option maxRecDepth 100000 in
theorem ledger_total_part2_example : ledger_total part2_example = 2758514936282235 := by
  rw [ledger_total_eq_ntotal _ (by decide!),
    ntotal_split 11 (to_nops part2_example),
    ntotal_split 1 ((to_nops part2_example).drop 11),
    ntotal_split 1 (((to_nops part2_example).drop 11).drop 1),
    ntotal_split 7 ((((to_nops part2_example).drop 11).drop 1).drop 1),
    part2_example_chunk_1, part2_example_chunk_2, part2_example_chunk_3,
    part2_example_chunk_4, part2_example_chunk_5]
  decide

set_option maxRecDepth 100000 in
/-- C18: for the 22-step larger example of the part-1 comment, `count_cells` of
`follow_steps` in bounded mode (the value `part_1` formats) is 590784; the first twenty steps
pass `step_covers_part1_region`, the last two do not and are skipped. -/
theorem larger_example_bounded_total :
    count_cells (follow_steps larger_example false) = 590784 ∧
    part_1 larger_example = 590784 ∧
    larger_example.map step_covers_part1_region = List.replicate 20 true ++ [false, false] ∧
    follow_steps larger_example false = follow_steps (larger_example.take 20) true := by
  have hfilter : larger_example.filter step_covers_part1_region = larger_example.take 20 := by
    decide!
  have hcount : count_cells (follow_steps larger_example false) = 590784 := by
    rw [follow_steps_false_eq_filter,
      count_cells_unbounded_mode _ (by decide!) (by decide!), ledger_total_larger_example]
    decide
  refine ⟨hcount, hcount, by decide!, ?_⟩
  rw [follow_steps_false_eq_filter, hfilter]

set_option maxRecDepth 100000 in
/-- C19: for the 60-step example of the part-2 comment, `count_cells` of `follow_steps` in
unbounded mode, computed in 64-bit signed arithmetic (the value `part_2` formats), is
2758514936282235. -/
theorem part2_example_total :
    count_cells (follow_steps part2_example true) = 2758514936282235 ∧
    part_2 part2_example = 2758514936282235 := by
  have hcount : count_cells (follow_steps part2_example true) = 2758514936282235 := by
    rw [count_cells_unbounded_mode _ (by decide!) (by decide!), ledger_total_part2_example]
    decide
  exact ⟨hcount, hcount⟩

/-! ## Independence of the run from everything but its arguments -/

theorem foldl_with_logger_fst {σ : Type} (step_logger : List box → Int → σ → σ)
    (input : List box) (all_space : Bool) (acc : List box × Int × σ) :
    (input.foldl
      (fun (acc : List box × Int × σ) s =>
        if all_space || step_covers_part1_region s then
          (process_step acc.1 s, acc.2.1 + 1,
            step_logger (process_step acc.1 s) acc.2.1 acc.2.2)
        else acc)
      acc).1 = input.foldl (follow_step all_space) acc.1 := by
  induction input generalizing acc with
  | nil => rfl
  | cons s rest ih =>
    rw [List.foldl_cons, List.foldl_cons, ih]
    unfold follow_step
    split <;> rfl

/-- C21: two runs of `follow_steps` on the same operation list in the same mode, each from
a fresh ledger, return the same ledger and the same `count_cells` total, whatever step
loggers they are given and whatever the state outside the function is at the start of each
run: the returned ledger is the one determined by the list and the mode alone. -/
theorem follow_steps_depends_on_arguments_only {σ τ : Type}
    (logger1 : List box → Int → σ → σ) (logger2 : List box → Int → τ → τ)
    (w1 : σ) (w2 : τ) (ops : List box) (all_space : Bool) :
    (follow_steps_with logger1 ops all_space w1).1 =
      (follow_steps_with logger2 ops all_space w2).1 ∧
    (follow_steps_with logger1 ops all_space w1).1 = follow_steps ops all_space ∧
    count_cells (follow_steps_with logger1 ops all_space w1).1 =
      count_cells (follow_steps_with logger2 ops all_space w2).1 := by
  have h1 : (follow_steps_with logger1 ops all_space w1).1 = follow_steps ops all_space :=
    foldl_with_logger_fst logger1 ops all_space ([], 0, w1)
  have h2 : (follow_steps_with logger2 ops all_space w2).1 = follow_steps ops all_space :=
    foldl_with_logger_fst logger2 ops all_space ([], 0, w2)
  refine ⟨by rw [h1, h2], h1, by rw [h1, h2]⟩

end Day22

/-! # Scratchcards (2023 day 4): properties -/

namespace Day04

open Day22 (int_model machine unbounded wrap32 wrap64)

/-! ## Points of a card -/

theorem foldl_matches (ws l : List Int) (acc : Int) (h0 : 0 ≤ acc)
    (h : acc + (l.countP (fun v => ws.any (fun w => w == v)) : Int) < 2 ^ 31) :
    l.foldl
      (fun winning v => if ws.any (fun w => w == v) then machine.i32 (winning + 1) else winning)
      acc = acc + (l.countP (fun v => ws.any (fun w => w == v)) : Int) := by
  induction l generalizing acc with
  | nil => simp
  | cons v rest ih =>
    rw [List.foldl_cons]
    by_cases hv : ws.any (fun w => w == v) = true
    · have hc : (v :: rest).countP (fun v => ws.any (fun w => w == v)) =
          rest.countP (fun v => ws.any (fun w => w == v)) + 1 := by
        simp [List.countP_cons, hv]
      rw [hc] at h ⊢
      push_cast at h ⊢
      have hw : machine.i32 (acc + 1) = acc + 1 := by
        show wrap32 (acc + 1) = acc + 1
        unfold wrap32
        omega
      rw [if_pos hv, hw, ih (acc + 1) (by omega) (by omega)]
      ring
    · have hc : (v :: rest).countP (fun v => ws.any (fun w => w == v)) =
          rest.countP (fun v => ws.any (fun w => w == v)) := by
        simp [List.countP_cons, hv]
      rw [hc] at h ⊢
      rw [if_neg hv, ih acc h0 h]

theorem get_num_winning_eq_count (c : card)
    (h : c.drawn.countP (fun v => c.winning.any (fun w => w == v)) < 2 ^ 31) :
    get_num_winning c = (c.drawn.countP (fun v => c.winning.any (fun w => w == v)) : Int) := by
  unfold get_num_winning get_num_winning_in
  rw [foldl_matches c.winning c.drawn 0 (le_refl 0) (by push_cast; omega)]
  simp

/-- C22: with `m` the number of entries of the drawn list that occur in the winning list,
`get_num_winning` returns `m` and, for `m ≤ 32`, `score` returns 0 when `m = 0` and
`2 ^ (m - 1)` otherwise; for the six example cards the scores are 8, 2, 2, 1, 0, 0 and
`part_1` adds them up to 13. -/
theorem score_doubles_per_match :
    (∀ c : card, c.drawn.countP (fun v => c.winning.any (fun w => w == v)) ≤ 32 →
      get_num_winning c = (c.drawn.countP (fun v => c.winning.any (fun w => w == v)) : Int) ∧
      score c = some
        (if c.drawn.countP (fun v => c.winning.any (fun w => w == v)) = 0 then 0
         else 2 ^ (c.drawn.countP (fun v => c.winning.any (fun w => w == v)) - 1))) ∧
    example_cards.map score = [some 8, some 2, some 2, some 1, some 0, some 0] ∧
    part_1 example_cards = some 13 := by
  refine ⟨?_, by decide, by decide⟩
  intro c hm
  have hn := get_num_winning_eq_count c (by omega)
  refine ⟨hn, ?_⟩
  generalize c.drawn.countP (fun v => c.winning.any (fun w => w == v)) = m at hm hn
  unfold score
  rw [hn]
  by_cases h0 : m = 0
  · simp [h0]
  · have hne : (m : Int) ≠ 0 := by omega
    have hw : wrap32 ((m : Int) - 1) = ((m - 1 : Nat) : Int) := by
      unfold wrap32
      omega
    rw [if_neg hne, if_neg h0, hw]
    unfold shl_one
    rw [if_pos (by omega), Int.toNat_ofNat]
    have hlt : 2 ^ (m - 1) < 2 ^ 32 := Nat.pow_lt_pow_right (by decide) (by omega)
    rw [Nat.mod_eq_of_lt hlt]

/-- Witness of C22 on the first example card, which has four matches. -/
theorem score_doubles_per_match_witness :
    ([83, 86, 6, 31, 17, 9, 48, 53] : List Int).countP
        (fun v => ([41, 48, 83, 86, 17] : List Int).any (fun w => w == v)) ≤ 32 ∧
    score ⟨1, [41, 48, 83, 86, 17], [83, 86, 6, 31, 17, 9, 48, 53]⟩ = some 8 :=
  ⟨by decide,
    ((score_doubles_per_match).1 ⟨1, [41, 48, 83, 86, 17], [83, 86, 6, 31, 17, 9, 48, 53]⟩
      (by decide)).2⟩

/-! ## The cascade of copies -/

theorem instances_rec (w : Nat → Nat) (i : Nat) :
    instances w i = 1 + ∑ j in Finset.range i, if i ≤ j + w j then instances w j else 0 := by
  rw [instances, Fin.sum_univ_eq_sum_range (fun j => if i ≤ j + w j then instances w j else 0)]

theorem instances_eq_pending (w : Nat → Nat) (i : Nat) : instances w i = pending w i i := by
  rw [instances_rec, pending]
  congr 1
  apply Finset.sum_congr rfl
  intro j hj
  have hji : j < i := Finset.mem_range.mp hj
  simp [hji]

theorem pending_succ (w : Nat → Nat) (i k : Nat) :
    pending w (i + 1) k =
      pending w i k + if i < k ∧ k ≤ i + w i then instances w i else 0 := by
  simp only [pending, Finset.sum_range_succ]
  ring

theorem pending_zero (w : Nat → Nat) (k : Nat) : pending w 0 k = 1 := by
  simp [pending]

theorem inner_loop_aux (m : int_model) (n i : Nat) (len s : Nat) (count : Nat → Int)
    (hi : i < s) (hs : s + len ≤ n) :
    ∃ count1 : Nat → Int,
      (List.range' s len).foldlM (fun c j => add_count m n c i j) count = some count1 ∧
      (m = unbounded → ∀ k, count1 k = count k + if s ≤ k ∧ k < s + len then count i else 0) ∧
      count1 i = count i := by
  induction len generalizing s count with
  | zero =>
    refine ⟨count, rfl, ?_, rfl⟩
    intro _ k
    have : ¬ (s ≤ k ∧ k < s + 0) := by omega
    simp [this]
  | succ len ih =>
    have hstep : add_count m n count i s =
        some (Function.update count s (m.i32 (count s + count i))) := by
      unfold add_count
      rw [if_pos ⟨by omega, by omega⟩]
    obtain ⟨count1, hrun, hval, hkeep⟩ :=
      ih (s + 1) (Function.update count s (m.i32 (count s + count i))) (by omega) (by omega)
    have hne : i ≠ s := by omega
    refine ⟨count1, ?_, ?_, ?_⟩
    · rw [List.range'_succ, List.foldlM_cons, hstep]
      exact hrun
    · intro hm k
      rw [hval hm k, Function.update_noteq hne]
      subst hm
      by_cases hk : k = s
      · subst hk
        have h1 : ¬ (k + 1 ≤ k ∧ k < k + 1 + len) := by omega
        have h2 : k ≤ k ∧ k < k + (len + 1) := by omega
        simp [h1, h2, unbounded]
      · rw [Function.update_noteq hk]
        by_cases hr : s + 1 ≤ k ∧ k < s + 1 + len
        · have h2 : s ≤ k ∧ k < s + (len + 1) := by omega
          simp [hr, h2]
        · have h2 : ¬ (s ≤ k ∧ k < s + (len + 1)) := by omega
          simp [hr, h2]
    · rw [hkeep, Function.update_noteq hne]

theorem getD_map_cast (w : List Nat) (i : Nat) :
    (w.map Int.ofNat).getD i 0 = Int.ofNat (w.getD i 0) := by
  simp only [List.getD_eq_getElem?_getD, List.getElem?_map]
  cases w[i]? <;> rfl

theorem outer_loop_aux (m : int_model) (w : List Nat)
    (h : ∀ i < w.length, i + w.getD i 0 ≤ w.length - 1) (i : Nat) (hi : i ≤ w.length) :
    ∃ st : (Nat → Int) × Int,
      (List.range i).foldlM (outer_step m (w.map Int.ofNat)) (fun _ => 1, 0) =
        some st ∧
      (m = unbounded →
        st = (fun k => ((pending (fun j => w.getD j 0) i k : Nat) : Int),
          ((∑ k in Finset.range i, instances (fun j => w.getD j 0) k : Nat) : Int))) := by
  induction i with
  | zero =>
    refine ⟨(fun _ => 1, 0), rfl, ?_⟩
    intro _
    simp [pending_zero]
  | succ i ih =>
    obtain ⟨st, hrun, hval⟩ := ih (by omega)
    have hpre := h i (by omega)
    obtain ⟨count1, hinner, hcount, _⟩ :=
      inner_loop_aux m w.length i (w.getD i 0) (i + 1) st.1 (by omega) (by omega)
    have hstep : outer_step m (w.map Int.ofNat) st i =
        some (count1, m.i64 (st.2 + count1 i)) := by
      unfold outer_step inner_loop
      rw [getD_map_cast, List.length_map]
      show Option.map _ (List.foldlM _ st.1 (List.range' (i + 1) (w.getD i 0))) = _
      rw [hinner]
      rfl
    refine ⟨(count1, m.i64 (st.2 + count1 i)), ?_, ?_⟩
    · rw [List.range_succ, List.foldlM_append, hrun]
      simp [hstep]
    · intro hm
      have hst := hval hm
      have hc := hcount hm
      subst hm
      have hfun : count1 =
          fun k => ((pending (fun j => w.getD j 0) (i + 1) k : Nat) : Int) := by
        funext k
        rw [hc k, hst, pending_succ, instances_eq_pending]
        by_cases hk : i + 1 ≤ k ∧ k < i + 1 + w.getD i 0
        · have hk2 : i < k ∧ k ≤ i + w.getD i 0 := by omega
          rw [if_pos hk, if_pos hk2]
          push_cast
          rfl
        · have hk2 : ¬ (i < k ∧ k ≤ i + w.getD i 0) := by omega
          rw [if_neg hk, if_neg hk2]
          push_cast
          rfl
      rw [hfun, hst]
      simp only [unbounded, id, Finset.sum_range_succ, Prod.mk.injEq, true_and]
      rw [pending_succ, instances_eq_pending, if_neg (by omega)]
      push_cast
      rfl

/-- C23: for every table of cards with match counts `w` such that `i + w[i] ≤ n - 1` for
every `i`, the total computed by `part_2` over unbounded integers is the sum over `i` of
`c(i)`, where `c(i) = 1 + Σ c(j)` over the `j < i` with `i ≤ j + w[j]`; for the six example
cards the total is 30. -/
theorem part_2_counts_instances :
    (∀ w : List Nat, (∀ i < w.length, i + w.getD i 0 ≤ w.length - 1) →
      part_2_on_wins unbounded (w.map Int.ofNat) =
        some ((∑ i in Finset.range w.length, instances (fun j => w.getD j 0) i : Nat) : Int)) ∧
    (∀ (w : Nat → Nat) (i : Nat),
      instances w i = 1 + ∑ j in Finset.range i, if i ≤ j + w j then instances w j else 0) ∧
    example_cards.map get_num_winning = [4, 2, 2, 1, 0, 0] ∧
    part_2 example_cards = some 30 := by
  refine ⟨?_, instances_rec, by decide, by decide⟩
  intro w h
  obtain ⟨st, hrun, hval⟩ := outer_loop_aux unbounded w h w.length (le_refl _)
  unfold part_2_on_wins
  rw [List.length_map, hrun, hval rfl]
  rfl

/-- Witness of C23 on the match counts 4, 2, 2, 1, 0, 0 of the example. -/
theorem part_2_counts_instances_witness :
    (∀ i < ([4, 2, 2, 1, 0, 0] : List Nat).length,
      i + ([4, 2, 2, 1, 0, 0] : List Nat).getD i 0 ≤ ([4, 2, 2, 1, 0, 0] : List Nat).length - 1) ∧
    part_2_on_wins unbounded (([4, 2, 2, 1, 0, 0] : List Nat).map Int.ofNat) =
      some ((∑ i in Finset.range ([4, 2, 2, 1, 0, 0] : List Nat).length,
        instances (fun j => ([4, 2, 2, 1, 0, 0] : List Nat).getD j 0) i : Nat) : Int) :=
  ⟨by decide, (part_2_counts_instances).1 [4, 2, 2, 1, 0, 0] (by decide)⟩

/-- C24: when no card copies a card past the end of the table (`i + w[i] ≤ n - 1` for every
index `i`), every access `count[j]` of the inner loop of `part_2` is within the vector, in
every integer model: the run has a result.  Without the precondition an access can fall
outside: a single card with one match makes the run read `count[1]` of a vector of size 1. -/
theorem part_2_accesses_in_range :
    (∀ (m : int_model) (w : List Nat), (∀ i < w.length, i + w.getD i 0 ≤ w.length - 1) →
      (part_2_on_wins m (w.map Int.ofNat)).isSome = true) ∧
    (∀ (m : int_model) (n : Nat) (count : Nat → Int) (i j : Nat),
      (add_count m n count i j).isSome = true ↔ i < n ∧ j < n) ∧
    part_2_on_wins machine [1] = none := by
  refine ⟨?_, ?_, by decide⟩
  · intro m w h
    obtain ⟨st, hrun, _⟩ := outer_loop_aux m w h w.length (le_refl _)
    unfold part_2_on_wins
    rw [List.length_map, hrun]
    rfl
  · intro m n count i j
    unfold add_count
    split <;> simp_all

/-- Witness of C24 on the match counts of the example. -/
theorem part_2_accesses_in_range_witness :
    (∀ i < ([4, 2, 2, 1, 0, 0] : List Nat).length,
      i + ([4, 2, 2, 1, 0, 0] : List Nat).getD i 0 ≤ ([4, 2, 2, 1, 0, 0] : List Nat).length - 1) ∧
    (part_2_on_wins machine (([4, 2, 2, 1, 0, 0] : List Nat).map Int.ofNat)).isSome =
      true :=
  ⟨by decide, (part_2_accesses_in_range).1 machine [4, 2, 2, 1, 0, 0] (by decide)⟩

end Day04

namespace Day17

/-! ## The floor ordering and the binary search -/

theorem before_iff (a b : position) :
    before a b = true ↔ (a.y > b.y ∨ (a.y = b.y ∧ a.x < b.x)) := by
  unfold before
  split_ifs with h1 h2
  · simp [h1]
  · simp [h2]
  · simp only [Bool.false_eq_true, false_iff]
    omega

theorem before_eq_false_iff (a b : position) :
    before a b = false ↔ (a.y < b.y ∨ (a.y = b.y ∧ b.x ≤ a.x)) := by
  rw [← Bool.not_eq_true, before_iff]
  omega

theorem position_eq_iff (a b : position) : a = b ↔ a.x = b.x ∧ a.y = b.y := by
  cases a; cases b; simp

theorem before_irrefl (a : position) : before a a = false := by
  rw [before_eq_false_iff]; omega

theorem before_trans {a b c : position} (h1 : before a b = true) (h2 : before b c = true) :
    before a c = true := by
  rw [before_iff] at *; omega

/-- A floor sorted by the ordering, possibly with repeated cells: no cell is before an
earlier one. -/
theorem sorted_getD {floor : List position}
    (hs : floor.Pairwise (fun a b => before b a = false)) (i j : Nat) (hij : i < j)
    (hj : j < floor.length) :
    before (floor.getD j ⟨0, 0⟩) (floor.getD i ⟨0, 0⟩) = false := by
  have hi : i < floor.length := by omega
  rw [List.getD_eq_getElem _ _ hj, List.getD_eq_getElem _ _ hi]
  exact List.pairwise_iff_getElem.mp hs i j hi hj hij

theorem lower_bound_loop_spec (floor : List position) (p : position)
    (hs : floor.Pairwise (fun a b => before b a = false)) :
    ∀ fuel first len, len ≤ fuel → first + len ≤ floor.length →
      (∀ i, i < first → before (floor.getD i ⟨0, 0⟩) p = true) →
      (∀ i, first + len ≤ i → i < floor.length → before (floor.getD i ⟨0, 0⟩) p = false) →
      lower_bound_loop floor p fuel first len ≤ floor.length ∧
      (∀ i, i < lower_bound_loop floor p fuel first len →
        before (floor.getD i ⟨0, 0⟩) p = true) ∧
      (∀ i, lower_bound_loop floor p fuel first len ≤ i → i < floor.length →
        before (floor.getD i ⟨0, 0⟩) p = false) := by
  intro fuel
  induction fuel with
  | zero =>
    intro first len hlen hle hlo hhi
    have h0 : len = 0 := by omega
    subst h0
    exact ⟨by simpa [lower_bound_loop] using hle, by simpa [lower_bound_loop] using hlo,
      by simpa [lower_bound_loop] using hhi⟩
  | succ fuel ih =>
    intro first len hlen hle hlo hhi
    unfold lower_bound_loop
    by_cases h0 : len = 0
    · subst h0
      simp only [if_true]
      exact ⟨by omega, hlo, by simpa using hhi⟩
    · rw [if_neg h0]
      have hhalf : len / 2 < len := Nat.div_lt_self (by omega) (by decide)
      by_cases hm : before (floor.getD (first + len / 2) ⟨0, 0⟩) p = true
      · rw [if_pos hm]
        apply ih
        · omega
        · omega
        · intro i hi
          by_cases him : i = first + len / 2
          · rw [him]; exact hm
          · have h1 := sorted_getD hs i (first + len / 2) (by omega) (by omega)
            rw [before_eq_false_iff] at h1
            rw [before_iff] at hm ⊢
            omega
        · intro i hi hil
          exact hhi i (by omega) hil
      · rw [if_neg hm]
        have hm2 : before (floor.getD (first + len / 2) ⟨0, 0⟩) p = false := by
          simpa using hm
        apply ih
        · omega
        · omega
        · exact hlo
        · intro i hi hil
          by_cases him : i = first + len / 2
          · rw [him]; exact hm2
          · have h1 := sorted_getD hs (first + len / 2) i (by omega) hil
            rw [before_eq_false_iff] at h1 hm2 ⊢
            omega

theorem lower_bound_spec (floor : List position) (p : position)
    (hs : floor.Pairwise (fun a b => before b a = false)) :
    lower_bound floor p ≤ floor.length ∧
      (∀ i, i < lower_bound floor p → before (floor.getD i ⟨0, 0⟩) p = true) ∧
      (∀ i, lower_bound floor p ≤ i → i < floor.length →
        before (floor.getD i ⟨0, 0⟩) p = false) :=
  lower_bound_loop_spec floor p hs floor.length 0 floor.length (le_refl _) (by omega)
    (fun i hi => absurd hi (Nat.not_lt_zero i)) (fun i hi hil => by omega)

theorem is_in_floor_iff_mem (floor : List position) (p : position)
    (hs : floor.Pairwise (fun a b => before b a = false)) :
    is_in_floor floor p = true ↔ p ∈ floor := by
  obtain ⟨hle, hlo, hhi⟩ := lower_bound_spec floor p hs
  unfold is_in_floor
  simp only [Bool.and_eq_true, decide_eq_true_eq, beq_iff_eq]
  constructor
  · rintro ⟨hne, heq⟩
    have hlt : lower_bound floor p < floor.length := by omega
    rw [List.getD_eq_getElem _ _ hlt] at heq
    rw [← heq]
    exact List.getElem_mem _
  · intro hmem
    obtain ⟨j, hj, hjp⟩ := List.getElem_of_mem hmem
    have hjd : floor.getD j ⟨0, 0⟩ = p := by rw [List.getD_eq_getElem _ _ hj]; exact hjp
    have hrj : lower_bound floor p ≤ j := by
      by_contra hcon
      have h1 := hlo j (by omega)
      rw [hjd, before_irrefl] at h1
      exact Bool.false_ne_true h1
    refine ⟨by omega, ?_⟩
    by_cases hjr : j = lower_bound floor p
    · rw [← hjr]; exact hjd
    · have h1 := sorted_getD hs (lower_bound floor p) j (by omega) hj
      have h2 := hhi (lower_bound floor p) (le_refl _) (by omega)
      rw [hjd] at h1
      rw [before_eq_false_iff] at h1 h2
      rw [position_eq_iff]
      omega

/-- C25: on every floor sorted by the ordering "greater `y` first, then smaller `x` first"
(no cell is before an earlier one), the binary search of `is_in_floor` gives the result of
the original linear implementation, which is true exactly when `p` is an element of the
floor. -/
theorem is_in_floor_eq_linear (floor : List position) (p : position)
    (hs : floor.Pairwise (fun a b => before b a = false)) :
    is_in_floor floor p = is_in_floor_linear floor p ∧
      (is_in_floor floor p = true ↔ p ∈ floor) := by
  refine ⟨?_, is_in_floor_iff_mem floor p hs⟩
  rw [Bool.eq_iff_iff, is_in_floor_iff_mem floor p hs]
  unfold is_in_floor_linear
  simp

/-- Witness of C25: a floor of five cells and the cell `(2, 3)`, which is in it. -/
theorem is_in_floor_eq_linear_witness :
    List.Pairwise (fun a b => before b a = false)
        [(⟨2, 4⟩ : position), ⟨3, 4⟩, ⟨2, 3⟩, ⟨3, 3⟩, ⟨0, 0⟩] ∧
      (is_in_floor [⟨2, 4⟩, ⟨3, 4⟩, ⟨2, 3⟩, ⟨3, 3⟩, ⟨0, 0⟩] ⟨2, 3⟩ =
          is_in_floor_linear [⟨2, 4⟩, ⟨3, 4⟩, ⟨2, 3⟩, ⟨3, 3⟩, ⟨0, 0⟩] ⟨2, 3⟩ ∧
        (is_in_floor [⟨2, 4⟩, ⟨3, 4⟩, ⟨2, 3⟩, ⟨3, 3⟩, ⟨0, 0⟩] ⟨2, 3⟩ = true ↔
          (⟨2, 3⟩ : position) ∈ [(⟨2, 4⟩ : position), ⟨3, 4⟩, ⟨2, 3⟩, ⟨3, 3⟩, ⟨0, 0⟩])) :=
  ⟨by decide, is_in_floor_eq_linear _ _ (by decide)⟩


/-! ## The floor stays sorted -/

theorem before_translate (a b : position) (dx dy : Int) :
    before ⟨a.x + dx, a.y + dy⟩ ⟨b.x + dx, b.y + dy⟩ = before a b := by
  rw [Bool.eq_iff_iff, before_iff, before_iff]
  simp only []
  omega

theorem sorted_translate {l : List position} (h : sorted_cells l) (dx dy : Int) :
    sorted_cells (l.map (fun p => ⟨p.x + dx, p.y + dy⟩)) := by
  unfold sorted_cells at *
  rw [List.pairwise_map]
  exact h.imp (fun {a b} hab => by rw [before_translate]; exact hab)

theorem sorted_cells_weak {l : List position} (h : sorted_cells l) :
    l.Pairwise (fun a b => before b a = false) := by
  refine List.Pairwise.imp ?_ h
  intro a b hab
  rw [before_iff] at hab
  rw [before_eq_false_iff]
  omega

theorem merge_loop_spec :
    ∀ fuel xs ys, xs.length + ys.length ≤ fuel → sorted_cells xs → sorted_cells ys →
      (∀ p ∈ ys, p ∉ xs) →
      sorted_cells (merge_loop fuel xs ys) ∧
        ∀ p, p ∈ merge_loop fuel xs ys ↔ p ∈ xs ∨ p ∈ ys := by
  intro fuel
  induction fuel with
  | zero =>
    intro xs ys hlen _ _ _
    have hx : xs = [] := List.length_eq_zero.mp (by omega)
    have hy : ys = [] := List.length_eq_zero.mp (by omega)
    subst hx; subst hy
    simp [merge_loop, sorted_cells]
  | succ fuel ih =>
    intro xs ys hlen hxs hys hdis
    cases xs with
    | nil => simp [merge_loop, hys]
    | cons a xs =>
      cases ys with
      | nil => simp [merge_loop, hxs]
      | cons b ys =>
        simp only [merge_loop]
        have hxs2 := hxs
        have hys2 := hys
        unfold sorted_cells at hxs2 hys2
        rw [List.pairwise_cons] at hxs2 hys2
        by_cases hba : before b a = true
        · rw [if_pos hba]
          obtain ⟨hs, hm⟩ := ih (a :: xs) ys (by simp at hlen ⊢; omega) hxs hys2.2
            (fun p hp => hdis p (List.mem_cons_of_mem _ hp))
          refine ⟨?_, ?_⟩
          · unfold sorted_cells
            rw [List.pairwise_cons]
            refine ⟨?_, hs⟩
            intro q hq
            rcases (hm q).mp hq with h1 | h1
            · rcases List.mem_cons.mp h1 with h2 | h2
              · rw [h2]; exact hba
              · exact before_trans hba (hxs2.1 q h2)
            · exact hys2.1 q h1
          · intro p
            simp only [List.mem_cons, hm]
            tauto
        · rw [if_neg hba]
          have hab : before a b = true := by
            have hne : b ≠ a := fun h => hdis b (List.mem_cons_self _ _)
              (by rw [h]; exact List.mem_cons_self _ _)
            have hba2 : before b a = false := by simpa using hba
            rw [before_eq_false_iff] at hba2
            rw [before_iff]
            rw [Ne, position_eq_iff] at hne
            omega
          obtain ⟨hs, hm⟩ := ih xs (b :: ys) (by simp at hlen ⊢; omega) hxs2.2 hys
            (fun p hp hpx => hdis p hp (List.mem_cons_of_mem _ hpx))
          refine ⟨?_, ?_⟩
          · unfold sorted_cells
            rw [List.pairwise_cons]
            refine ⟨?_, hs⟩
            intro q hq
            rcases (hm q).mp hq with h1 | h1
            · exact hxs2.1 q h1
            · rcases List.mem_cons.mp h1 with h2 | h2
              · rw [h2]; exact hab
              · exact before_trans hab (hys2.1 q h2)
          · intro p
            simp only [List.mem_cons, hm]
            tauto

theorem inplace_merge_spec (floor shape : List position) (hf : sorted_cells floor)
    (hs : sorted_cells shape) (hdis : ∀ p ∈ shape, p ∉ floor) :
    sorted_cells (inplace_merge floor shape) ∧
      ∀ p, p ∈ inplace_merge floor shape ↔ p ∈ floor ∨ p ∈ shape :=
  merge_loop_spec _ floor shape (le_refl _) hf hs hdis

theorem max_element_set (acc : List Int) (hlen : acc.length = 7) (i : Nat) (hi : i < 7)
    (v : Int) :
    acc.getD i 0 ≤ max_element acc ∧
      (acc.set i v).length = 7 ∧
      (acc.getD i 0 < v → max_element (acc.set i v) = max (max_element acc) v) := by
  match acc, hlen with
  | [a0, a1, a2, a3, a4, a5, a6], _ =>
    interval_cases i <;>
      simp only [max_element, List.set, List.getD_cons_zero, List.getD_cons_succ,
        List.foldl_cons, List.foldl_nil, List.length_cons, List.length_nil] <;>
      exact ⟨by simp [le_max_iff], trivial, fun h => by
        have hv := (max_eq_right h.le).symm
        conv_lhs => rw [hv]
        ac_rfl⟩

theorem max_ys_fold (floor : List position) :
    ∀ acc : List Int, acc.length = 7 → (∀ p ∈ floor, 0 ≤ p.x ∧ p.x ≤ 6) →
      (floor.foldl
        (fun acc p => if acc.getD p.x.toNat 0 < p.y then acc.set p.x.toNat p.y else acc)
        acc).length = 7 ∧
      max_element (floor.foldl
        (fun acc p => if acc.getD p.x.toNat 0 < p.y then acc.set p.x.toNat p.y else acc)
        acc) = floor.foldl (fun m p => max m p.y) (max_element acc) := by
  induction floor with
  | nil => intro acc hlen _; exact ⟨hlen, rfl⟩
  | cons p rest ih =>
    intro acc hlen hx
    have hpx := hx p (List.mem_cons_self _ _)
    have hi : p.x.toNat < 7 := by omega
    obtain ⟨h1, h2, h3⟩ := max_element_set acc hlen p.x.toNat hi p.y
    simp only [List.foldl_cons]
    by_cases hlt : acc.getD p.x.toNat 0 < p.y
    · rw [if_pos hlt]
      obtain ⟨r1, r2⟩ := ih (acc.set p.x.toNat p.y) h2
        (fun q hq => hx q (List.mem_cons_of_mem _ hq))
      exact ⟨r1, by rw [r2, h3 hlt]⟩
    · rw [if_neg hlt]
      obtain ⟨r1, r2⟩ := ih acc hlen (fun q hq => hx q (List.mem_cons_of_mem _ hq))
      refine ⟨r1, ?_⟩
      rw [r2]
      congr 1
      omega

theorem foldl_max_of_le (l : List position) :
    ∀ m : Int, (∀ q ∈ l, q.y ≤ m) → l.foldl (fun m p => max m p.y) m = m := by
  induction l with
  | nil => intro m _; rfl
  | cons q rest ih =>
    intro m h
    simp only [List.foldl_cons]
    have hq := h q (List.mem_cons_self _ _)
    rw [max_eq_left hq]
    exact ih m (fun r hr => h r (List.mem_cons_of_mem _ hr))

theorem sorted_head_greatest {p : position} {rest : List position}
    (hs : sorted_cells (p :: rest)) : ∀ q ∈ p :: rest, q.y ≤ p.y := by
  intro q hq
  unfold sorted_cells at hs
  rw [List.pairwise_cons] at hs
  rcases List.mem_cons.mp hq with h | h
  · rw [h]
  · have := hs.1 q h
    rw [before_iff] at this
    omega

theorem cleanup_floor_spec (p : position) (rest : List position) (trunc_floor : Bool)
    (hs : sorted_cells (p :: rest)) (hc : ∀ q ∈ p :: rest, in_chamber q) :
    (cleanup_floor (p :: rest) trunc_floor).1 = p.y + 1 ∧
      ∃ rest2, (cleanup_floor (p :: rest) trunc_floor).2 = p :: rest2 ∧
        sorted_cells (p :: rest2) ∧ ∀ q ∈ p :: rest2, q ∈ p :: rest := by
  constructor
  · show max_element (max_ys (p :: rest)) + 1 = p.y + 1
    have h := (max_ys_fold (p :: rest) [0, 0, 0, 0, 0, 0, 0] rfl
      (fun q hq => ⟨(hc q hq).1, (hc q hq).2.1⟩)).2
    unfold max_ys
    rw [h]
    have h0 : max_element [0, 0, 0, 0, 0, 0, 0] = 0 := by decide
    rw [h0, List.foldl_cons]
    have hp : (0 : Int) ≤ p.y := (hc p (List.mem_cons_self _ _)).2.2
    rw [max_eq_right hp]
    rw [foldl_max_of_le rest p.y
      (fun q hq => sorted_head_greatest hs q (List.mem_cons_of_mem _ hq))]
  · show ∃ rest2, (if trunc_floor && decide ((p :: rest).length > 128)
      then (p :: rest).take 128 else p :: rest) = p :: rest2 ∧ _
    by_cases ht : (trunc_floor && decide ((p :: rest).length > 128)) = true
    · rw [if_pos ht]
      refine ⟨rest.take 127, rfl, ?_, ?_⟩
      · have hsub : (p :: rest.take 127).Sublist (p :: rest) :=
          (List.take_sublist 127 rest).cons₂ p
        exact List.Pairwise.sublist hsub hs
      · intro q hq
        rcases List.mem_cons.mp hq with h | h
        · rw [h]; exact List.mem_cons_self _ _
        · exact List.mem_cons_of_mem _ (List.mem_of_mem_take h)
    · rw [if_neg ht]
      exact ⟨rest, rfl, hs, fun q hq => hq⟩


theorem shapes_spec : ∀ orig ∈ shapes,
    sorted_cells orig ∧ orig ≠ [] ∧
      ∀ o ∈ orig, 2 ≤ o.x ∧ o.x ≤ 5 ∧ 3 ≤ o.y ∧ o.y ≤ 6 := by
  unfold sorted_cells
  decide

theorem moved_sideways (floor shape orig : List position) (dx dy v : Int)
    (hf : sorted_cells floor)
    (hshape : shape = orig.map (fun p => ⟨p.x + dx, p.y + dy⟩))
    (hc : ∀ p ∈ shape, in_chamber p)
    (hwall : ∀ p ∈ shape, 0 ≤ p.x + v ∧ p.x + v ≤ 6)
    (hfree : ¬ (shape.map (fun p => (⟨p.x + v, p.y⟩ : position))).any (is_in_floor floor)
      = true) :
    shape.map (fun p => (⟨p.x + v, p.y⟩ : position))
        = orig.map (fun p => ⟨p.x + (dx + v), p.y + dy⟩) ∧
      (∀ p ∈ shape.map (fun p => (⟨p.x + v, p.y⟩ : position)), in_chamber p) ∧
      (∀ p ∈ shape.map (fun p => (⟨p.x + v, p.y⟩ : position)), p ∉ floor) := by
  refine ⟨?_, ?_, ?_⟩
  · rw [hshape, List.map_map]
    apply List.map_congr_left
    intro p _
    simp [add_assoc]
  · intro q hq
    obtain ⟨p, hp, rfl⟩ := List.mem_map.mp hq
    have h1 := hwall p hp
    have h2 := hc p hp
    exact ⟨h1.1, h1.2, h2.2.2⟩
  · intro q hq hqf
    apply hfree
    rw [List.any_eq_true]
    exact ⟨q, hq, (is_in_floor_iff_mem floor q (sorted_cells_weak hf)).mpr hqf⟩

theorem shift_spec (floor shape orig : List position) (dx dy : Int) (s : Char)
    (hf : sorted_cells floor)
    (hshape : shape = orig.map (fun p => ⟨p.x + dx, p.y + dy⟩))
    (hc : ∀ p ∈ shape, in_chamber p) (hdis : ∀ p ∈ shape, p ∉ floor) :
    ∃ dx2, shift shape floor s = orig.map (fun p => ⟨p.x + dx2, p.y + dy⟩) ∧
      (∀ p ∈ shift shape floor s, in_chamber p) ∧
      (∀ p ∈ shift shape floor s, p ∉ floor) := by
  unfold shift
  by_cases hs : s = '<'
  · rw [if_pos hs]
    by_cases hw : shape.any (fun p => p.x == 0) = true
    · rw [if_pos hw]; exact ⟨dx, hshape, hc, hdis⟩
    · rw [if_neg hw]
      by_cases hfl : (shape.map (fun p => (⟨p.x + -1, p.y⟩ : position))).any
          (is_in_floor floor) = true
      · rw [if_pos hfl]; exact ⟨dx, hshape, hc, hdis⟩
      · rw [if_neg hfl]
        have hwall : ∀ p ∈ shape, 0 ≤ p.x + -1 ∧ p.x + -1 ≤ 6 := by
          intro p hp
          have h1 := hc p hp
          have h2 : p.x ≠ 0 := by
            intro h0
            apply hw
            rw [List.any_eq_true]
            exact ⟨p, hp, by simp [h0]⟩
          unfold in_chamber at h1
          omega
        exact ⟨dx + -1, moved_sideways floor shape orig dx dy (-1) hf hshape hc hwall hfl⟩
  · rw [if_neg hs]
    by_cases hw : shape.any (fun p => p.x == 6) = true
    · rw [if_pos hw]; exact ⟨dx, hshape, hc, hdis⟩
    · rw [if_neg hw]
      by_cases hfl : (shape.map (fun p => (⟨p.x + 1, p.y⟩ : position))).any
          (is_in_floor floor) = true
      · rw [if_pos hfl]; exact ⟨dx, hshape, hc, hdis⟩
      · rw [if_neg hfl]
        have hwall : ∀ p ∈ shape, 0 ≤ p.x + 1 ∧ p.x + 1 ≤ 6 := by
          intro p hp
          have h1 := hc p hp
          have h2 : p.x ≠ 6 := by
            intro h0
            apply hw
            rw [List.any_eq_true]
            exact ⟨p, hp, by simp [h0]⟩
          unfold in_chamber at h1
          omega
        exact ⟨dx + 1, moved_sideways floor shape orig dx dy 1 hf hshape hc hwall hfl⟩

theorem fall_pos (shape floor : List position)
    (h : (shape.map (fun p => (⟨p.x, p.y + -1⟩ : position))).all
      (fun q => decide (q.y ≥ 0) && !is_in_floor floor q) = true) :
    fall shape floor = (true, shape.map (fun p => ⟨p.x, p.y + -1⟩), floor) := by
  unfold fall; rw [if_pos h]

theorem fall_neg (shape floor : List position)
    (h : ¬ (shape.map (fun p => (⟨p.x, p.y + -1⟩ : position))).all
      (fun q => decide (q.y ≥ 0) && !is_in_floor floor q) = true) :
    fall shape floor = (false, shape, inplace_merge floor shape) := by
  unfold fall; rw [if_neg h]

theorem moved_down (floor shape orig : List position) (dx dy : Int)
    (hf : sorted_cells floor)
    (hshape : shape = orig.map (fun p => ⟨p.x + dx, p.y + dy⟩))
    (hc : ∀ p ∈ shape, in_chamber p)
    (h : (shape.map (fun p => (⟨p.x, p.y + -1⟩ : position))).all
      (fun q => decide (q.y ≥ 0) && !is_in_floor floor q) = true) :
    shape.map (fun p => (⟨p.x, p.y + -1⟩ : position))
        = orig.map (fun p => ⟨p.x + dx, p.y + (dy + -1)⟩) ∧
      (∀ p ∈ shape.map (fun p => (⟨p.x, p.y + -1⟩ : position)), in_chamber p) ∧
      (∀ p ∈ shape.map (fun p => (⟨p.x, p.y + -1⟩ : position)), p ∉ floor) := by
  rw [List.all_eq_true] at h
  refine ⟨?_, ?_, ?_⟩
  · rw [hshape, List.map_map]
    apply List.map_congr_left
    intro p _
    simp [add_assoc]
  · intro q hq
    have h1 := h q hq
    obtain ⟨p, hp, rfl⟩ := List.mem_map.mp hq
    have h2 := hc p hp
    simp only [Bool.and_eq_true, decide_eq_true_eq] at h1
    exact ⟨h2.1, h2.2.1, h1.1⟩
  · intro q hq hqf
    have h1 := h q hq
    rw [(is_in_floor_iff_mem floor q (sorted_cells_weak hf)).mpr hqf] at h1
    simp at h1

theorem stopped_low (floor shape : List position) (h : Int) (h0 : 0 ≤ h)
    (hsf : sorted_cells floor) (hbelow : ∀ q ∈ floor, q.y < h)
    (hn : ¬ (shape.map (fun p => (⟨p.x, p.y + -1⟩ : position))).all
      (fun q => decide (q.y ≥ 0) && !is_in_floor floor q) = true) :
    ∃ p ∈ shape, p.y ≤ h := by
  rw [List.all_eq_true] at hn
  push_neg at hn
  obtain ⟨q, hq, hcond⟩ := hn
  obtain ⟨p, hp, rfl⟩ := List.mem_map.mp hq
  refine ⟨p, hp, ?_⟩
  by_cases hy : p.y + -1 ≥ 0
  · have hin : is_in_floor floor ⟨p.x, p.y + -1⟩ = true := by
      by_contra hcon
      apply hcond
      simp [hy, hcon]
    have := hbelow _ ((is_in_floor_iff_mem floor _ (sorted_cells_weak hsf)).mp hin)
    simp only [] at this
    omega
  · omega

theorem drop_loop_spec (raw_dirs : List Char) (hraw : raw_dirs ≠ []) (orig : List position)
    (horig : sorted_cells orig ∧ orig ≠ [] ∧
      ∀ o ∈ orig, 2 ≤ o.x ∧ o.x ≤ 5 ∧ 3 ≤ o.y ∧ o.y ≤ 6)
    (h : Int) (h0 : 0 ≤ h) :
    ∀ (fuel : Nat) (shape : List position) (dirs : List Char) (floor : List position)
      (dx dy : Int),
      sorted_cells floor → (∀ q ∈ floor, in_chamber q) → (∀ q ∈ floor, q.y < h) →
      shape = orig.map (fun p => ⟨p.x + dx, p.y + dy⟩) →
      (∀ p ∈ shape, in_chamber p) → (∀ p ∈ shape, p ∉ floor) → dy + 7 ≤ fuel →
      ∃ rest floor2, drop_loop raw_dirs fuel shape dirs floor = some (rest, floor2) ∧
        sorted_cells floor2 ∧ (∀ q ∈ floor2, in_chamber q) ∧ floor2 ≠ [] ∧
        (∀ q ∈ floor2, q.y < h + 4) := by
  obtain ⟨hos, hone, hob⟩ := horig
  obtain ⟨o, ho⟩ := List.exists_mem_of_ne_nil orig hone
  intro fuel
  induction fuel with
  | zero =>
    intro shape dirs floor dx dy _ _ _ hshape hc _ hfuel
    exfalso
    have hmem : (⟨o.x + dx, o.y + dy⟩ : position) ∈ shape := by
      rw [hshape]; exact List.mem_map.mpr ⟨o, ho, rfl⟩
    have h1 := hc _ hmem
    have h2 := hob o ho
    unfold in_chamber at h1
    simp only [] at h1
    omega
  | succ fuel ih =>
    intro shape dirs floor dx dy hsf hcf hbelow hshape hc hdis hfuel
    have hne : (if dirs.isEmpty then raw_dirs else dirs) ≠ [] := by
      by_cases hd : dirs.isEmpty = true
      · rw [if_pos hd]; exact hraw
      · rw [if_neg hd]
        intro hnil
        apply hd
        rw [hnil]; rfl
    obtain ⟨d, rest, hdr⟩ := List.exists_cons_of_ne_nil hne
    obtain ⟨dx2, hshape2, hc2, hdis2⟩ := shift_spec floor shape orig dx dy d hsf hshape hc hdis
    by_cases hall : ((shift shape floor d).map
        (fun p => (⟨p.x, p.y + -1⟩ : position))).all
        (fun q => decide (q.y ≥ 0) && !is_in_floor floor q) = true
    · obtain ⟨hshape3, hc3, hdis3⟩ :=
        moved_down floor (shift shape floor d) orig dx2 dy hsf hshape2 hc2 hall
      have hstep : drop_loop raw_dirs (fuel + 1) shape dirs floor
          = drop_loop raw_dirs fuel
            ((shift shape floor d).map (fun p => ⟨p.x, p.y + -1⟩)) rest floor := by
        simp only [drop_loop, hdr, fall_pos _ _ hall]
      rw [hstep]
      exact ih _ rest floor dx2 (dy + -1) hsf hcf hbelow hshape3 hc3 hdis3 (by omega)
    · have hstep : drop_loop raw_dirs (fuel + 1) shape dirs floor
          = some (rest, inplace_merge floor (shift shape floor d)) := by
        simp only [drop_loop, hdr, fall_neg _ _ hall]
      have hss : sorted_cells (shift shape floor d) := by
        rw [hshape2]; exact sorted_translate hos dx2 dy
      obtain ⟨hms, hmm⟩ := inplace_merge_spec floor (shift shape floor d) hsf hss hdis2
      obtain ⟨p, hp, hpy⟩ := stopped_low floor (shift shape floor d) h h0 hsf hbelow hall
      have hdy : dy ≤ h - 3 := by
        rw [hshape2] at hp
        obtain ⟨o2, ho2, rfl⟩ := List.mem_map.mp hp
        have := hob o2 ho2
        simp only [] at hpy
        omega
      refine ⟨rest, _, hstep, hms, ?_, ?_, ?_⟩
      · intro q hq
        rcases (hmm q).mp hq with h1 | h1
        · exact hcf q h1
        · exact hc2 q h1
      · intro hnil
        have hmem : (⟨o.x + dx2, o.y + dy⟩ : position) ∈ shift shape floor d := by
          rw [hshape2]; exact List.mem_map.mpr ⟨o, ho, rfl⟩
        have := (hmm _).mpr (Or.inr hmem)
        rw [hnil] at this
        exact List.not_mem_nil _ this
      · intro q hq
        rcases (hmm q).mp hq with h1 | h1
        · have := hbelow q h1; omega
        · rw [hshape2] at h1
          obtain ⟨o2, ho2, rfl⟩ := List.mem_map.mp h1
          have := hob o2 ho2
          simp only []
          omega

theorem drop_shape_spec (raw_dirs : List Char) (hraw : raw_dirs ≠ []) (orig : List position)
    (horig : orig ∈ shapes) (dirs : List Char) (floor : List position) (h : Int)
    (trunc_floor : Bool) (h0 : 0 ≤ h) (hsf : sorted_cells floor)
    (hcf : ∀ q ∈ floor, in_chamber q) (hbelow : ∀ q ∈ floor, q.y < h) :
    ∃ rest p floor2, drop_shape orig dirs raw_dirs floor h trunc_floor
        = some (p.y + 1, rest, p :: floor2) ∧
      sorted_cells (p :: floor2) ∧ (∀ q ∈ p :: floor2, in_chamber q) ∧ p.y + 1 ≤ h + 4 := by
  have hspec := shapes_spec orig horig
  have hshape : orig.map (fun p => (⟨p.x, p.y + h⟩ : position))
      = orig.map (fun p => ⟨p.x + 0, p.y + h⟩) := by
    apply List.map_congr_left
    intro p _
    simp
  have hc : ∀ p ∈ orig.map (fun p => (⟨p.x, p.y + h⟩ : position)), in_chamber p := by
    intro q hq
    obtain ⟨o, ho, rfl⟩ := List.mem_map.mp hq
    have := hspec.2.2 o ho
    unfold in_chamber
    simp only []
    omega
  have hdis : ∀ p ∈ orig.map (fun p => (⟨p.x, p.y + h⟩ : position)), p ∉ floor := by
    intro q hq hqf
    obtain ⟨o, ho, rfl⟩ := List.mem_map.mp hq
    have h1 := hspec.2.2 o ho
    have h2 := hbelow _ hqf
    simp only [] at h2
    omega
  obtain ⟨rest, floor1, hloop, hs1, hc1, hne1, hb1⟩ :=
    drop_loop_spec raw_dirs hraw orig hspec h h0 (h + 8).toNat _ dirs floor 0 h hsf hcf hbelow
      hshape hc hdis (by omega)
  obtain ⟨p, tail, rfl⟩ := List.exists_cons_of_ne_nil hne1
  obtain ⟨hv, rest2, hfl, hs2, hsub⟩ := cleanup_floor_spec p tail trunc_floor hs1 hc1
  refine ⟨rest, p, rest2, ?_, hs2, fun q hq => hc1 q (hsub q hq), ?_⟩
  · unfold drop_shape
    rw [hloop]
    simp only [Option.map_some']
    rw [hv, hfl]
  · have := hb1 p (List.mem_cons_self _ _)
    omega

theorem drop_rocks_spec (input : List Char) (hne : input ≠ []) (trunc_floor : Bool) :
    ∀ n : Nat, ∃ h dirs floor, drop_rocks input trunc_floor n = some (h, dirs, floor) ∧
      sorted_cells floor ∧ (∀ q ∈ floor, in_chamber q) ∧ 0 ≤ h ∧ h ≤ 4 * (n : Int) ∧
      (∀ q ∈ floor, q.y < h) ∧
      (0 < n → ∃ p rest, floor = p :: rest ∧ h = p.y + 1) := by
  intro n
  induction n with
  | zero =>
    refine ⟨0, input, [], rfl, ?_, ?_, le_refl _, by simp, ?_, ?_⟩
    · exact List.Pairwise.nil
    · intro q hq; exact absurd hq (List.not_mem_nil _)
    · intro q hq; exact absurd hq (List.not_mem_nil _)
    · intro h; exact absurd h (lt_irrefl _)
  | succ n ih =>
    obtain ⟨h, dirs, floor, hrun, hsf, hcf, h0, h4, hbelow, _⟩ := ih
    have horig : shapes.getD (n % 5) [] ∈ shapes := by
      have h5 : n % 5 < 5 := Nat.mod_lt _ (by decide)
      interval_cases (n % 5) <;> decide
    obtain ⟨rest, p, floor2, hdrop, hs2, hc2, hb2⟩ :=
      drop_shape_spec input hne _ horig dirs floor h trunc_floor h0 hsf hcf hbelow
    refine ⟨p.y + 1, rest, p :: floor2, ?_, hs2, hc2, ?_, ?_, ?_, ?_⟩
    · simp only [drop_rocks, hrun]
      exact hdrop
    · have := (hc2 p (List.mem_cons_self _ _)).2.2
      omega
    · push_cast
      omega
    · intro q hq
      have := sorted_head_greatest hs2 q hq
      omega
    · intro _
      exact ⟨p, floor2, rfl, rfl⟩

/-- C26: each of the five shapes is strictly sorted by "greater `y` first, then smaller `x`
first"; and from an empty floor, after any number `n` of `drop_shape` calls taking the shapes
cyclically, with any non-empty jet string (a character other than `<` pushes to the right),
the returned height threaded into the next call and truncation on or off, every call returns
and the floor is strictly sorted by the same ordering, so it holds no cell twice; once a
shape has been dropped its first element has the greatest `y` and the returned height is
that `y` plus 1.  The heights are computed without wrap-around: they are at most `4 * n`,
so no coordinate leaves `int` for any `n` below `2 ^ 28`. -/
theorem drop_shape_keeps_floor_sorted (input : List Char) (hne : input ≠ [])
    (trunc_floor : Bool) (n : Nat) :
    (∀ shape ∈ shapes, sorted_cells shape) ∧
      ∃ h dirs floor, drop_rocks input trunc_floor n = some (h, dirs, floor) ∧
        sorted_cells floor ∧ floor.Nodup ∧
        (∀ q ∈ floor, 0 ≤ q.y ∧ q.y < h) ∧ 0 ≤ h ∧ h ≤ 4 * (n : Int) ∧
        (0 < n → ∃ p rest, floor = p :: rest ∧ (∀ q ∈ floor, q.y ≤ p.y) ∧ h = p.y + 1) := by
  refine ⟨fun shape hs => (shapes_spec shape hs).1, ?_⟩
  obtain ⟨h, dirs, floor, hrun, hsf, hcf, h0, h4, hbelow, hhead⟩ :=
    drop_rocks_spec input hne trunc_floor n
  refine ⟨h, dirs, floor, hrun, hsf, ?_, fun q hq => ⟨(hcf q hq).2.2, hbelow q hq⟩, h0, h4, ?_⟩
  · refine List.Pairwise.imp ?_ hsf
    intro a b hab heq
    rw [heq, before_irrefl] at hab
    exact Bool.false_ne_true hab
  · intro hn
    obtain ⟨p, rest, hfl, hh⟩ := hhead hn
    refine ⟨p, rest, hfl, ?_, hh⟩
    intro q hq
    have := hbelow q hq
    omega

/-- Witness of C26: three rocks with the jets `><` and the truncated floor. -/
theorem drop_shape_keeps_floor_sorted_witness :
    ['>', '<'] ≠ [] ∧
      ((∀ shape ∈ shapes, sorted_cells shape) ∧
        ∃ h dirs floor, drop_rocks ['>', '<'] true 3 = some (h, dirs, floor) ∧
          sorted_cells floor ∧ floor.Nodup ∧
          (∀ q ∈ floor, 0 ≤ q.y ∧ q.y < h) ∧ 0 ≤ h ∧ h ≤ 4 * ((3 : Nat) : Int) ∧
          (0 < 3 → ∃ p rest, floor = p :: rest ∧ (∀ q ∈ floor, q.y ≤ p.y) ∧ h = p.y + 1)) :=
  ⟨by decide, drop_shape_keeps_floor_sorted ['>', '<'] (by decide) true 3⟩


/-! ## The truncated floor and the search for a repetition -/

set_option maxRecDepth 1000000 in
theorem uneven_jets_truncated : tower_height uneven_jets true 48 = some 80 := by
  decide!

set_option maxRecDepth 1000000 in
theorem uneven_jets_untruncated : tower_height uneven_jets false 48 = some 77 := by
  decide!

/-- C27: for the jet string of 24 `<` followed by 15 `>`, after 48 rocks dropped in shape
order from an empty floor the height with the truncated floor is 80 while the height with
the whole floor is 77. -/
theorem truncation_changes_height :
    uneven_jets ≠ [] ∧ (∀ c ∈ uneven_jets, c = '<' ∨ c = '>') ∧
      tower_height uneven_jets true 48 = some 80 ∧
      tower_height uneven_jets false 48 = some 77 :=
  ⟨by decide, by decide, uneven_jets_truncated, uneven_jets_untruncated⟩

/-- C28: in `[1, 2, 1, 2]` the block of length 2 at start 0 is followed by an identical
block inside the list, yet `max_len` is `(4 - 0 - 1) / 2 = 1`, nothing is pushed to `found`,
and the final `*std::min_element` has no element to return; with one more value after the
second block the repetition is found. -/
theorem find_repeated_misses_final_block :
    (([1, 2, 1, 2] : List Int).drop 0).take 2 = (([1, 2, 1, 2] : List Int).drop (0 + 2)).take 2 ∧
      0 + 2 + 2 ≤ ([1, 2, 1, 2] : List Int).length ∧
      (List.range (([1, 2, 1, 2] : List Int).length - 1)).flatMap (found_from [1, 2, 1, 2]) = [] ∧
      find_repeated [1, 2, 1, 2] = none ∧
      find_repeated [1, 2, 1, 2, 0] = some ⟨0, 2, 3⟩ := by
  decide

end Day17

namespace Day23

/-! ## The ring of cups -/

theorem mem_cup_indices (x : Int) : x ∈ cup_indices ↔ 0 ≤ x ∧ x < 9 := by
  simp only [cup_indices, List.mem_cons, List.mem_singleton, List.not_mem_nil, or_false]
  omega

set_option maxHeartbeats 1000000 in
theorem move_reads_1 (cups : cup_array) (c a b d r1 r2 r3 r4 r5 d0 : Int)
    (h : reads cups c a b d r1 r2 r3 r4 r5)
    (hd0 : incr_index c (-1) = some d0) (hdl : dest_loop a b d 4 d0 = some r1) :
    ∃ cups2, move cups c = some (cups2, r1) ∧ reads cups2 c r1 a b d r2 r3 r4 r5 := by
  obtain ⟨hnd, hrange, n0, n1, n2, n3, n4, n5, n6, n7, n8, p0, p1, p2, p3, p4, p5, p6, p7, p8⟩
    := h
  have hnd2 := List.nodup_reverse.mpr hnd
  have hc := (mem_cup_indices c).mp (hrange c (by simp))
  have ha := (mem_cup_indices a).mp (hrange a (by simp))
  have hb := (mem_cup_indices b).mp (hrange b (by simp))
  have hd := (mem_cup_indices d).mp (hrange d (by simp))
  have h1 := (mem_cup_indices r1).mp (hrange r1 (by simp))
  have h2 := (mem_cup_indices r2).mp (hrange r2 (by simp))
  have h3 := (mem_cup_indices r3).mp (hrange r3 (by simp))
  have h4 := (mem_cup_indices r4).mp (hrange r4 (by simp))
  have h5 := (mem_cup_indices r5).mp (hrange r5 (by simp))
  simp only [List.reverse_cons, List.reverse_nil, List.nil_append, List.cons_append,
    List.singleton_append] at hnd2
  simp only [List.nodup_cons, List.mem_cons, List.mem_singleton, List.not_mem_nil, not_or,
    or_false, List.nodup_nil, and_true, not_false_eq_true] at hnd hnd2
  simp only [move, forward, rd, remove, insert, set_next, set_prev,
    Option.bind_eq_bind, Option.some_bind, hd0, hdl, hc, ha, hb, hd, h1, h2, h3, h4, h5,
    n0, n1, n2, n3, n4, n5, n6, n7, n8, p0, p1, p2, p3, p4, p5, p6, p7, p8, hnd, hnd2,
    put_next, put_prev, and_self, if_true, if_false, ite_true, ite_false]
  refine ⟨_, rfl, ?_⟩
  constructor
  case nodup =>
    simp only [List.nodup_cons, List.mem_cons, List.mem_singleton, List.not_mem_nil, not_or,
      or_false, List.nodup_nil, and_true, not_false_eq_true, hnd, hnd2, and_self]
  case range =>
    intro x hx
    apply hrange
    simp only [List.mem_cons, List.mem_singleton, List.not_mem_nil, or_false] at hx ⊢
    rcases hx with e | e | e | e | e | e | e | e | e <;> simp only [e, true_or, or_true]
  all_goals
    simp only [put_next, put_prev, n0, n1, n2, n3, n4, n5, n6, n7, n8, p0, p1, p2, p3, p4,
      p5, p6, p7, p8, hnd, hnd2, if_true, if_false, ite_true, ite_false]

set_option maxHeartbeats 1000000 in
theorem move_reads_2 (cups : cup_array) (c a b d r1 r2 r3 r4 r5 d0 : Int)
    (h : reads cups c a b d r1 r2 r3 r4 r5)
    (hd0 : incr_index c (-1) = some d0) (hdl : dest_loop a b d 4 d0 = some r2) :
    ∃ cups2, move cups c = some (cups2, r1) ∧ reads cups2 c r1 r2 a b d r3 r4 r5 := by
  obtain ⟨hnd, hrange, n0, n1, n2, n3, n4, n5, n6, n7, n8, p0, p1, p2, p3, p4, p5, p6, p7, p8⟩
    := h
  have hnd2 := List.nodup_reverse.mpr hnd
  have hc := (mem_cup_indices c).mp (hrange c (by simp))
  have ha := (mem_cup_indices a).mp (hrange a (by simp))
  have hb := (mem_cup_indices b).mp (hrange b (by simp))
  have hd := (mem_cup_indices d).mp (hrange d (by simp))
  have h1 := (mem_cup_indices r1).mp (hrange r1 (by simp))
  have h2 := (mem_cup_indices r2).mp (hrange r2 (by simp))
  have h3 := (mem_cup_indices r3).mp (hrange r3 (by simp))
  have h4 := (mem_cup_indices r4).mp (hrange r4 (by simp))
  have h5 := (mem_cup_indices r5).mp (hrange r5 (by simp))
  simp only [List.reverse_cons, List.reverse_nil, List.nil_append, List.cons_append,
    List.singleton_append] at hnd2
  simp only [List.nodup_cons, List.mem_cons, List.mem_singleton, List.not_mem_nil, not_or,
    or_false, List.nodup_nil, and_true, not_false_eq_true] at hnd hnd2
  simp only [move, forward, rd, remove, insert, set_next, set_prev,
    Option.bind_eq_bind, Option.some_bind, hd0, hdl, hc, ha, hb, hd, h1, h2, h3, h4, h5,
    n0, n1, n2, n3, n4, n5, n6, n7, n8, p0, p1, p2, p3, p4, p5, p6, p7, p8, hnd, hnd2,
    put_next, put_prev, and_self, if_true, if_false, ite_true, ite_false]
  refine ⟨_, rfl, ?_⟩
  constructor
  case nodup =>
    simp only [List.nodup_cons, List.mem_cons, List.mem_singleton, List.not_mem_nil, not_or,
      or_false, List.nodup_nil, and_true, not_false_eq_true, hnd, hnd2, and_self]
  case range =>
    intro x hx
    apply hrange
    simp only [List.mem_cons, List.mem_singleton, List.not_mem_nil, or_false] at hx ⊢
    rcases hx with e | e | e | e | e | e | e | e | e <;> simp only [e, true_or, or_true]
  all_goals
    simp only [put_next, put_prev, n0, n1, n2, n3, n4, n5, n6, n7, n8, p0, p1, p2, p3, p4,
      p5, p6, p7, p8, hnd, hnd2, if_true, if_false, ite_true, ite_false]

set_option maxHeartbeats 1000000 in
theorem move_reads_3 (cups : cup_array) (c a b d r1 r2 r3 r4 r5 d0 : Int)
    (h : reads cups c a b d r1 r2 r3 r4 r5)
    (hd0 : incr_index c (-1) = some d0) (hdl : dest_loop a b d 4 d0 = some r3) :
    ∃ cups2, move cups c = some (cups2, r1) ∧ reads cups2 c r1 r2 r3 a b d r4 r5 := by
  obtain ⟨hnd, hrange, n0, n1, n2, n3, n4, n5, n6, n7, n8, p0, p1, p2, p3, p4, p5, p6, p7, p8⟩
    := h
  have hnd2 := List.nodup_reverse.mpr hnd
  have hc := (mem_cup_indices c).mp (hrange c (by simp))
  have ha := (mem_cup_indices a).mp (hrange a (by simp))
  have hb := (mem_cup_indices b).mp (hrange b (by simp))
  have hd := (mem_cup_indices d).mp (hrange d (by simp))
  have h1 := (mem_cup_indices r1).mp (hrange r1 (by simp))
  have h2 := (mem_cup_indices r2).mp (hrange r2 (by simp))
  have h3 := (mem_cup_indices r3).mp (hrange r3 (by simp))
  have h4 := (mem_cup_indices r4).mp (hrange r4 (by simp))
  have h5 := (mem_cup_indices r5).mp (hrange r5 (by simp))
  simp only [List.reverse_cons, List.reverse_nil, List.nil_append, List.cons_append,
    List.singleton_append] at hnd2
  simp only [List.nodup_cons, List.mem_cons, List.mem_singleton, List.not_mem_nil, not_or,
    or_false, List.nodup_nil, and_true, not_false_eq_true] at hnd hnd2
  simp only [move, forward, rd, remove, insert, set_next, set_prev,
    Option.bind_eq_bind, Option.some_bind, hd0, hdl, hc, ha, hb, hd, h1, h2, h3, h4, h5,
    n0, n1, n2, n3, n4, n5, n6, n7, n8, p0, p1, p2, p3, p4, p5, p6, p7, p8, hnd, hnd2,
    put_next, put_prev, and_self, if_true, if_false, ite_true, ite_false]
  refine ⟨_, rfl, ?_⟩
  constructor
  case nodup =>
    simp only [List.nodup_cons, List.mem_cons, List.mem_singleton, List.not_mem_nil, not_or,
      or_false, List.nodup_nil, and_true, not_false_eq_true, hnd, hnd2, and_self]
  case range =>
    intro x hx
    apply hrange
    simp only [List.mem_cons, List.mem_singleton, List.not_mem_nil, or_false] at hx ⊢
    rcases hx with e | e | e | e | e | e | e | e | e <;> simp only [e, true_or, or_true]
  all_goals
    simp only [put_next, put_prev, n0, n1, n2, n3, n4, n5, n6, n7, n8, p0, p1, p2, p3, p4,
      p5, p6, p7, p8, hnd, hnd2, if_true, if_false, ite_true, ite_false]

set_option maxHeartbeats 1000000 in
theorem move_reads_4 (cups : cup_array) (c a b d r1 r2 r3 r4 r5 d0 : Int)
    (h : reads cups c a b d r1 r2 r3 r4 r5)
    (hd0 : incr_index c (-1) = some d0) (hdl : dest_loop a b d 4 d0 = some r4) :
    ∃ cups2, move cups c = some (cups2, r1) ∧ reads cups2 c r1 r2 r3 r4 a b d r5 := by
  obtain ⟨hnd, hrange, n0, n1, n2, n3, n4, n5, n6, n7, n8, p0, p1, p2, p3, p4, p5, p6, p7, p8⟩
    := h
  have hnd2 := List.nodup_reverse.mpr hnd
  have hc := (mem_cup_indices c).mp (hrange c (by simp))
  have ha := (mem_cup_indices a).mp (hrange a (by simp))
  have hb := (mem_cup_indices b).mp (hrange b (by simp))
  have hd := (mem_cup_indices d).mp (hrange d (by simp))
  have h1 := (mem_cup_indices r1).mp (hrange r1 (by simp))
  have h2 := (mem_cup_indices r2).mp (hrange r2 (by simp))
  have h3 := (mem_cup_indices r3).mp (hrange r3 (by simp))
  have h4 := (mem_cup_indices r4).mp (hrange r4 (by simp))
  have h5 := (mem_cup_indices r5).mp (hrange r5 (by simp))
  simp only [List.reverse_cons, List.reverse_nil, List.nil_append, List.cons_append,
    List.singleton_append] at hnd2
  simp only [List.nodup_cons, List.mem_cons, List.mem_singleton, List.not_mem_nil, not_or,
    or_false, List.nodup_nil, and_true, not_false_eq_true] at hnd hnd2
  simp only [move, forward, rd, remove, insert, set_next, set_prev,
    Option.bind_eq_bind, Option.some_bind, hd0, hdl, hc, ha, hb, hd, h1, h2, h3, h4, h5,
    n0, n1, n2, n3, n4, n5, n6, n7, n8, p0, p1, p2, p3, p4, p5, p6, p7, p8, hnd, hnd2,
    put_next, put_prev, and_self, if_true, if_false, ite_true, ite_false]
  refine ⟨_, rfl, ?_⟩
  constructor
  case nodup =>
    simp only [List.nodup_cons, List.mem_cons, List.mem_singleton, List.not_mem_nil, not_or,
      or_false, List.nodup_nil, and_true, not_false_eq_true, hnd, hnd2, and_self]
  case range =>
    intro x hx
    apply hrange
    simp only [List.mem_cons, List.mem_singleton, List.not_mem_nil, or_false] at hx ⊢
    rcases hx with e | e | e | e | e | e | e | e | e <;> simp only [e, true_or, or_true]
  all_goals
    simp only [put_next, put_prev, n0, n1, n2, n3, n4, n5, n6, n7, n8, p0, p1, p2, p3, p4,
      p5, p6, p7, p8, hnd, hnd2, if_true, if_false, ite_true, ite_false]

set_option maxHeartbeats 1000000 in
theorem move_reads_5 (cups : cup_array) (c a b d r1 r2 r3 r4 r5 d0 : Int)
    (h : reads cups c a b d r1 r2 r3 r4 r5)
    (hd0 : incr_index c (-1) = some d0) (hdl : dest_loop a b d 4 d0 = some r5) :
    ∃ cups2, move cups c = some (cups2, r1) ∧ reads cups2 c r1 r2 r3 r4 r5 a b d := by
  obtain ⟨hnd, hrange, n0, n1, n2, n3, n4, n5, n6, n7, n8, p0, p1, p2, p3, p4, p5, p6, p7, p8⟩
    := h
  have hnd2 := List.nodup_reverse.mpr hnd
  have hc := (mem_cup_indices c).mp (hrange c (by simp))
  have ha := (mem_cup_indices a).mp (hrange a (by simp))
  have hb := (mem_cup_indices b).mp (hrange b (by simp))
  have hd := (mem_cup_indices d).mp (hrange d (by simp))
  have h1 := (mem_cup_indices r1).mp (hrange r1 (by simp))
  have h2 := (mem_cup_indices r2).mp (hrange r2 (by simp))
  have h3 := (mem_cup_indices r3).mp (hrange r3 (by simp))
  have h4 := (mem_cup_indices r4).mp (hrange r4 (by simp))
  have h5 := (mem_cup_indices r5).mp (hrange r5 (by simp))
  simp only [List.reverse_cons, List.reverse_nil, List.nil_append, List.cons_append,
    List.singleton_append] at hnd2
  simp only [List.nodup_cons, List.mem_cons, List.mem_singleton, List.not_mem_nil, not_or,
    or_false, List.nodup_nil, and_true, not_false_eq_true] at hnd hnd2
  simp only [move, forward, rd, remove, insert, set_next, set_prev,
    Option.bind_eq_bind, Option.some_bind, hd0, hdl, hc, ha, hb, hd, h1, h2, h3, h4, h5,
    n0, n1, n2, n3, n4, n5, n6, n7, n8, p0, p1, p2, p3, p4, p5, p6, p7, p8, hnd, hnd2,
    put_next, put_prev, and_self, if_true, if_false, ite_true, ite_false]
  refine ⟨_, rfl, ?_⟩
  constructor
  case nodup =>
    simp only [List.nodup_cons, List.mem_cons, List.mem_singleton, List.not_mem_nil, not_or,
      or_false, List.nodup_nil, and_true, not_false_eq_true, hnd, hnd2, and_self]
  case range =>
    intro x hx
    apply hrange
    simp only [List.mem_cons, List.mem_singleton, List.not_mem_nil, or_false] at hx ⊢
    rcases hx with e | e | e | e | e | e | e | e | e <;> simp only [e, true_or, or_true]
  all_goals
    simp only [put_next, put_prev, n0, n1, n2, n3, n4, n5, n6, n7, n8, p0, p1, p2, p3, p4,
      p5, p6, p7, p8, hnd, hnd2, if_true, if_false, ite_true, ite_false]


theorem reads_rotate {cups : cup_array} {x0 x1 x2 x3 x4 x5 x6 x7 x8 : Int}
    (h : reads cups x0 x1 x2 x3 x4 x5 x6 x7 x8) :
    reads cups x1 x2 x3 x4 x5 x6 x7 x8 x0 := by
  have hrot : [x1, x2, x3, x4, x5, x6, x7, x8, x0]
      = [x0, x1, x2, x3, x4, x5, x6, x7, x8].rotate 1 := rfl
  refine ⟨?_, ?_, h.n1, h.n2, h.n3, h.n4, h.n5, h.n6, h.n7, h.n8, h.n0,
    h.p1, h.p2, h.p3, h.p4, h.p5, h.p6, h.p7, h.p8, h.p0⟩
  · rw [hrot]; exact List.nodup_rotate.mpr h.nodup
  · intro x hx
    rw [hrot, List.mem_rotate] at hx
    exact h.range x hx

theorem reads_covers {cups : cup_array} {x0 x1 x2 x3 x4 x5 x6 x7 x8 : Int}
    (h : reads cups x0 x1 x2 x3 x4 x5 x6 x7 x8) :
    ∀ i ∈ cup_indices, i ∈ [x0, x1, x2, x3, x4, x5, x6, x7, x8] := by
  have hperm : List.Perm [x0, x1, x2, x3, x4, x5, x6, x7, x8] cup_indices :=
    (List.subperm_of_subset h.nodup h.range).perm_of_length_le (by simp [cup_indices])
  intro i hi
  exact hperm.mem_iff.mpr hi

theorem reads_ring_from {cups : cup_array} {x0 x1 x2 x3 x4 x5 x6 x7 x8 : Int}
    (h : reads cups x0 x1 x2 x3 x4 x5 x6 x7 x8) :
    ring_from cups x0 = [x0, x1, x2, x3, x4, x5, x6, x7, x8] ∧ next_iter cups 9 x0 = x0 := by
  simp only [ring_from, follow, next_iter, h.n0, h.n1, h.n2, h.n3, h.n4, h.n5, h.n6, h.n7,
    h.n8, and_self]

theorem reads_head_ok {cups : cup_array} {x0 x1 x2 x3 x4 x5 x6 x7 x8 : Int}
    (h : reads cups x0 x1 x2 x3 x4 x5 x6 x7 x8) :
    (cups x0).next ∈ cup_indices ∧ (cups x0).prev ∈ cup_indices ∧
      (cups (cups x0).next).prev = x0 ∧ (cups (cups x0).prev).next = x0 ∧
      (ring_from cups x0).Nodup ∧ (∀ j ∈ cup_indices, j ∈ ring_from cups x0) ∧
      next_iter cups 9 x0 = x0 := by
  obtain ⟨hring, hiter⟩ := reads_ring_from h
  refine ⟨?_, ?_, ?_, ?_, ?_, ?_, hiter⟩
  · rw [h.n0]; exact h.range x1 (by simp)
  · rw [h.p0]; exact h.range x8 (by simp)
  · rw [h.n0, h.p1]
  · rw [h.p0, h.n8]
  · rw [hring]; exact h.nodup
  · rw [hring]; exact reads_covers h

theorem reads_well_formed {cups : cup_array} {x0 x1 x2 x3 x4 x5 x6 x7 x8 : Int}
    (h : reads cups x0 x1 x2 x3 x4 x5 x6 x7 x8) : well_formed cups := by
  intro i hi
  have hmem := reads_covers h i hi
  have r1 := reads_rotate h
  have r2 := reads_rotate r1
  have r3 := reads_rotate r2
  have r4 := reads_rotate r3
  have r5 := reads_rotate r4
  have r6 := reads_rotate r5
  have r7 := reads_rotate r6
  have r8 := reads_rotate r7
  simp only [List.mem_cons, List.mem_singleton, List.not_mem_nil, or_false] at hmem
  rcases hmem with e | e | e | e | e | e | e | e | e <;> rw [e]
  · exact reads_head_ok h
  · exact reads_head_ok r1
  · exact reads_head_ok r2
  · exact reads_head_ok r3
  · exact reads_head_ok r4
  · exact reads_head_ok r5
  · exact reads_head_ok r6
  · exact reads_head_ok r7
  · exact reads_head_ok r8

theorem well_formed_reads {cups : cup_array} (hwf : well_formed cups) {c : Int}
    (hc : c ∈ cup_indices) :
    ∃ a b d r1 r2 r3 r4 r5, ring_from cups c = [c, a, b, d, r1, r2, r3, r4, r5] ∧
      reads cups c a b d r1 r2 r3 r4 r5 := by
  have w0 := hwf c hc
  have w1 := hwf _ w0.1
  have w2 := hwf _ w1.1
  have w3 := hwf _ w2.1
  have w4 := hwf _ w3.1
  have w5 := hwf _ w4.1
  have w6 := hwf _ w5.1
  have w7 := hwf _ w6.1
  have w8 := hwf _ w7.1
  have hring : ring_from cups c = [c, (cups c).next, (cups (cups c).next).next,
      (cups (cups (cups c).next).next).next, (cups (cups (cups (cups c).next).next).next).next,
      (cups (cups (cups (cups (cups c).next).next).next).next).next,
      (cups (cups (cups (cups (cups (cups c).next).next).next).next).next).next,
      (cups (cups (cups (cups (cups (cups (cups c).next).next).next).next).next).next).next,
      (cups (cups (cups (cups (cups (cups (cups (cups c).next).next).next).next).next).next).next).next]
      := rfl
  have hback : (cups (cups (cups (cups (cups (cups (cups (cups (cups c).next).next).next).next).next).next).next).next).next = c := w0.2.2.2.2.2.2
  refine ⟨_, _, _, _, _, _, _, _, hring, ?_⟩
  refine ⟨?_, ?_, rfl, rfl, rfl, rfl, rfl, rfl, rfl, rfl, hback, ?_, w0.2.2.1, w1.2.2.1,
    w2.2.2.1, w3.2.2.1, w4.2.2.1, w5.2.2.1, w6.2.2.1, w7.2.2.1⟩
  · rw [← hring]; exact w0.2.2.2.2.1
  · intro x hx
    simp only [List.mem_cons, List.mem_singleton, List.not_mem_nil, or_false] at hx
    rcases hx with e | e | e | e | e | e | e | e | e <;> rw [e]
    · exact hc
    · exact w0.1
    · exact w1.1
    · exact w2.1
    · exact w3.1
    · exact w4.1
    · exact w5.1
    · exact w6.1
    · exact w7.1
  · have := w8.2.2.1
    rw [hback] at this
    exact this

set_option maxRecDepth 100000 in
theorem dest_table : ∀ c ∈ cup_indices, ∀ a ∈ cup_indices, ∀ b ∈ cup_indices,
    ∀ d ∈ cup_indices, c ≠ a → c ≠ b → c ≠ d → a ≠ b → a ≠ d → b ≠ d →
    (incr_index c (-1)).bind (dest_loop a b d 4) = destination c [a, b, d] ∧
      (destination c [a, b, d]).any
        (fun dest => decide (dest ∈ cup_indices ∧ dest ∉ [c, a, b, d])) = true := by
  decide!

theorem dest_search {c a b d : Int} (hc : c ∈ cup_indices) (ha : a ∈ cup_indices)
    (hb : b ∈ cup_indices) (hd : d ∈ cup_indices) (hca : c ≠ a) (hcb : c ≠ b) (hcd : c ≠ d)
    (hab : a ≠ b) (had : a ≠ d) (hbd : b ≠ d) :
    ∃ d0 dest, incr_index c (-1) = some d0 ∧ dest_loop a b d 4 d0 = some dest ∧
      destination c [a, b, d] = some dest ∧ dest ∈ cup_indices ∧ dest ∉ [c, a, b, d] := by
  obtain ⟨h1, h2⟩ := dest_table c hc a ha b hb d hd hca hcb hcd hab had hbd
  cases hdest : destination c [a, b, d] with
  | none => rw [hdest] at h2; simp at h2
  | some dest =>
    rw [hdest] at h1 h2
    obtain ⟨d0, hd0, hdl⟩ := Option.bind_eq_some.mp h1
    simp only [Option.any_some, decide_eq_true_eq] at h2
    exact ⟨d0, dest, hd0, hdl, rfl, h2.1, h2.2⟩

theorem move_spec (cups : cup_array) (current : Int) (hwf : well_formed cups)
    (hc : current ∈ cup_indices) :
    ∃ a b d r1 r2 r3 r4 r5 d0 dest cups2,
      ring_from cups current = [current, a, b, d, r1, r2, r3, r4, r5] ∧
      incr_index current (-1) = some d0 ∧ dest_loop a b d 4 d0 = some dest ∧
      destination current [a, b, d] = some dest ∧
      move cups current = some (cups2, r1) ∧
      list_move [current, a, b, d, r1, r2, r3, r4, r5] = some (ring_from cups2 current) ∧
      (ring_from cups2 current).getD 1 0 = r1 ∧
      well_formed cups2 ∧ r1 ∈ cup_indices := by
  obtain ⟨a, b, d, r1, r2, r3, r4, r5, hring, h⟩ := well_formed_reads hwf hc
  have hnd := h.nodup
  have hnd2 := List.nodup_reverse.mpr hnd
  simp only [List.reverse_cons, List.reverse_nil, List.nil_append, List.cons_append,
    List.singleton_append] at hnd2
  simp only [List.nodup_cons, List.mem_cons, List.mem_singleton, List.not_mem_nil, not_or,
    or_false, List.nodup_nil, and_true, not_false_eq_true] at hnd hnd2
  obtain ⟨d0, dest, hd0, hdl, hdest, hdr, hdn⟩ :=
    dest_search hc (h.range a (by simp)) (h.range b (by simp)) (h.range d (by simp))
      hnd.1.1 hnd.1.2.1 hnd.1.2.2.1 hnd.2.1.1 hnd.2.1.2.1 hnd.2.2.1.1
  have hcov := reads_covers h dest hdr
  have hr1 : r1 ∈ cup_indices := h.range r1 (by simp)
  simp only [List.mem_cons, List.mem_singleton, List.not_mem_nil, or_false, not_or] at hcov hdn
  have hcases : dest = r1 ∨ dest = r2 ∨ dest = r3 ∨ dest = r4 ∨ dest = r5 := by
    rcases hcov with e | e | e | e | e
    · exact absurd e hdn.1
    · exact absurd e hdn.2.1
    · exact absurd e hdn.2.2.1
    · exact absurd e hdn.2.2.2
    · exact e
  refine ⟨a, b, d, r1, r2, r3, r4, r5, d0, dest, ?_⟩
  rcases hcases with e | e | e | e | e
  · rw [e] at hdl hdest
    obtain ⟨cups2, hmv, hr⟩ := move_reads_1 cups current a b d r1 r2 r3 r4 r5 d0 h hd0 hdl
    refine ⟨cups2, hring, hd0, by rw [e]; exact hdl, by rw [e]; exact hdest, hmv, ?_, ?_,
      reads_well_formed hr, hr1⟩
    · rw [(reads_ring_from hr).1]
      simp only [list_move, hdest, Option.map_some', insert_after, hnd, hnd2, if_false,
        if_true, ite_true, ite_false, List.cons_append, List.nil_append]
    · rw [(reads_ring_from hr).1]; rfl
  · rw [e] at hdl hdest
    obtain ⟨cups2, hmv, hr⟩ := move_reads_2 cups current a b d r1 r2 r3 r4 r5 d0 h hd0 hdl
    refine ⟨cups2, hring, hd0, by rw [e]; exact hdl, by rw [e]; exact hdest, hmv, ?_, ?_,
      reads_well_formed hr, hr1⟩
    · rw [(reads_ring_from hr).1]
      simp only [list_move, hdest, Option.map_some', insert_after, hnd, hnd2, if_false,
        if_true, ite_true, ite_false, List.cons_append, List.nil_append]
    · rw [(reads_ring_from hr).1]; rfl
  · rw [e] at hdl hdest
    obtain ⟨cups2, hmv, hr⟩ := move_reads_3 cups current a b d r1 r2 r3 r4 r5 d0 h hd0 hdl
    refine ⟨cups2, hring, hd0, by rw [e]; exact hdl, by rw [e]; exact hdest, hmv, ?_, ?_,
      reads_well_formed hr, hr1⟩
    · rw [(reads_ring_from hr).1]
      simp only [list_move, hdest, Option.map_some', insert_after, hnd, hnd2, if_false,
        if_true, ite_true, ite_false, List.cons_append, List.nil_append]
    · rw [(reads_ring_from hr).1]; rfl
  · rw [e] at hdl hdest
    obtain ⟨cups2, hmv, hr⟩ := move_reads_4 cups current a b d r1 r2 r3 r4 r5 d0 h hd0 hdl
    refine ⟨cups2, hring, hd0, by rw [e]; exact hdl, by rw [e]; exact hdest, hmv, ?_, ?_,
      reads_well_formed hr, hr1⟩
    · rw [(reads_ring_from hr).1]
      simp only [list_move, hdest, Option.map_some', insert_after, hnd, hnd2, if_false,
        if_true, ite_true, ite_false, List.cons_append, List.nil_append]
    · rw [(reads_ring_from hr).1]; rfl
  · rw [e] at hdl hdest
    obtain ⟨cups2, hmv, hr⟩ := move_reads_5 cups current a b d r1 r2 r3 r4 r5 d0 h hd0 hdl
    refine ⟨cups2, hring, hd0, by rw [e]; exact hdl, by rw [e]; exact hdest, hmv, ?_, ?_,
      reads_well_formed hr, hr1⟩
    · rw [(reads_ring_from hr).1]
      simp only [list_move, hdest, Option.map_some', insert_after, hnd, hnd2, if_false,
        if_true, ite_true, ite_false, List.cons_append, List.nil_append]
    · rw [(reads_ring_from hr).1]; rfl


theorem initial_well_formed : well_formed get_initial_state := by
  decide

theorem moves_spec (n : Nat) :
    ∃ cups current, moves n = some (cups, current) ∧ well_formed cups ∧
      current ∈ cup_indices := by
  induction n with
  | zero => exact ⟨get_initial_state, 4, rfl, initial_well_formed, by decide⟩
  | succ n ih =>
    obtain ⟨cups, current, hrun, hwf, hc⟩ := ih
    obtain ⟨a, b, d, r1, r2, r3, r4, r5, d0, dest, cups2, _, _, _, _, hmv, _, _, hwf2, hr1⟩ :=
      move_spec cups current hwf hc
    refine ⟨cups2, r1, ?_, hwf2, hr1⟩
    simp only [moves, hrun, Option.some_bind, hmv]

/-- C29: the initial ring read from cup `INIT_CUPS[0] - 1` lists the labels 5, 8, 3, 9, 7, 6,
2, 4, 1; and after any number `n` of `move` calls from `get_initial_state()` with
`current = INIT_CUPS[0] - 1`, each returned cup fed back as `current`, every call has
returned, the ring is well formed (every `next` and `prev` in 0..8, `prev` and `next` undo
each other, following `next` from any cup visits all 9 cups before returning to it),
`current` is one of the cups, and the next `move` returns as well: each of its array
accesses uses an index in 0..8, never `-1`. -/
theorem moves_keep_ring_well_formed (n : Nat) :
    (ring_from get_initial_state (INIT_CUPS.getD 0 0 - 1)).map (fun i => i + 1) = INIT_CUPS ∧
      ∃ cups current, moves n = some (cups, current) ∧ well_formed cups ∧
        current ∈ cup_indices ∧ ∃ s, move cups current = some s := by
  refine ⟨by decide, ?_⟩
  obtain ⟨cups, current, hrun, hwf, hc⟩ := moves_spec n
  obtain ⟨a, b, d, r1, r2, r3, r4, r5, d0, dest, cups2, _, _, _, _, hmv, _⟩ :=
    move_spec cups current hwf hc
  exact ⟨cups, current, hrun, hwf, hc, _, hmv⟩

/-- C30: for every well-formed ring and every current cup `c`, `move` returns, and the ring
read clockwise from `c` after the call is the list-level cup move of the ring read from `c`
before it: `[c, a, b, d, r1, ..., r5]` becomes `[c, r1, ..., r5]` with `a, b, d` put
immediately after the destination, the first label among `c - 1`, `c - 2`, ... (wrapping
from the lowest to the highest) that is not `a`, `b` or `d`.  The value returned is the cup
after `c` in the new ring, and the destination loop of `move` finds that destination with
its body run at most three times. -/
theorem move_eq_list_move (cups : cup_array) (current : Int) (hwf : well_formed cups)
    (hc : current ∈ cup_indices) :
    ∃ cups2 ret, move cups current = some (cups2, ret) ∧
      list_move (ring_from cups current) = some (ring_from cups2 current) ∧
      (ring_from cups2 current).getD 1 0 = ret ∧
      ∃ dest0 dest, incr_index current (-1) = some dest0 ∧
        dest_loop ((ring_from cups current).getD 1 0) ((ring_from cups current).getD 2 0)
          ((ring_from cups current).getD 3 0) 4 dest0 = some dest ∧
        destination current (((ring_from cups current).drop 1).take 3) = some dest := by
  obtain ⟨a, b, d, r1, r2, r3, r4, r5, d0, dest, cups2, hring, hd0, hdl, hdest, hmv, hlist,
    hret, _, _⟩ := move_spec cups current hwf hc
  refine ⟨cups2, r1, hmv, ?_, hret, d0, dest, hd0, ?_, ?_⟩
  · rw [hring]; exact hlist
  · rw [hring]; exact hdl
  · rw [hring]; exact hdest

/-- Witness of C30: the first move of the program, on the initial ring with cup 4
(label 5) as current. -/
theorem move_eq_list_move_witness :
    well_formed get_initial_state ∧ (4 : Int) ∈ cup_indices ∧
      ∃ cups2 ret, move get_initial_state 4 = some (cups2, ret) ∧
        list_move (ring_from get_initial_state 4) = some (ring_from cups2 4) ∧
        (ring_from cups2 4).getD 1 0 = ret ∧
        ∃ dest0 dest, incr_index 4 (-1) = some dest0 ∧
          dest_loop ((ring_from get_initial_state 4).getD 1 0)
            ((ring_from get_initial_state 4).getD 2 0)
            ((ring_from get_initial_state 4).getD 3 0) 4 dest0 = some dest ∧
          destination 4 (((ring_from get_initial_state 4).drop 1).take 3) = some dest :=
  ⟨by decide, by decide, move_eq_list_move get_initial_state 4 (by decide) (by decide)⟩

end Day23
